import Mathlib

/-!
# Rendering kernel of the ray tracer (`project3.cpp`) and the ray marcher (`rayMarcher.cpp`)

A shallow embedding of the geometric kernel of both programs.

* C++ `float` is modelled by exact arithmetic in an arbitrary linearly ordered field `F`
  (instantiate with `ℚ` to evaluate, with `ℝ` to reason about square roots).  Rounding,
  infinities and NaN are outside this model.
* Two tests compare a computed `float` with a threshold that the rounding error of the
  computation can cross: the determinant test of `intersectTriangle` and the shadow test of
  the marcher.  These are embedded a second time in IEEE 754 binary32 arithmetic (the
  definitions whose names end in `32`); the statements about degenerate triangles and
  about the attenuation of shadows are proved of that embedding.
* `glm::sqrt` is not part of the repository; it is a parameter `sqrt : F → F` of every
  function that (transitively) calls `glm::length`, `glm::normalize` or `glm::sqrt`.
  Theorems that depend on what a square root is assume `IsSqrt sqrt`.
* `glm::mat4` is `Matrix (Fin 4) (Fin 4) F` indexed row first, so the C++ element
  `m[c][r]` is `m r c` here.
* Loops and recursions that need not end (the marching loop, the shadow loop,
  `applyTranslation`, `applyRotation`) take a bound on their passes or depth; the theorems
  show which bound is enough.  Undefined behaviour of an index outside a vector is `none`.
* `readSetupFile` is modelled on the commands of the lines; the extraction of the values
  from the text of a line is outside the model.
-/

namespace Portfolio

/-! ## `glm` vectors -/

/-- The type `glm::vec3`. -/
@[ext] structure Vec3 (F : Type) where
  x : F
  y : F
  z : F

/-- The type `glm::vec2`. -/
@[ext] structure Vec2 (F : Type) where
  x : F
  y : F

/-- The type `glm::mat4`. -/
abbrev Mat4 (F : Type) := Matrix (Fin 4) (Fin 4) F

/-- Specification of the square root function the code takes from `glm`. -/
def IsSqrt {F : Type} [LinearOrderedField F] (sqrt : F → F) : Prop :=
  ∀ x, 0 ≤ x → 0 ≤ sqrt x ∧ sqrt x * sqrt x = x

namespace Vec3

variable {F : Type} [LinearOrderedField F]

instance : Zero (Vec3 F) := ⟨⟨0, 0, 0⟩⟩
instance : Add (Vec3 F) := ⟨fun a b => ⟨a.x + b.x, a.y + b.y, a.z + b.z⟩⟩
instance : Sub (Vec3 F) := ⟨fun a b => ⟨a.x - b.x, a.y - b.y, a.z - b.z⟩⟩
instance : Neg (Vec3 F) := ⟨fun a => ⟨-a.x, -a.y, -a.z⟩⟩
/-- Component-wise product `a * b` of two `glm::vec3`. -/
instance : Mul (Vec3 F) := ⟨fun a b => ⟨a.x * b.x, a.y * b.y, a.z * b.z⟩⟩
/-- Product `k * v` of a scalar and a `glm::vec3`. -/
instance : SMul F (Vec3 F) := ⟨fun k a => ⟨k * a.x, k * a.y, k * a.z⟩⟩

/-- The function `glm::dot`. -/
def dot (a b : Vec3 F) : F := a.x * b.x + a.y * b.y + a.z * b.z

/-- The function `glm::cross`. -/
def cross (a b : Vec3 F) : Vec3 F :=
  ⟨a.y * b.z - b.y * a.z, a.z * b.x - b.z * a.x, a.x * b.y - b.x * a.y⟩

/-- The function `glm::length`: `sqrt(dot(v, v))`. -/
def length (sqrt : F → F) (v : Vec3 F) : F := sqrt (dot v v)

/-- The function `glm::normalize`: `v * inversesqrt(dot(v, v))`. -/
def normalize (sqrt : F → F) (v : Vec3 F) : Vec3 F := (1 / sqrt (dot v v)) • v

/-- The function `glm::reflect`: `I - N * dot(N, I) * 2`. -/
def reflect (i n : Vec3 F) : Vec3 F := i - (dot n i * 2) • n

end Vec3

section Scalar

variable {F : Type} [LinearOrderedField F]

/-- The function `glm::sign` on scalars. -/
def sign (a : F) : F := if 0 < a then 1 else if a < 0 then -1 else 0

/-- The function `glm::clamp` on scalars: `min(max(x, lo), hi)`. -/
def clamp (a lo hi : F) : F := min (max a lo) hi

/-- The function `glm::clamp(v, lo, hi)` of a vector between two scalars. -/
def clampVec (v : Vec3 F) (lo hi : F) : Vec3 F :=
  ⟨clamp v.x lo hi, clamp v.y lo hi, clamp v.z lo hi⟩

/-- The macro `EPSILON` (`1e-6`) of both programs. -/
def EPSILON : F := 1 / 1000000

/-- The vector `glm::vec4(v, w)` as a column for `Matrix.mulVec`. -/
def vec4 (v : Vec3 F) (w : F) : Fin 4 → F := ![v.x, v.y, v.z, w]

/-- The conversion `glm::vec3(v4)`, which drops the fourth component. -/
def vec3 (v : Fin 4 → F) : Vec3 F := ⟨v 0, v 1, v 2⟩

/-- The function `glm::inverse` on `mat4`: the adjugate divided by the determinant. -/
def inverse (m : Mat4 F) : Mat4 F := (m.det)⁻¹ • m.adjugate

/-- The function `glm::translate(m, v)`: the last column of the result is
`m[0] * v[0] + m[1] * v[1] + m[2] * v[2] + m[3]`, the other columns are those of `m`. -/
def translate (m : Mat4 F) (v : Vec3 F) : Mat4 F :=
  Matrix.of fun r c => if c = 3 then m r 0 * v.x + m r 1 * v.y + m r 2 * v.z + m r 3 else m r c

/-- The function `glm::lookAt` (right-handed, the `glm` default). -/
def lookAt (sqrt : F → F) (eye center up : Vec3 F) : Mat4 F :=
  let f := Vec3.normalize sqrt (center - eye)
  let s := Vec3.normalize sqrt (Vec3.cross f up)
  let u := Vec3.cross s f
  !![s.x, s.y, s.z, -Vec3.dot s eye;
     u.x, u.y, u.z, -Vec3.dot u eye;
     -f.x, -f.y, -f.z, Vec3.dot f eye;
     0, 0, 0, 1]

/-- Camera ray direction of both render loops for given normalised device coordinates:
`-normalize(vec3(inverse(viewMatrix) * vec4(ndcX, ndcY, -1, 1)))`. -/
def rayDirectionNdc (sqrt : F → F) (viewMatrix : Mat4 F) (ndcX ndcY : F) : Vec3 F :=
  let clipCoords : Fin 4 → F := ![ndcX, ndcY, -1, 1]
  let eyeCoords := Matrix.mulVec (inverse viewMatrix) clipCoords
  Neg.neg (Vec3.normalize sqrt (vec3 eyeCoords))

/-- Camera ray direction of pixel `(x, y)` of a `width × height` image
(`project3.cpp` lines 411-419, `rayMarcher.cpp` lines 297-314). -/
def rayDirection (sqrt : F → F) (viewMatrix : Mat4 F) (width height x y : ℕ) : Vec3 F :=
  let aspect : F := (width : F) / (height : F)
  let ndcX : F := aspect * ((2 * (x : F)) / (width : F) - 1)
  let ndcY : F := 1 - (2 * (y : F)) / (height : F)
  rayDirectionNdc sqrt viewMatrix ndcX ndcY

/-- The conversion `static_cast<unsigned char>(c * 255)` of the pixel write.  The C++
conversion truncates; it is undefined outside `0 .. 255`, where the model wraps. -/
def toByte [FloorRing F] (c : F) : ℕ := ⌊c * 255⌋₊ % 256

end Scalar

/-! ## The ray tracer, `project3.cpp` -/

namespace RayTracer

/-- The struct `Sphere`. -/
structure Sphere (F : Type) where
  center : Vec3 F
  radius : F
  color : Vec3 F

/-- The struct `Triangle`. -/
structure Triangle (F : Type) where
  vertex1 : Vec3 F
  vertex2 : Vec3 F
  vertex3 : Vec3 F
  color : Vec3 F

/-- The struct `Plane`. -/
structure Plane (F : Type) where
  point : Vec3 F
  normal : Vec3 F
  color : Vec3 F

/-- The tag `Shape::Type` together with the member of the union it selects. -/
inductive Geometry (F : Type) where
  | sphere (s : Sphere F)
  | triangle (t : Triangle F)
  | plane (p : Plane F)

/-- The struct `Shape`. -/
structure Shape (F : Type) where
  geom : Geometry F
  color : Vec3 F
  transform : Mat4 F
  children : List ℤ

variable {F : Type} [LinearOrderedField F]

/-- The function `intersectSphere`; `some (t, normal)` stands for `true` with the two
output parameters, `none` for `false`. -/
def intersectSphere (sqrt : F → F) (rayOrigin rayDirection : Vec3 F) (sphere : Sphere F) :
    Option (F × Vec3 F) :=
  let rayToSphere := sphere.center - rayOrigin
  let projection := Vec3.dot rayToSphere rayDirection
  let closestPoint := rayOrigin + projection • rayDirection
  let distanceToCenter := Vec3.length sqrt (closestPoint - sphere.center)
  if distanceToCenter ≤ sphere.radius then
    let distanceToIntersection :=
      projection - sqrt (sphere.radius * sphere.radius - distanceToCenter * distanceToCenter)
    if distanceToIntersection ≥ 0 then
      some (distanceToIntersection, Vec3.normalize sqrt (closestPoint - sphere.center))
    else none
  else none

/-- The function `intersectTriangle`. -/
def intersectTriangle (sqrt : F → F) (rayOrigin rayDirection : Vec3 F)
    (triangle : Triangle F) : Option (F × Vec3 F) :=
  let edge1 := triangle.vertex2 - triangle.vertex1
  let edge2 := triangle.vertex3 - triangle.vertex1
  let h := Vec3.cross rayDirection edge2
  let a := Vec3.dot edge1 h
  if a > -EPSILON ∧ a < EPSILON then none
  else
    let f := 1 / a
    let s := rayOrigin - triangle.vertex1
    let u := f * Vec3.dot s h
    if u < 0 ∨ u > 1 then none
    else
      let q := Vec3.cross s edge1
      let v := f * Vec3.dot rayDirection q
      if v < 0 ∨ u + v > 1 then none
      else
        let t := f * Vec3.dot edge2 q
        if t > EPSILON then some (t, Vec3.normalize sqrt (Vec3.cross edge1 edge2))
        else none

/-- The function `intersectPlane`. -/
def intersectPlane (rayOrigin rayDirection : Vec3 F) (plane : Plane F) :
    Option (F × Vec3 F) :=
  let w0 := rayOrigin - plane.point
  let a := -Vec3.dot plane.normal w0
  let b := Vec3.dot rayDirection plane.normal
  if |b| < EPSILON then none
  else
    let t := a / b
    if t ≥ 0 then some (t, plane.normal) else none

/-- The function `intersect`. -/
def intersect (sqrt : F → F) (rayOrigin rayDirection : Vec3 F) (shape : Shape F) :
    Option (F × Vec3 F) :=
  match shape.geom with
  | .sphere s => intersectSphere sqrt rayOrigin rayDirection s
  | .triangle t => intersectTriangle sqrt rayOrigin rayDirection t
  | .plane p => intersectPlane rayOrigin rayDirection p

/-- What `intersect` returns for `shape` in the body of the loop of `traceRay`: the ray is
first mapped through the inverse of the transform of the shape (lines 243-249). -/
def localIntersect (sqrt : F → F) (rayOrigin rayDirection : Vec3 F) (shape : Shape F) :
    Option (F × Vec3 F) :=
  let inverseTransform := inverse shape.transform
  let localRayOrigin := vec3 (Matrix.mulVec inverseTransform (vec4 rayOrigin 1))
  let localRayDirection := vec3 (Matrix.mulVec inverseTransform (vec4 rayDirection 0))
  intersect sqrt localRayOrigin localRayDirection shape

/-- The variables `closestT`, `closestNormal`, `closestColor` of `traceRay`.  `none` is the
initial state `closestT = infinity` (normal and colour not yet assigned). -/
abbrev Closest (F : Type) := Option (F × Vec3 F × Vec3 F)

/-- The test `t < closestT`, where `closestT` starts at infinity. -/
def closerThan (t : F) : Closest F → Bool
  | none => true
  | some (closestT, _, _) => decide (t < closestT)

/-- One pass through the body of the loop of `traceRay` (lines 243-253). -/
def traceStep (sqrt : F → F) (rayOrigin rayDirection : Vec3 F) (closest : Closest F)
    (shape : Shape F) : Closest F :=
  match localIntersect sqrt rayOrigin rayDirection shape with
  | some (t, normal) =>
    if closerThan t closest then
      let inverseTransform := inverse shape.transform
      some (t, Vec3.normalize sqrt
        (vec3 (Matrix.mulVec (Matrix.transpose inverseTransform) (vec4 normal 0))), shape.color)
    else closest
  | none => closest

/-- The function `traceRay`. -/
def traceRay (sqrt : F → F) (rayOrigin rayDirection : Vec3 F) (shapes : List (Shape F)) :
    Vec3 F :=
  match shapes.foldl (traceStep sqrt rayOrigin rayDirection) none with
  | some (_, _, closestColor) => closestColor
  | none => ⟨0, 0, 0⟩

/-- The function `applyTranslation` (lines 267-276), with a bound on the depth of the
recursion.  `none` stands for an index outside the scene (undefined behaviour of
`scene[objectIndex]`) or for a recursion deeper than the bound. -/
def applyTranslation : ℕ → List (Shape F) → ℤ → Vec3 F → Option (List (Shape F))
  | 0, _, _, _ => none
  | fuel + 1, scene, objectIndex, translateMatrix =>
    if objectIndex < 0 then none
    else
      match scene[objectIndex.toNat]? with
      | none => none
      | some object =>
        let totalTransform := translate 1 translateMatrix * object.transform
        let scene1 := scene.set objectIndex.toNat { object with transform := totalTransform }
        object.children.foldlM
          (fun sc childIndex => applyTranslation fuel sc childIndex translateMatrix) scene1

/-- The function `applyRotation` (lines 281-289), with a bound on the depth of the
recursion, as `applyTranslation`.  `glm::rotate` and `glm::radians` are not part of the
repository: `rotate m angle axis` stands for `glm::rotate(m, glm::radians(angle), axis)`. -/
def applyRotation (rotate : Mat4 F → F → Vec3 F → Mat4 F) :
    ℕ → List (Shape F) → ℤ → F → Vec3 F → Option (List (Shape F))
  | 0, _, _, _, _ => none
  | fuel + 1, scene, objectIndex, angle, rotationAxis =>
    if objectIndex < 0 then none
    else
      match scene[objectIndex.toNat]? with
      | none => none
      | some object =>
        let scene1 := scene.set objectIndex.toNat
          { object with transform := rotate object.transform angle rotationAxis }
        object.children.foldlM
          (fun sc childIndex => applyRotation rotate fuel sc childIndex angle rotationAxis)
          scene1

/-- One line of the scene file, by the command `readSetupFile` dispatches on, with the
values the line carries (the extraction of the values from the text is outside the model).
`other` is a line with any other first word. -/
inductive Command (F : Type) where
  | image (width height : ℤ)
  | cameraPosition (position : Vec3 F)
  | cameraTarget (target : Vec3 F)
  | cameraUp (up : Vec3 F)
  | sphere (sphere : Sphere F)
  | triangle (triangle : Triangle F)
  | plane (plane : Plane F)
  | name (objectName : String)
  | parent (parentName : String)
  | transform (transformMatrix : Mat4 F)
  | other

/-- The variables of `readSetupFile` that the commands on shapes use: the scene and the map
`objectIndices`.  The globals for the image size and the camera are left out. -/
structure SetupState (F : Type) where
  scene : List (Shape F)
  objectIndices : String → Option ℤ

/-- The body of the loop of `readSetupFile` for one line (lines 308-388).  `none` stands for
undefined behaviour: `scene[childIndex]` or `scene[parentIndex]` outside the scene, or
`scene.back()` on an empty scene. -/
def readLine (st : SetupState F) : Command F → Option (SetupState F)
  | .sphere sphere =>
    some { st with scene := st.scene ++ [⟨.sphere sphere, sphere.color, 1, []⟩] }
  | .triangle triangle =>
    some { st with scene := st.scene ++ [⟨.triangle triangle, triangle.color, 1, []⟩] }
  | .plane plane =>
    some { st with scene := st.scene ++ [⟨.plane plane, plane.color, 1, []⟩] }
  | .name objectName =>
    some { st with
      objectIndices := fun key =>
        if key = objectName then some ((st.scene.length : ℤ) - 1) else st.objectIndices key }
  | .parent parentName =>
    let childIndex : ℤ := (st.scene.length : ℤ) - 1
    match st.objectIndices parentName with
    | none => some st
    | some parentIndex =>
      if childIndex < 0 ∨ parentIndex < 0 then none
      else
        match st.scene[parentIndex.toNat]? with
        | none => none
        | some parentShape =>
          some { st with
            scene := st.scene.set parentIndex.toNat
              { parentShape with children := parentShape.children ++ [childIndex] } }
  | .transform transformMatrix =>
    match st.scene[st.scene.length - 1]? with
    | none => none
    | some shape =>
      some { st with
        scene := st.scene.set (st.scene.length - 1) { shape with transform := transformMatrix } }
  | _ => some st

/-- The function `readSetupFile` on the lines of an opened file: the scene is empty and no
name is recorded at the start. -/
def readSetupFile (commands : List (Command F)) : Option (SetupState F) :=
  commands.foldlM readLine ⟨[], fun _ => none⟩

/-- The colour the render loop of `main` computes for pixel `(x, y)` (lines 409-421). -/
def pixelColor (sqrt : F → F) (cameraPosition cameraTarget cameraUp : Vec3 F)
    (width height : ℕ) (scene : List (Shape F)) (x y : ℕ) : Vec3 F :=
  let viewMatrix := lookAt sqrt cameraPosition cameraTarget cameraUp
  traceRay sqrt cameraPosition (rayDirection sqrt viewMatrix width height x y) scene

/-- The three bytes the render loop of `main` writes for pixel `(x, y)` (lines 423-425). -/
def renderPixel [FloorRing F] (sqrt : F → F) (cameraPosition cameraTarget cameraUp : Vec3 F)
    (width height : ℕ) (scene : List (Shape F)) (x y : ℕ) : ℕ × ℕ × ℕ :=
  let color := pixelColor sqrt cameraPosition cameraTarget cameraUp width height scene x y
  (toByte color.x, toByte color.y, toByte color.z)

end RayTracer

/-! ## The ray marcher, `rayMarcher.cpp` -/

namespace Vec2

variable {F : Type} [LinearOrderedField F]

/-- The function `glm::length` on `vec2`. -/
def length (sqrt : F → F) (v : Vec2 F) : F := sqrt (v.x * v.x + v.y * v.y)

end Vec2

namespace RayMarcher

/-- The struct `Sphere`. -/
structure Sphere (F : Type) where
  center : Vec3 F
  radius : F
  color : Vec3 F

/-- The struct `Triangle`. -/
structure Triangle (F : Type) where
  vertex1 : Vec3 F
  vertex2 : Vec3 F
  vertex3 : Vec3 F
  color : Vec3 F

/-- The struct `Box`. -/
structure Box (F : Type) where
  center : Vec3 F
  size : F
  color : Vec3 F

/-- The struct `Cylinder`. -/
structure Cylinder (F : Type) where
  center : Vec3 F
  rad : F
  h : F
  color : Vec3 F

/-- The tag `Shape::Type` together with the member of the union it selects. -/
inductive Geometry (F : Type) where
  | sphere (s : Sphere F)
  | triangle (t : Triangle F)
  | box (b : Box F)
  | cylinder (c : Cylinder F)

/-- The struct `Shape`. -/
structure Shape (F : Type) where
  geom : Geometry F
  color : Vec3 F
  transform : Mat4 F
  children : List ℤ

variable {F : Type} [LinearOrderedField F]

/-- The local `delta` of `main` (`.001`). -/
def delta : F := 1 / 1000

/-- The local `maxIterations` of `main`. -/
def maxIterations : ℕ := 100

/-- The local `maxDistance` of `main`. -/
def maxDistance : F := 100

/-- The function `signedDistanceSphere`. -/
def signedDistanceSphere (sqrt : F → F) (rayOrigin : Vec3 F) (sphere : Sphere F) : F :=
  Vec3.length sqrt (rayOrigin - sphere.center) - sphere.radius

/-- The squared distance from `p` to the segment from the origin to `v`, as it occurs three
times in `signedDistanceTriangle`: `dot(w, w)` for `w = v * clamp(dot(v,p)/dot(v,v), 0, 1) - p`. -/
def edgeDist2 (v p : Vec3 F) : F :=
  Vec3.dot (clamp (Vec3.dot v p / Vec3.dot v v) 0 1 • v - p)
    (clamp (Vec3.dot v p / Vec3.dot v v) 0 1 • v - p)

/-- The argument of `glm::sqrt` in `signedDistanceTriangle` (lines 142-152). -/
def triangleDist2 (rayOrigin : Vec3 F) (triangle : Triangle F) : F :=
  let v21 := triangle.vertex2 - triangle.vertex1
  let p1 := rayOrigin - triangle.vertex1
  let v32 := triangle.vertex3 - triangle.vertex2
  let p2 := rayOrigin - triangle.vertex2
  let v13 := triangle.vertex1 - triangle.vertex3
  let p3 := rayOrigin - triangle.vertex3
  let nor := Vec3.cross v21 v13
  if sign (Vec3.dot (Vec3.cross v21 nor) p1) +
      sign (Vec3.dot (Vec3.cross v32 nor) p2) +
      sign (Vec3.dot (Vec3.cross v13 nor) p3) < 2
  then min (min (edgeDist2 v21 p1) (edgeDist2 v32 p2)) (edgeDist2 v13 p3)
  else Vec3.dot nor p1 * Vec3.dot nor p1 / Vec3.dot nor nor

/-- The function `signedDistanceTriangle`. -/
def signedDistanceTriangle (sqrt : F → F) (rayOrigin : Vec3 F) (triangle : Triangle F) : F :=
  sqrt (triangleDist2 rayOrigin triangle)

/-- The function `signedDistanceBox`. -/
def signedDistanceBox (sqrt : F → F) (rayOrigin : Vec3 F) (box : Box F) : F :=
  let q : Vec3 F :=
    ⟨|rayOrigin.x - box.center.x| - 1 / 2 * box.size,
     |rayOrigin.y - box.center.y| - 1 / 2 * box.size,
     |rayOrigin.z - box.center.z| - 1 / 2 * box.size⟩
  Vec3.length sqrt ⟨max q.x 0, max q.y 0, max q.z 0⟩ + min (max q.x (max q.y q.z)) 0

/-- The vector `d` of `signedDistanceCylinder`, computed again for the normal of a cylinder
(lines 161 and 398). -/
def cylinderExcess (sqrt : F → F) (p : Vec3 F) (cylinder : Cylinder F) : Vec2 F :=
  ⟨|Vec2.length sqrt ⟨p.x - cylinder.center.x, p.z - cylinder.center.z⟩| - cylinder.rad,
   |p.y - cylinder.center.y| - cylinder.h * (1 / 2)⟩

/-- The function `signedDistanceCylinder`. -/
def signedDistanceCylinder (sqrt : F → F) (rayOrigin : Vec3 F) (cylinder : Cylinder F) : F :=
  let d := cylinderExcess sqrt rayOrigin cylinder
  let distanceToSide := Vec2.length sqrt ⟨max d.x 0, max d.y 0⟩
  let distanceToTopBottom := min (max d.x d.y) 0
  distanceToSide + distanceToTopBottom

/-- The signed distance of a shape by its tag: the four branches of lines 323-362, and again
of lines 419-427. -/
def shapeDistance (sqrt : F → F) (p : Vec3 F) (shape : Shape F) : F :=
  match shape.geom with
  | .triangle t => signedDistanceTriangle sqrt p t
  | .sphere s => signedDistanceSphere sqrt p s
  | .box b => signedDistanceBox sqrt p b
  | .cylinder c => signedDistanceCylinder sqrt p c

/-- The constant `ambientColor` of the lighting block. -/
def ambientColor : Vec3 F := ⟨1 / 10, 1 / 10, 1 / 10⟩

/-- The constant `lightPosition` of the lighting block. -/
def lightPosition : Vec3 F := ⟨-5, -5, 5⟩

/-- The constant `lightColor` of the lighting block. -/
def lightColor : Vec3 F := ⟨1, 1, 1⟩

/-- The constant `specularColor` of the lighting block. -/
def specularColor : Vec3 F := ⟨1 / 2, 1 / 2, 1 / 2⟩

/-- The vector `normalVector` of the lighting block, by the tag of the shape
(lines 372-405). -/
def normalVector (sqrt : F → F) (currentCoords : Vec3 F) (shape : Shape F) : Vec3 F :=
  match shape.geom with
  | .sphere s => Vec3.normalize sqrt (currentCoords - s.center)
  | .triangle t =>
    Neg.neg (Vec3.normalize sqrt
      (Vec3.cross (t.vertex2 - t.vertex1) (t.vertex3 - t.vertex1)))
  | .box b =>
    let n := Vec3.normalize sqrt (currentCoords - b.center)
    let maxComponent := max |n.x| (max |n.y| |n.z|)
    if |maxComponent - abs n.x| < EPSILON then ⟨sign n.x, 0, 0⟩
    else if |maxComponent - abs n.y| < EPSILON then ⟨0, sign n.y, 0⟩
    else if |maxComponent - abs n.z| < EPSILON then ⟨0, 0, sign n.z⟩
    else n
  | .cylinder c =>
    let d := cylinderExcess sqrt currentCoords c
    if Vec2.length sqrt d < EPSILON then
      Vec3.normalize sqrt ⟨0, sign (currentCoords.y - c.center.y), 0⟩
    else
      Vec3.normalize sqrt ⟨currentCoords.x - c.center.x, 0, currentCoords.z - c.center.z⟩

/-- The inner loop of the shadow test (lines 416-433): whether some shape other than the
one at index `idx` is closer than `delta` to `shadowRayOrigin`.  The C++ test
`&otherShape != &shape` compares positions in the scene, not values. -/
def occluded (sqrt : F → F) (scene : List (Shape F)) (idx : ℕ) (shadowRayOrigin : Vec3 F) :
    Bool :=
  scene.enum.any fun entry =>
    decide (entry.1 ≠ idx) && decide (shapeDistance sqrt shadowRayOrigin entry.2 < delta)

/-- The outer loop of the shadow test (lines 412-434),
`for (float t = delta; t < shadowRayDistance; t += delta)`, with the loop variable `t` and
the flag `inShadow` as arguments and a bound on the number of passes. -/
def shadowLoop (sqrt : F → F) (scene : List (Shape F)) (idx : ℕ)
    (currentCoords shadowRayDirection : Vec3 F) (shadowRayDistance : F) : ℕ → F → Bool → Bool
  | 0, _, inShadow => inShadow
  | fuel + 1, t, inShadow =>
    if t < shadowRayDistance then
      if inShadow then inShadow
      else
        shadowLoop sqrt scene idx currentCoords shadowRayDirection shadowRayDistance fuel
          (t + delta) (occluded sqrt scene idx (currentCoords + t • shadowRayDirection))
    else inShadow

variable [FloorRing F]

/-- The flag `inShadow` after the shadow test (lines 408-434).  The loop variable reaches
`shadowRayDistance` after at most `⌈shadowRayDistance / delta⌉` passes. -/
def inShadow (sqrt : F → F) (scene : List (Shape F)) (idx : ℕ) (currentCoords : Vec3 F) :
    Bool :=
  let shadowRayDirection := Vec3.normalize sqrt (lightPosition - currentCoords)
  let shadowRayDistance := Vec3.length sqrt (lightPosition - currentCoords)
  shadowLoop sqrt scene idx currentCoords shadowRayDirection shadowRayDistance
    ⌈shadowRayDistance / delta⌉₊ delta false

/-- The colour before shadow attenuation, the "Color Formula" of line 451. -/
def unshadowedColor (sqrt : F → F) (cameraPosition : Vec3 F) (shape : Shape F)
    (currentCoords : Vec3 F) : Vec3 F :=
  let lightDirection := Vec3.normalize sqrt (lightPosition - currentCoords)
  let normalVector := normalVector sqrt currentCoords shape
  let diffuseIntensity := max 0 (Vec3.dot normalVector lightDirection)
  let diffuseColor := shape.color
  let viewDirection := Vec3.normalize sqrt (cameraPosition - currentCoords)
  let reflectionDirection := Vec3.reflect (-lightDirection) normalVector
  let specularIntensity := (max 0 (Vec3.dot viewDirection reflectionDirection)) ^ 10
  clampVec (ambientColor + diffuseIntensity • diffuseColor * lightColor
    + specularIntensity • specularColor) 0 1

/-- The lighting block executed when `hitFound` is set (lines 365-455): the colour assigned
to the pixel for a hit of the shape at index `idx` at the point `currentCoords`. -/
def lighting (sqrt : F → F) (cameraPosition : Vec3 F) (scene : List (Shape F)) (idx : ℕ)
    (shape : Shape F) (currentCoords : Vec3 F) : Vec3 F :=
  let color := unshadowedColor sqrt cameraPosition shape currentCoords
  if inShadow sqrt scene idx currentCoords then (1 / 5 : F) • color else color

/-- The per-pixel variables that live across passes of the marching loop. -/
structure MarchState (F : Type) where
  distTraveled : F
  minSignedDistance : F
  color : Vec3 F
  colorPicked : Bool
  iterations : ℕ

/-- The body of `for (const auto& shape : scene)` for the shape at index `entry.1`
(lines 321-455).  The colour assigned at the hit test (`color = shape.sphere.color`) is
overwritten by the lighting block before anything reads it. -/
def shapeStep (sqrt : F → F) (cameraPosition rayDirection : Vec3 F) (scene : List (Shape F))
    (st : MarchState F) (entry : ℕ × Shape F) : MarchState F :=
  let currentCoords := cameraPosition + st.distTraveled • rayDirection
  let signedDist := shapeDistance sqrt currentCoords entry.2
  if signedDist < delta then
    { st with
      color := lighting sqrt cameraPosition scene entry.1 entry.2 currentCoords
      colorPicked := true }
  else if signedDist ≤ st.minSignedDistance then
    { st with minSignedDistance := signedDist }
  else st

/-- The condition of the marching loop (line 319). -/
def marchCond (st : MarchState F) : Bool :=
  decide (st.iterations < maxIterations) && decide (st.distTraveled < maxDistance)
    && !st.colorPicked

/-- One pass through the body of the marching loop (lines 320-458). -/
def marchBody (sqrt : F → F) (cameraPosition rayDirection : Vec3 F) (scene : List (Shape F))
    (st : MarchState F) : MarchState F :=
  let st1 := scene.enum.foldl (shapeStep sqrt cameraPosition rayDirection scene) st
  { st1 with
    distTraveled := st1.distTraveled + st1.minSignedDistance
    iterations := st1.iterations + 1 }

/-- The marching loop (line 319) with a bound on the number of passes. -/
def marchLoop (sqrt : F → F) (cameraPosition rayDirection : Vec3 F) (scene : List (Shape F)) :
    ℕ → MarchState F → MarchState F
  | 0, st => st
  | fuel + 1, st =>
    if marchCond st then
      marchLoop sqrt cameraPosition rayDirection scene fuel
        (marchBody sqrt cameraPosition rayDirection scene st)
    else st

/-- The per-pixel variables on entry to the marching loop (lines 303-317). -/
def initialState : MarchState F :=
  { distTraveled := 0, minSignedDistance := 100, color := ⟨0, 0, 0⟩, colorPicked := false,
    iterations := 0 }

/-- The per-pixel variables after the marching loop, for a given camera ray.  Every pass
increments `iterations`, so `maxIterations` passes are enough. -/
def march (sqrt : F → F) (cameraPosition rayDirection : Vec3 F) (scene : List (Shape F)) :
    MarchState F :=
  marchLoop sqrt cameraPosition rayDirection scene maxIterations initialState

/-- The colour the render loop of `main` computes for pixel `(x, y)` (lines 295-459). -/
def pixelColor (sqrt : F → F) (cameraPosition cameraTarget cameraUp : Vec3 F)
    (width height : ℕ) (scene : List (Shape F)) (x y : ℕ) : Vec3 F :=
  let viewMatrix := lookAt sqrt cameraPosition cameraTarget cameraUp
  (march sqrt cameraPosition (rayDirection sqrt viewMatrix width height x y) scene).color

/-- The three bytes the render loop of `main` writes for pixel `(x, y)` (lines 461-463). -/
def renderPixel (sqrt : F → F) (cameraPosition cameraTarget cameraUp : Vec3 F)
    (width height : ℕ) (scene : List (Shape F)) (x y : ℕ) : ℕ × ℕ × ℕ :=
  let color := pixelColor sqrt cameraPosition cameraTarget cameraUp width height scene x y
  (toByte color.x, toByte color.y, toByte color.z)

end RayMarcher

/-! ## Specification predicates -/

section Specs

variable {F : Type} [LinearOrderedField F]

/-- The ray `rayOrigin + t * rayDirection` is on the surface of `sphere` at parameter `t`:
its distance from the centre is the radius. -/
def RayTracer.OnSurface (sqrt : F → F) (rayOrigin rayDirection : Vec3 F)
    (sphere : RayTracer.Sphere F) (t : F) : Prop :=
  Vec3.length sqrt (rayOrigin + t • rayDirection - sphere.center) = sphere.radius

/-- What the variables of `traceRay` hold after the shapes `l` have been tested: nothing if
`hit` failed for all of them, otherwise the hit parameter and the colour of the first shape
of `l` that attains the least hit parameter. -/
def RayTracer.FirstNearest {α : Type} (hit : α → Option (F × Vec3 F)) (col : α → Vec3 F)
    (l : List α) : RayTracer.Closest F → Prop
  | none => ∀ s ∈ l, hit s = none
  | some (t, _, c) =>
    ∃ (i : ℕ) (shape : α) (n : Vec3 F), l[i]? = some shape ∧ hit shape = some (t, n) ∧
      c = col shape ∧
      ∀ (j : ℕ) (shape2 : α) (t2 : F) (n2 : Vec3 F), l[j]? = some shape2 →
        hit shape2 = some (t2, n2) → t ≤ t2 ∧ (j < i → t < t2)

end Specs

namespace RayMarcher

section MarchSpecs

variable {F : Type} [LinearOrderedField F] [FloorRing F]

/-- The per-pixel variables after `k` passes through the body of the marching loop. -/
def marchState (sqrt : F → F) (cameraPosition rayDirection : Vec3 F) (scene : List (Shape F))
    (k : ℕ) : MarchState F :=
  (marchBody sqrt cameraPosition rayDirection scene)^[k] initialState

/-- The point `currentCoords` of the pass that starts with `k` passes done. -/
def marchPoint (sqrt : F → F) (cameraPosition rayDirection : Vec3 F) (scene : List (Shape F))
    (k : ℕ) : Vec3 F :=
  cameraPosition + (marchState sqrt cameraPosition rayDirection scene k).distTraveled • rayDirection

/-- The loop executes the pass that starts with `k` passes done: its condition held every
time it was tested so far. -/
def Runs (sqrt : F → F) (cameraPosition rayDirection : Vec3 F) (scene : List (Shape F))
    (k : ℕ) : Prop :=
  ∀ j, j ≤ k → marchCond (marchState sqrt cameraPosition rayDirection scene j) = true

end MarchSpecs

end RayMarcher

section TriangleSpecs

variable {F : Type} [LinearOrderedField F]

/-- The point `q` belongs to the filled triangle, the convex hull of the three vertices. -/
def RayMarcher.InTriangle (triangle : RayMarcher.Triangle F) (q : Vec3 F) : Prop :=
  ∃ u v : F, 0 ≤ u ∧ 0 ≤ v ∧ u + v ≤ 1 ∧
    q = triangle.vertex1 + u • (triangle.vertex2 - triangle.vertex1)
      + v • (triangle.vertex3 - triangle.vertex1)

/-- The squared length of `w - u e - v g` in terms of the dot products `ee = e.e`,
`gg = g.g`, `eg = e.g`, `ww = w.w`, `x = w.e` and `y = w.g`. -/
def RayMarcher.planeDist2 (ee gg eg ww x y u v : F) : F :=
  ww - 2 * (u * x + v * y) + (u * u * ee + 2 * (u * v) * eg + v * v * gg)

end TriangleSpecs

section OrderSpecs

variable {F : Type} [LinearOrderedField F]

/-- The hit parameters of the shapes `a` and `b` differ when the ray hits both. -/
def RayTracer.DistinctHits (sqrt : F → F) (rayOrigin rayDirection : Vec3 F)
    (a b : RayTracer.Shape F) : Prop :=
  ∀ (ta tb : F) (na nb : Vec3 F),
    RayTracer.localIntersect sqrt rayOrigin rayDirection a = some (ta, na) →
    RayTracer.localIntersect sqrt rayOrigin rayDirection b = some (tb, nb) → ta ≠ tb

end OrderSpecs

section TreeSpecs

variable {F : Type} [LinearOrderedField F]

/-- `Path scene i steps j`: starting at the shape with index `i` and taking, at each shape
on the way, the entry of its child list at the position listed in `steps`, one arrives at
the index `j`. -/
inductive RayTracer.Path (scene : List (RayTracer.Shape F)) : ℤ → List ℕ → ℤ → Prop
  | nil (i : ℤ) : RayTracer.Path scene i [] i
  | cons (i : ℤ) (object : RayTracer.Shape F) (k : ℕ) (c : ℤ) (steps : List ℕ) (j : ℤ) :
      0 ≤ i → scene[i.toNat]? = some object → object.children[k]? = some c →
      RayTracer.Path scene c steps j → RayTracer.Path scene i (k :: steps) j

/-- The shape with index `j` is the shape with index `i` or one of its descendants. -/
def RayTracer.Reaches (scene : List (RayTracer.Shape F)) (i j : ℤ) : Prop :=
  ∃ steps, RayTracer.Path scene i steps j

/-- The child lists under index `i` form a tree: every index reached from `i` is an index of
the scene, and no shape is reached twice (along two different paths) from `i`. -/
def RayTracer.IsTree (scene : List (RayTracer.Shape F)) (i : ℤ) : Prop :=
  (∀ steps j, RayTracer.Path scene i steps j → 0 ≤ j ∧ j.toNat < scene.length) ∧
  ∀ steps steps' j, RayTracer.Path scene i steps j → RayTracer.Path scene i steps' j →
    steps = steps'

/-- The scene `after` is the scene `before` with the transform `M` of every shape whose
index is in `moved` replaced by `translate(v) * M`, and nothing else changed. -/
def RayTracer.Moved (v : Vec3 F) (moved : Set ℕ) (before after : List (RayTracer.Shape F)) :
    Prop :=
  after.length = before.length ∧
  ∀ (j : ℕ) (s : RayTracer.Shape F), before[j]? = some s →
    (j ∈ moved → after[j]? = some { s with transform := translate 1 v * s.transform }) ∧
    (j ∉ moved → after[j]? = some s)

end TreeSpecs

section RangeSpecs

variable {F : Type} [LinearOrderedField F]

/-- Every channel of the colour `v` lies between `lo` and `hi`. -/
def Vec3.Within (lo hi : F) (v : Vec3 F) : Prop :=
  (lo ≤ v.x ∧ v.x ≤ hi) ∧ (lo ≤ v.y ∧ v.y ≤ hi) ∧ (lo ≤ v.z ∧ v.z ≤ hi)

end RangeSpecs

section SetupSpecs

variable {F : Type} [LinearOrderedField F]

/-- Every entry of a child list is an index of the scene greater than the index of the
shape that holds the list. -/
def RayTracer.Forward (scene : List (RayTracer.Shape F)) : Prop :=
  ∀ (j : ℕ) (s : RayTracer.Shape F) (c : ℤ), scene[j]? = some s → c ∈ s.children →
    (j : ℤ) < c ∧ c < (scene.length : ℤ)

/-- Every index recorded for a name is an index of the scene. -/
def RayTracer.NamesValid (st : RayTracer.SetupState F) : Prop :=
  ∀ (key : String) (i : ℤ), st.objectIndices key = some i →
    0 ≤ i ∧ i < (st.scene.length : ℤ)

/-- The lines `commands`, read from the state `st` on, contain no `name` and no `transform`
line while the scene is empty, and no `parent` line that names the most recent shape
itself. -/
def RayTracer.WellFormed : RayTracer.SetupState F → List (RayTracer.Command F) → Prop
  | _, [] => True
  | st, command :: rest =>
    (match command with
      | .name _ => st.scene ≠ []
      | .transform _ => st.scene ≠ []
      | .parent parentName =>
        st.objectIndices parentName ≠ some ((st.scene.length : ℤ) - 1)
      | _ => True) ∧
    ∀ st', RayTracer.readLine st command = some st' → RayTracer.WellFormed st' rest

/-- The scenes `a` and `b` have the same length and the same child lists. -/
def RayTracer.SameChildren (a b : List (RayTracer.Shape F)) : Prop :=
  b.length = a.length ∧
  ∀ (j : ℕ) (s : RayTracer.Shape F), a[j]? = some s →
    ∃ s', b[j]? = some s' ∧ s'.children = s.children

end SetupSpecs

/-! ## The arithmetic of `float`

Two tests of the code compare a computed `float` with a threshold close to the rounding
error of the computation: the determinant test of `intersectTriangle` and the shadow test
of the marcher.  For these the code is embedded a second time, below, with the result of
every `float` operation rounded to IEEE 754 binary32 (round to nearest, ties to even, one
rounding for each operation, no fused multiply-add).  A finite `float` is the rational
number it stands for.  Infinities, NaN, overflow and the sign of zero are outside this
model as well: a division by zero and the square root of a negative number give `0`. -/

section Binary32

/-- The number `⌊log₂ n⌋` for `n ≥ 1`, by at most `fuel` halvings. -/
def log2Fuel : ℕ → ℕ → ℕ
  | 0, _ => 0
  | fuel + 1, n => if 2 ≤ n then log2Fuel fuel (n / 2) + 1 else 0

/-- The number `⌊log₂ n⌋` for `n ≥ 1`. -/
def floorLog2 (n : ℕ) : ℕ := log2Fuel n n

/-- The greatest `r' ≥ r` with `r' - r < 2 ^ bits` and `r' ^ 2 ≤ n`, bit by bit. -/
def sqrtBits (n : ℕ) : ℕ → ℕ → ℕ
  | 0, r => r
  | b + 1, r => if (r + 2 ^ b) ^ 2 ≤ n then sqrtBits n b (r + 2 ^ b) else sqrtBits n b r

/-- The number `⌊√n⌋`. -/
def floorSqrt (n : ℕ) : ℕ := sqrtBits n (floorLog2 n / 2 + 1) 0

/-- The exponent `⌊log₂ |x|⌋` of a rational `x ≠ 0`. -/
def exponent (x : ℚ) : ℤ :=
  let k : ℤ := (floorLog2 x.num.natAbs : ℤ) - (floorLog2 x.den : ℤ)
  if (2 : ℚ) ^ k ≤ |x| then k else k - 1

/-- The integer nearest to `y`, the even one of the two when `y` is half way. -/
def roundEven (y : ℚ) : ℤ :=
  let f := ⌊y⌋
  if y - f < 1 / 2 then f
  else if 1 / 2 < y - f then f + 1
  else if f % 2 = 0 then f else f + 1

/-- Rounding to the nearest number of a binary format with `p` significant bits whose
least positive number is `2 ^ emin`, ties to even: the nearest multiple of `2 ^ e` for
`e = max(⌊log₂ |x|⌋ - (p - 1), emin)`. -/
def roundTo (p : ℕ) (emin : ℤ) (x : ℚ) : ℚ :=
  if x = 0 then 0
  else
    let e := max (exponent x - ((p : ℤ) - 1)) emin
    roundEven (x / 2 ^ e) * 2 ^ e

/-- The square root rounded to the nearest number with `p` significant bits: with
`e = ⌊⌊log₂ x⌋ / 2⌋ - (p - 1)` and `y = x / 4 ^ e`, the integer nearest to `√y` times
`2 ^ e`; `√y` is compared with `⌊√y⌋ + 1/2` through the squares. -/
def sqrtTo (p : ℕ) (x : ℚ) : ℚ :=
  if x ≤ 0 then 0
  else
    let e := exponent x / 2 - ((p : ℤ) - 1)
    let y : ℚ := x / ((2 : ℚ) ^ e) ^ 2
    let f : ℤ := floorSqrt ⌊y⌋.toNat
    let m : ℤ :=
      if y < ((f : ℚ) + 1 / 2) ^ 2 then f
      else if ((f : ℚ) + 1 / 2) ^ 2 < y then f + 1
      else if f % 2 = 0 then f else f + 1
    m * 2 ^ e

/-- Conversion to `float`. -/
def round32 (x : ℚ) : ℚ := roundTo 24 (-149) x

/-- Conversion to `double`, the type of the literals `1e-6` and `.001`. -/
def round64 (x : ℚ) : ℚ := roundTo 53 (-1074) x

/-- The sum `a + b` of two `float`. -/
def add32 (a b : ℚ) : ℚ := round32 (a + b)

/-- The difference `a - b` of two `float`. -/
def sub32 (a b : ℚ) : ℚ := round32 (a - b)

/-- The product `a * b` of two `float`. -/
def mul32 (a b : ℚ) : ℚ := round32 (a * b)

/-- The quotient `a / b` of two `float`. -/
def div32 (a b : ℚ) : ℚ := round32 (a / b)

/-- The function `glm::sqrt` on `float`. -/
def sqrt32 (a : ℚ) : ℚ := sqrtTo 24 a

/-- The macro `EPSILON`: the `double` literal `1e-6`, with which a `float` is compared after
its exact conversion to `double`. -/
def EPSILON64 : ℚ := round64 (1 / 1000000)

/-- The difference of two `glm::vec3`. -/
def Vec3.sub32 (a b : Vec3 ℚ) : Vec3 ℚ :=
  ⟨Portfolio.sub32 a.x b.x, Portfolio.sub32 a.y b.y, Portfolio.sub32 a.z b.z⟩

/-- The sum of two `glm::vec3`. -/
def Vec3.add32 (a b : Vec3 ℚ) : Vec3 ℚ :=
  ⟨Portfolio.add32 a.x b.x, Portfolio.add32 a.y b.y, Portfolio.add32 a.z b.z⟩

/-- The product of a `glm::vec3` and a scalar, in either order. -/
def Vec3.scale32 (k : ℚ) (a : Vec3 ℚ) : Vec3 ℚ :=
  ⟨mul32 k a.x, mul32 k a.y, mul32 k a.z⟩

/-- The function `glm::dot`: the three products are added from the left. -/
def Vec3.dot32 (a b : Vec3 ℚ) : ℚ :=
  Portfolio.add32 (Portfolio.add32 (mul32 a.x b.x) (mul32 a.y b.y)) (mul32 a.z b.z)

/-- The function `glm::cross`. -/
def Vec3.cross32 (a b : Vec3 ℚ) : Vec3 ℚ :=
  ⟨Portfolio.sub32 (mul32 a.y b.z) (mul32 b.y a.z),
   Portfolio.sub32 (mul32 a.z b.x) (mul32 b.z a.x),
   Portfolio.sub32 (mul32 a.x b.y) (mul32 b.x a.y)⟩

/-- The function `glm::length`: `sqrt(dot(v, v))`. -/
def Vec3.length32 (v : Vec3 ℚ) : ℚ := sqrt32 (Vec3.dot32 v v)

/-- The function `glm::length` of a `glm::vec2`. -/
def Vec2.length32 (v : Vec2 ℚ) : ℚ :=
  sqrt32 (Portfolio.add32 (mul32 v.x v.x) (mul32 v.y v.y))

/-- The function `intersectTriangle` in `float` arithmetic: the value written to `t` when
the function returns `true`.  The normal it writes is left out; for a triangle whose
`cross(edge1, edge2)` is zero it is the quotient of zero by zero. -/
def RayTracer.intersectTriangle32 (rayOrigin rayDirection : Vec3 ℚ)
    (triangle : RayTracer.Triangle ℚ) : Option ℚ :=
  let edge1 := Vec3.sub32 triangle.vertex2 triangle.vertex1
  let edge2 := Vec3.sub32 triangle.vertex3 triangle.vertex1
  let h := Vec3.cross32 rayDirection edge2
  let a := Vec3.dot32 edge1 h
  if a > -EPSILON64 ∧ a < EPSILON64 then none
  else
    let f := div32 1 a
    let s := Vec3.sub32 rayOrigin triangle.vertex1
    let u := mul32 f (Vec3.dot32 s h)
    if u < 0 ∨ u > 1 then none
    else
      let q := Vec3.cross32 s edge1
      let v := mul32 f (Vec3.dot32 rayDirection q)
      if v < 0 ∨ add32 u v > 1 then none
      else
        let t := mul32 f (Vec3.dot32 edge2 q)
        if t > EPSILON64 then some t else none

/-- The local `delta` of `main`: the `double` literal `.001` converted to `float`. -/
def RayMarcher.delta32 : ℚ := round32 (round64 (1 / 1000))

/-- The function `signedDistanceSphere` in `float` arithmetic. -/
def RayMarcher.signedDistanceSphere32 (rayOrigin : Vec3 ℚ) (sphere : RayMarcher.Sphere ℚ) :
    ℚ :=
  sub32 (Vec3.length32 (Vec3.sub32 rayOrigin sphere.center)) sphere.radius

/-- The value `dot(w, w)` for `w = v * clamp(dot(v,p)/dot(v,v), 0, 1) - p` of
`signedDistanceTriangle` in `float` arithmetic. -/
def RayMarcher.edgeDist32 (v p : Vec3 ℚ) : ℚ :=
  Vec3.dot32
    (Vec3.sub32 (Vec3.scale32 (clamp (div32 (Vec3.dot32 v p) (Vec3.dot32 v v)) 0 1) v) p)
    (Vec3.sub32 (Vec3.scale32 (clamp (div32 (Vec3.dot32 v p) (Vec3.dot32 v v)) 0 1) v) p)

/-- The function `signedDistanceTriangle` in `float` arithmetic.  The three signs are
`-1`, `0` or `1`, so their sums are exact. -/
def RayMarcher.signedDistanceTriangle32 (rayOrigin : Vec3 ℚ)
    (triangle : RayMarcher.Triangle ℚ) : ℚ :=
  let v21 := Vec3.sub32 triangle.vertex2 triangle.vertex1
  let p1 := Vec3.sub32 rayOrigin triangle.vertex1
  let v32 := Vec3.sub32 triangle.vertex3 triangle.vertex2
  let p2 := Vec3.sub32 rayOrigin triangle.vertex2
  let v13 := Vec3.sub32 triangle.vertex1 triangle.vertex3
  let p3 := Vec3.sub32 rayOrigin triangle.vertex3
  let nor := Vec3.cross32 v21 v13
  sqrt32
    (if sign (Vec3.dot32 (Vec3.cross32 v21 nor) p1) +
        sign (Vec3.dot32 (Vec3.cross32 v32 nor) p2) +
        sign (Vec3.dot32 (Vec3.cross32 v13 nor) p3) < 2
    then min (min (RayMarcher.edgeDist32 v21 p1) (RayMarcher.edgeDist32 v32 p2))
      (RayMarcher.edgeDist32 v13 p3)
    else div32 (mul32 (Vec3.dot32 nor p1) (Vec3.dot32 nor p1)) (Vec3.dot32 nor nor))

/-- The function `signedDistanceBox` in `float` arithmetic. -/
def RayMarcher.signedDistanceBox32 (rayOrigin : Vec3 ℚ) (box : RayMarcher.Box ℚ) : ℚ :=
  let q : Vec3 ℚ :=
    ⟨sub32 |sub32 rayOrigin.x box.center.x| (mul32 (1 / 2) box.size),
     sub32 |sub32 rayOrigin.y box.center.y| (mul32 (1 / 2) box.size),
     sub32 |sub32 rayOrigin.z box.center.z| (mul32 (1 / 2) box.size)⟩
  add32 (Vec3.length32 ⟨max q.x 0, max q.y 0, max q.z 0⟩) (min (max q.x (max q.y q.z)) 0)

/-- The function `signedDistanceCylinder` in `float` arithmetic. -/
def RayMarcher.signedDistanceCylinder32 (rayOrigin : Vec3 ℚ)
    (cylinder : RayMarcher.Cylinder ℚ) : ℚ :=
  let d : Vec2 ℚ :=
    ⟨sub32 |Vec2.length32 ⟨sub32 rayOrigin.x cylinder.center.x,
        sub32 rayOrigin.z cylinder.center.z⟩| cylinder.rad,
     sub32 |sub32 rayOrigin.y cylinder.center.y| (mul32 cylinder.h (1 / 2))⟩
  let distanceToSide := Vec2.length32 ⟨max d.x 0, max d.y 0⟩
  let distanceToTopBottom := min (max d.x d.y) 0
  add32 distanceToSide distanceToTopBottom

/-- The signed distance of a shape by its tag in `float` arithmetic, as in lines
419-427. -/
def RayMarcher.shapeDistance32 (p : Vec3 ℚ) (shape : RayMarcher.Shape ℚ) : ℚ :=
  match shape.geom with
  | .triangle t => RayMarcher.signedDistanceTriangle32 p t
  | .sphere s => RayMarcher.signedDistanceSphere32 p s
  | .box b => RayMarcher.signedDistanceBox32 p b
  | .cylinder c => RayMarcher.signedDistanceCylinder32 p c

/-- The inner loop of the shadow test (lines 416-433) in `float` arithmetic. -/
def RayMarcher.occluded32 (scene : List (RayMarcher.Shape ℚ)) (idx : ℕ)
    (shadowRayOrigin : Vec3 ℚ) : Bool :=
  scene.enum.any fun entry =>
    decide (entry.1 ≠ idx)
      && decide (RayMarcher.shapeDistance32 shadowRayOrigin entry.2 < RayMarcher.delta32)

end Binary32

/-! ## Vectors and square roots -/

section Basics

variable {F : Type} [LinearOrderedField F]

@[simp] theorem Vec3.add_x (a b : Vec3 F) : (a + b).x = a.x + b.x := rfl
@[simp] theorem Vec3.add_y (a b : Vec3 F) : (a + b).y = a.y + b.y := rfl
@[simp] theorem Vec3.add_z (a b : Vec3 F) : (a + b).z = a.z + b.z := rfl
@[simp] theorem Vec3.sub_x (a b : Vec3 F) : (a - b).x = a.x - b.x := rfl
@[simp] theorem Vec3.sub_y (a b : Vec3 F) : (a - b).y = a.y - b.y := rfl
@[simp] theorem Vec3.sub_z (a b : Vec3 F) : (a - b).z = a.z - b.z := rfl
@[simp] theorem Vec3.neg_x (a : Vec3 F) : (-a).x = -a.x := rfl
@[simp] theorem Vec3.neg_y (a : Vec3 F) : (-a).y = -a.y := rfl
@[simp] theorem Vec3.neg_z (a : Vec3 F) : (-a).z = -a.z := rfl
@[simp] theorem Vec3.mul_x (a b : Vec3 F) : (a * b).x = a.x * b.x := rfl
@[simp] theorem Vec3.mul_y (a b : Vec3 F) : (a * b).y = a.y * b.y := rfl
@[simp] theorem Vec3.mul_z (a b : Vec3 F) : (a * b).z = a.z * b.z := rfl
@[simp] theorem Vec3.smul_x (k : F) (a : Vec3 F) : (k • a).x = k * a.x := rfl
@[simp] theorem Vec3.smul_y (k : F) (a : Vec3 F) : (k • a).y = k * a.y := rfl
@[simp] theorem Vec3.smul_z (k : F) (a : Vec3 F) : (k • a).z = k * a.z := rfl
@[simp] theorem Vec3.zero_x : (0 : Vec3 F).x = 0 := rfl
@[simp] theorem Vec3.zero_y : (0 : Vec3 F).y = 0 := rfl
@[simp] theorem Vec3.zero_z : (0 : Vec3 F).z = 0 := rfl

theorem Vec3.dot_self_nonneg (v : Vec3 F) : 0 ≤ Vec3.dot v v := by
  unfold Vec3.dot
  nlinarith [mul_self_nonneg v.x, mul_self_nonneg v.y, mul_self_nonneg v.z]

theorem IsSqrt.nonneg {sqrt : F → F} (hs : IsSqrt sqrt) {x : F} (hx : 0 ≤ x) : 0 ≤ sqrt x :=
  (hs x hx).1

theorem IsSqrt.mul_self {sqrt : F → F} (hs : IsSqrt sqrt) {x : F} (hx : 0 ≤ x) :
    sqrt x * sqrt x = x :=
  (hs x hx).2

/-- A non-negative number with the right square is the square root. -/
theorem IsSqrt.eq_of_mul_self {sqrt : F → F} (hs : IsSqrt sqrt) {x y : F} (hy : 0 ≤ y)
    (hxy : y * y = x) : sqrt x = y := by
  have hx : 0 ≤ x := by rw [← hxy]; exact mul_self_nonneg y
  have h1 := hs.nonneg hx
  have h2 := hs.mul_self hx
  nlinarith [mul_self_nonneg (sqrt x - y)]

theorem IsSqrt.sqrt_mul_self {sqrt : F → F} (hs : IsSqrt sqrt) {a : F} (ha : 0 ≤ a) :
    sqrt (a * a) = a :=
  hs.eq_of_mul_self ha rfl

theorem IsSqrt.sqrt_zero {sqrt : F → F} (hs : IsSqrt sqrt) : sqrt 0 = 0 :=
  hs.eq_of_mul_self le_rfl (by ring)

theorem IsSqrt.sqrt_one {sqrt : F → F} (hs : IsSqrt sqrt) : sqrt 1 = 1 :=
  hs.eq_of_mul_self zero_le_one (by ring)

/-- Comparison of a square root with a non-negative bound. -/
theorem IsSqrt.le_iff {sqrt : F → F} (hs : IsSqrt sqrt) {x r : F} (hx : 0 ≤ x) (hr : 0 ≤ r) :
    sqrt x ≤ r ↔ x ≤ r * r := by
  have h1 := hs.nonneg hx
  have h2 := hs.mul_self hx
  constructor
  · intro h; nlinarith
  · intro h; by_contra hcon; push_neg at hcon; nlinarith

theorem IsSqrt.pos {sqrt : F → F} (hs : IsSqrt sqrt) {x : F} (hx : 0 < x) : 0 < sqrt x := by
  have h1 := hs.nonneg hx.le
  have h2 := hs.mul_self hx.le
  rcases h1.eq_or_lt with h | h
  · rw [← h] at h2; simp at h2; exact absurd h2 hx.ne
  · exact h

/-- The real square root meets the specification. -/
theorem isSqrt_real : IsSqrt Real.sqrt :=
  fun x hx => ⟨Real.sqrt_nonneg x, Real.mul_self_sqrt hx⟩

end Basics

namespace RayTracer

section TraceRay

variable {F : Type} [LinearOrderedField F]

/-- The loop of `traceRay` keeps the first shape that attains the least hit parameter. -/
theorem foldl_traceStep_firstNearest (sqrt : F → F) (o d : Vec3 F) (l : List (Shape F)) :
    FirstNearest (localIntersect sqrt o d) Shape.color l (l.foldl (traceStep sqrt o d) none) := by
  induction l using List.reverseRecOn with
  | nil => simp [FirstNearest]
  | append_singleton l s ih =>
    rw [List.foldl_append, List.foldl_cons, List.foldl_nil]
    have key : ∀ j (shape2 : Shape F), (l ++ [s])[j]? = some shape2 →
        (j < l.length ∧ l[j]? = some shape2) ∨ (j = l.length ∧ shape2 = s) := by
      intro j shape2 h
      rcases Nat.lt_trichotomy j l.length with hj | hj | hj
      · left; rw [List.getElem?_append_left hj] at h; exact ⟨hj, h⟩
      · right; subst hj; simp at h; exact ⟨rfl, h.symm⟩
      · exfalso
        have : (l ++ [s]).length ≤ j := by simp; omega
        rw [List.getElem?_eq_none this] at h; cases h
    cases hacc : l.foldl (traceStep sqrt o d) none with
    | none =>
      rw [hacc] at ih
      simp only [FirstNearest] at ih
      cases hs : localIntersect sqrt o d s with
      | none =>
        simp only [traceStep, hs, FirstNearest]
        intro s2 hs2
        rcases List.mem_append.1 hs2 with h | h
        · exact ih s2 h
        · simp at h; rw [h]; exact hs
      | some tn =>
        obtain ⟨t, n⟩ := tn
        simp only [traceStep, hs, closerThan, if_true, FirstNearest]
        refine ⟨l.length, s, n, by simp, hs, rfl, ?_⟩
        intro j shape2 t2 n2 hj h2
        rcases key j shape2 hj with ⟨hlt, hj2⟩ | ⟨rfl, rfl⟩
        · have := ih shape2 (List.getElem?_mem hj2)
          rw [this] at h2; cases h2
        · rw [hs] at h2; cases h2
          exact ⟨le_refl _, fun h => absurd h (lt_irrefl _)⟩
    | some acc =>
      obtain ⟨t0, n0, c0⟩ := acc
      rw [hacc] at ih
      simp only [FirstNearest] at ih
      obtain ⟨i, shape, n, hi, hhit, hc, hmin⟩ := ih
      have hil : i < l.length := by
        by_contra hcon
        rw [List.getElem?_eq_none (not_lt.1 hcon)] at hi; cases hi
      cases hs : localIntersect sqrt o d s with
      | none =>
        simp only [traceStep, hs, FirstNearest]
        refine ⟨i, shape, n, ?_, hhit, hc, ?_⟩
        · rw [List.getElem?_append_left hil]; exact hi
        · intro j shape2 t2 n2 hj h2
          rcases key j shape2 hj with ⟨hlt, hj2⟩ | ⟨rfl, rfl⟩
          · exact hmin j shape2 t2 n2 hj2 h2
          · rw [hs] at h2; cases h2
      | some tn =>
        obtain ⟨t, nn⟩ := tn
        by_cases hlt : t < t0
        · simp only [traceStep, hs, closerThan, hlt, decide_True, if_true, FirstNearest]
          refine ⟨l.length, s, nn, by simp, hs, rfl, ?_⟩
          intro j shape2 t2 n2 hj h2
          rcases key j shape2 hj with ⟨hjl, hj2⟩ | ⟨rfl, rfl⟩
          · have := (hmin j shape2 t2 n2 hj2 h2).1
            exact ⟨le_of_lt (lt_of_lt_of_le hlt this), fun _ => lt_of_lt_of_le hlt this⟩
          · rw [hs] at h2; cases h2
            exact ⟨le_refl _, fun h => absurd h (lt_irrefl _)⟩
        · simp only [traceStep, hs, closerThan, hlt, decide_False, FirstNearest]
          refine ⟨i, shape, n, ?_, hhit, hc, ?_⟩
          · rw [List.getElem?_append_left hil]; exact hi
          · intro j shape2 t2 n2 hj h2
            rcases key j shape2 hj with ⟨hjl, hj2⟩ | ⟨rfl, rfl⟩
            · exact hmin j shape2 t2 n2 hj2 h2
            · rw [hs] at h2; cases h2
              exact ⟨not_lt.1 hlt, fun h => absurd h (by omega)⟩

/-- C1: for every ray and every shape list, if `intersect`, applied to the ray mapped
through the inverse transform of each shape, succeeds for no shape, `traceRay` returns
black; otherwise it returns the stored colour of the first shape in list order whose hit
parameter `t` equals the minimum `t` over all shapes that were hit. -/
theorem traceRay_nearest_hit (sqrt : F → F) (o d : Vec3 F) (shapes : List (Shape F)) :
    ((∀ shape ∈ shapes, localIntersect sqrt o d shape = none) →
      traceRay sqrt o d shapes = ⟨0, 0, 0⟩) ∧
    ((∃ shape ∈ shapes, localIntersect sqrt o d shape ≠ none) →
      ∃ (i : ℕ) (shape : Shape F) (t : F) (n : Vec3 F),
        shapes[i]? = some shape ∧ localIntersect sqrt o d shape = some (t, n) ∧
        (∀ (j : ℕ) (shape2 : Shape F) (t2 : F) (n2 : Vec3 F), shapes[j]? = some shape2 →
          localIntersect sqrt o d shape2 = some (t2, n2) → t ≤ t2 ∧ (j < i → t < t2)) ∧
        traceRay sqrt o d shapes = shape.color) := by
  have h := foldl_traceStep_firstNearest sqrt o d shapes
  unfold traceRay
  cases hacc : shapes.foldl (traceStep sqrt o d) none with
  | none =>
    rw [hacc] at h
    simp only [FirstNearest] at h
    refine ⟨fun _ => rfl, ?_⟩
    rintro ⟨shape, hmem, hne⟩
    exact absurd (h shape hmem) hne
  | some acc =>
    obtain ⟨t, n0, c⟩ := acc
    rw [hacc] at h
    simp only [FirstNearest] at h
    obtain ⟨i, shape, n, hi, hhit, hc, hmin⟩ := h
    constructor
    · intro hall
      have := hall shape (List.getElem?_mem hi)
      rw [this] at hhit
      cases hhit
    · intro _
      exact ⟨i, shape, t, n, hi, hhit, hmin, hc⟩

end TraceRay

end RayTracer

namespace RayTracer

section Sphere

variable {F : Type} [LinearOrderedField F]

/-- Squared distance from the centre to the point of closest approach, for a unit
direction. -/
theorem closest_dot (o d c : Vec3 F) (hd : Vec3.dot d d = 1) :
    Vec3.dot (o + Vec3.dot (c - o) d • d - c) (o + Vec3.dot (c - o) d • d - c)
      = Vec3.dot (o - c) (o - c) - Vec3.dot (c - o) d * Vec3.dot (c - o) d := by
  simp only [Vec3.dot, Vec3.add_x, Vec3.add_y, Vec3.add_z, Vec3.sub_x, Vec3.sub_y,
    Vec3.sub_z, Vec3.smul_x, Vec3.smul_y, Vec3.smul_z] at hd ⊢
  linear_combination
    (((c.x - o.x) * d.x + (c.y - o.y) * d.y + (c.z - o.z) * d.z) ^ 2) * hd

/-- Squared distance from the centre to the point of the ray at parameter `t`, for a unit
direction. -/
theorem point_dot (o d c : Vec3 F) (t : F) (hd : Vec3.dot d d = 1) :
    Vec3.dot (o + t • d - c) (o + t • d - c)
      = (t - Vec3.dot (c - o) d) * (t - Vec3.dot (c - o) d)
        + (Vec3.dot (o - c) (o - c) - Vec3.dot (c - o) d * Vec3.dot (c - o) d) := by
  simp only [Vec3.dot, Vec3.add_x, Vec3.add_y, Vec3.add_z, Vec3.sub_x, Vec3.sub_y,
    Vec3.sub_z, Vec3.smul_x, Vec3.smul_y, Vec3.smul_z] at hd ⊢
  linear_combination (t ^ 2) * hd

/-- On the surface, in squared form. -/
theorem onSurface_iff {sqrt : F → F} (hs : IsSqrt sqrt) (o d : Vec3 F) (sphere : Sphere F)
    (hr : 0 ≤ sphere.radius) (t : F) :
    OnSurface sqrt o d sphere t ↔
      Vec3.dot (o + t • d - sphere.center) (o + t • d - sphere.center)
        = sphere.radius * sphere.radius := by
  unfold OnSurface Vec3.length
  constructor
  · intro h
    rw [← h]
    exact (hs.mul_self (Vec3.dot_self_nonneg _)).symm
  · intro h
    exact hs.eq_of_mul_self hr h.symm

/-- What `intersectSphere` returns when the line meets the surface and the smaller of the
two crossing parameters is not negative. -/
theorem intersectSphere_eq_some {sqrt : F → F} (hs : IsSqrt sqrt) (o d : Vec3 F)
    (sphere : Sphere F) (hr : 0 ≤ sphere.radius) (hd : Vec3.dot d d = 1)
    (hD : Vec3.dot (o - sphere.center) (o - sphere.center)
      - Vec3.dot (sphere.center - o) d * Vec3.dot (sphere.center - o) d
      ≤ sphere.radius * sphere.radius)
    (hnear : 0 ≤ Vec3.dot (sphere.center - o) d
      - sqrt (sphere.radius * sphere.radius
        - (Vec3.dot (o - sphere.center) (o - sphere.center)
          - Vec3.dot (sphere.center - o) d * Vec3.dot (sphere.center - o) d))) :
    intersectSphere sqrt o d sphere
      = some (Vec3.dot (sphere.center - o) d
        - sqrt (sphere.radius * sphere.radius
          - (Vec3.dot (o - sphere.center) (o - sphere.center)
            - Vec3.dot (sphere.center - o) d * Vec3.dot (sphere.center - o) d)),
        Vec3.normalize sqrt (o + Vec3.dot (sphere.center - o) d • d - sphere.center)) := by
  have hcd := closest_dot o d sphere.center hd
  have hnn : 0 ≤ Vec3.dot (o - sphere.center) (o - sphere.center)
      - Vec3.dot (sphere.center - o) d * Vec3.dot (sphere.center - o) d := by
    rw [← hcd]; exact Vec3.dot_self_nonneg _
  unfold intersectSphere Vec3.length
  simp only [hcd]
  rw [if_pos ((hs.le_iff hnn hr).2 hD), hs.mul_self hnn, if_pos hnear]

/-- What `intersectSphere` returns when the closest approach exceeds the radius. -/
theorem intersectSphere_eq_none_of_far {sqrt : F → F} (hs : IsSqrt sqrt) (o d : Vec3 F)
    (sphere : Sphere F) (hr : 0 ≤ sphere.radius) (hd : Vec3.dot d d = 1)
    (hD : sphere.radius * sphere.radius
      < Vec3.dot (o - sphere.center) (o - sphere.center)
        - Vec3.dot (sphere.center - o) d * Vec3.dot (sphere.center - o) d) :
    intersectSphere sqrt o d sphere = none := by
  have hcd := closest_dot o d sphere.center hd
  have hnn : 0 ≤ Vec3.dot (o - sphere.center) (o - sphere.center)
      - Vec3.dot (sphere.center - o) d * Vec3.dot (sphere.center - o) d := by
    rw [← hcd]; exact Vec3.dot_self_nonneg _
  unfold intersectSphere Vec3.length
  simp only [hcd]
  rw [if_neg]
  rw [hs.le_iff hnn hr]
  exact not_le.2 hD

end Sphere

end RayTracer

namespace RayTracer

section SphereClaims

variable {F : Type} [LinearOrderedField F]

theorem dot_eq_one_of_length {sqrt : F → F} (hs : IsSqrt sqrt) (d : Vec3 F)
    (hd : Vec3.length sqrt d = 1) : Vec3.dot d d = 1 := by
  have h := hs.mul_self (Vec3.dot_self_nonneg d)
  unfold Vec3.length at hd
  rw [hd] at h
  linarith

/-- From an origin strictly outside the sphere, a ray that meets the surface at some
non-negative parameter meets it at no negative parameter. -/
theorem crossings_nonneg_of_outside {sqrt : F → F} (hs : IsSqrt sqrt) (o d : Vec3 F)
    (sphere : Sphere F) (hr : 0 < sphere.radius) (hd1 : Vec3.dot d d = 1)
    (hout : sphere.radius < Vec3.length sqrt (o - sphere.center))
    (hmeet : ∃ t, 0 ≤ t ∧ OnSurface sqrt o d sphere t) (t : F)
    (ht : OnSurface sqrt o d sphere t) : 0 ≤ t := by
  have hW : sphere.radius * sphere.radius
      < Vec3.dot (o - sphere.center) (o - sphere.center) := by
    by_contra hcon
    push_neg at hcon
    have := (hs.le_iff (Vec3.dot_self_nonneg (o - sphere.center)) hr.le).2 hcon
    unfold Vec3.length at hout
    linarith
  obtain ⟨t0, ht0, hon0⟩ := hmeet
  rw [onSurface_iff hs o d sphere hr.le, point_dot o d sphere.center t0 hd1] at hon0
  rw [onSurface_iff hs o d sphere hr.le, point_dot o d sphere.center t hd1] at ht
  generalize Vec3.dot (sphere.center - o) d = p at hon0 ht
  generalize Vec3.dot (o - sphere.center) (o - sphere.center) = w at hW hon0 ht
  have h0 : t0 * (t0 - 2 * p) < 0 := by nlinarith
  have h1 : t * (t - 2 * p) < 0 := by nlinarith
  have hp : 0 < p := by
    by_contra hcon
    push_neg at hcon
    have : 0 ≤ t0 * (t0 - 2 * p) := mul_nonneg ht0 (by linarith)
    linarith
  by_contra hcon
  push_neg at hcon
  have : 0 < t * (t - 2 * p) := mul_pos_of_neg_of_neg hcon (by linarith)
  linarith

/-- C4 (as amended): for a sphere of positive radius and a ray of unit direction, if the
ray meets the surface at some parameter `t ≥ 0` and the origin of the ray is strictly
outside the sphere or, more generally, the line through the ray meets the surface at no
negative parameter, then `intersectSphere` returns true and the `t` it reports is the
smallest non-negative parameter at which `origin + t * direction` lies on the surface. -/
theorem intersectSphere_nearest_crossing (sqrt : F → F) (hs : IsSqrt sqrt) (o d : Vec3 F)
    (sphere : Sphere F) (hr : 0 < sphere.radius) (hd : Vec3.length sqrt d = 1)
    (hmeet : ∃ t, 0 ≤ t ∧ OnSurface sqrt o d sphere t)
    (hfront : sphere.radius < Vec3.length sqrt (o - sphere.center) ∨
      ∀ t, OnSurface sqrt o d sphere t → 0 ≤ t) :
    ∃ t n, intersectSphere sqrt o d sphere = some (t, n) ∧ 0 ≤ t ∧
      OnSurface sqrt o d sphere t ∧
      ∀ t2, 0 ≤ t2 → OnSurface sqrt o d sphere t2 → t ≤ t2 := by
  have hd1 := dot_eq_one_of_length hs d hd
  have hfront2 : ∀ t, OnSurface sqrt o d sphere t → 0 ≤ t := by
    rcases hfront with hout | hall
    · exact fun t ht => crossings_nonneg_of_outside hs o d sphere hr hd1 hout hmeet t ht
    · exact hall
  obtain ⟨t0, _, ht0⟩ := hmeet
  rw [onSurface_iff hs o d sphere hr.le, point_dot o d sphere.center t0 hd1] at ht0
  set p := Vec3.dot (sphere.center - o) d with hp
  set D := Vec3.dot (o - sphere.center) (o - sphere.center) - p * p with hDdef
  have hD : D ≤ sphere.radius * sphere.radius := by nlinarith [mul_self_nonneg (t0 - p)]
  have hdisc : 0 ≤ sphere.radius * sphere.radius - D := by linarith
  have hs1 := hs.nonneg hdisc
  have hs2 := hs.mul_self hdisc
  have hon : OnSurface sqrt o d sphere (p - sqrt (sphere.radius * sphere.radius - D)) := by
    rw [onSurface_iff hs o d sphere hr.le, point_dot o d sphere.center _ hd1]
    rw [← hp, ← hDdef]
    linear_combination hs2
  have hnear := hfront2 _ hon
  refine ⟨_, _, intersectSphere_eq_some hs o d sphere hr.le hd1 hD hnear, hnear, hon, ?_⟩
  intro t2 _ ht2
  rw [onSurface_iff hs o d sphere hr.le, point_dot o d sphere.center t2 hd1] at ht2
  rw [← hp, ← hDdef] at ht2
  by_contra hcon
  push_neg at hcon
  nlinarith

/-- Witness for C4: the sphere of radius 1 at the origin seen from `(0, 0, 5)` along
`(0, 0, -1)`. -/
theorem intersectSphere_nearest_crossing_witness :
    ∃ t n, intersectSphere Real.sqrt (⟨0, 0, 5⟩ : Vec3 ℝ) ⟨0, 0, -1⟩
        ⟨⟨0, 0, 0⟩, 1, ⟨1, 0, 0⟩⟩ = some (t, n) ∧ 0 ≤ t ∧
      OnSurface Real.sqrt (⟨0, 0, 5⟩ : Vec3 ℝ) ⟨0, 0, -1⟩ ⟨⟨0, 0, 0⟩, 1, ⟨1, 0, 0⟩⟩ t ∧
      ∀ t2, 0 ≤ t2 →
        OnSurface Real.sqrt (⟨0, 0, 5⟩ : Vec3 ℝ) ⟨0, 0, -1⟩ ⟨⟨0, 0, 0⟩, 1, ⟨1, 0, 0⟩⟩ t2 →
        t ≤ t2 := by
  have h25 : Real.sqrt (25 : ℝ) = 5 := isSqrt_real.eq_of_mul_self (by norm_num) (by norm_num)
  refine intersectSphere_nearest_crossing Real.sqrt isSqrt_real _ _ _ (by norm_num) ?_ ?_
    (Or.inl ?_)
  · simp [Vec3.length, Vec3.dot]
  · refine ⟨4, by norm_num, ?_⟩
    rw [onSurface_iff isSqrt_real _ _ _ (by norm_num)]
    simp [Vec3.dot]; norm_num
  · simp only [Vec3.length, Vec3.dot, Vec3.sub_x, Vec3.sub_y, Vec3.sub_z]
    norm_num [h25]

/-- Counterexample to C4 as stated: from the centre of the unit sphere the ray along
`(0, 0, 1)` meets the surface at `t = 1 ≥ 0`, yet `intersectSphere` returns false. -/
theorem intersectSphere_origin_inside_counterexample :
    (0 : ℝ) < 1 ∧ Vec3.length Real.sqrt (⟨0, 0, 1⟩ : Vec3 ℝ) = 1 ∧ (0 : ℝ) ≤ 1 ∧
      OnSurface Real.sqrt (⟨0, 0, 0⟩ : Vec3 ℝ) ⟨0, 0, 1⟩ ⟨⟨0, 0, 0⟩, 1, ⟨1, 0, 0⟩⟩ 1 ∧
      intersectSphere Real.sqrt (⟨0, 0, 0⟩ : Vec3 ℝ) ⟨0, 0, 1⟩ ⟨⟨0, 0, 0⟩, 1, ⟨1, 0, 0⟩⟩
        = none := by
  refine ⟨by norm_num, ?_, by norm_num, ?_, ?_⟩
  · simp [Vec3.length, Vec3.dot]
  · simp [OnSurface, Vec3.length, Vec3.dot]
  · simp [intersectSphere, Vec3.length, Vec3.dot]

/-- C5 (code at the failing input): for the unit sphere at the origin and the ray from
`(0, 3/5, 5)` along `(0, 0, -1)`, `intersectSphere` reports `t = 21/5` and the normal
`(0, 1, 0)`, the direction from the centre to the point of closest approach, while the
outward unit normal at the hit point `origin + t * direction` is `(0, 3/5, 4/5)`. -/
theorem intersectSphere_normal_at_closest_point :
    intersectSphere Real.sqrt (⟨0, 3 / 5, 5⟩ : Vec3 ℝ) ⟨0, 0, -1⟩ ⟨⟨0, 0, 0⟩, 1, ⟨1, 0, 0⟩⟩
        = some (21 / 5, ⟨0, 1, 0⟩) ∧
      Vec3.normalize Real.sqrt
        ((⟨0, 3 / 5, 5⟩ : Vec3 ℝ) + (21 / 5 : ℝ) • (⟨0, 0, -1⟩ : Vec3 ℝ) - ⟨0, 0, 0⟩)
        = ⟨0, 3 / 5, 4 / 5⟩ := by
  have h1 : Real.sqrt (9 / 25) = 3 / 5 :=
    isSqrt_real.eq_of_mul_self (by norm_num) (by norm_num)
  have h2 : Real.sqrt (16 / 25) = 4 / 5 :=
    isSqrt_real.eq_of_mul_self (by norm_num) (by norm_num)
  constructor
  · rw [intersectSphere_eq_some isSqrt_real _ _ _ (by norm_num) (by simp [Vec3.dot])]
    · simp only [Vec3.dot, Vec3.normalize, Vec3.sub_x, Vec3.sub_y, Vec3.sub_z, Vec3.add_x,
        Vec3.add_y, Vec3.add_z, Vec3.smul_x, Vec3.smul_y, Vec3.smul_z]
      norm_num [h1, h2]
      ext <;> simp
    · simp [Vec3.dot]; norm_num
    · simp only [Vec3.dot, Vec3.sub_x, Vec3.sub_y, Vec3.sub_z]
      norm_num [h2]
  · simp only [Vec3.dot, Vec3.normalize, Vec3.sub_x, Vec3.sub_y, Vec3.sub_z, Vec3.add_x,
      Vec3.add_y, Vec3.add_z, Vec3.smul_x, Vec3.smul_y, Vec3.smul_z]
    norm_num [h1, h2]
    ext <;> simp
    norm_num

end SphereClaims

end RayTracer

section Camera

variable {F : Type} [LinearOrderedField F]

/-- The function `glm::inverse` agrees with the matrix inverse of Mathlib. -/
theorem inverse_eq_inv (m : Mat4 F) : inverse m = m⁻¹ := by
  unfold inverse
  rw [Matrix.inv_def, Ring.inverse_eq_inv']

theorem inverse_eq_of_mul_eq_one (m n : Mat4 F) (h : m * n = 1) : inverse m = n := by
  rw [inverse_eq_inv]
  exact Matrix.inv_eq_right_inv h

@[simp] theorem inverse_one : inverse (1 : Mat4 F) = 1 :=
  inverse_eq_of_mul_eq_one 1 1 (by simp)

/-- The matrix `glm::translate(mat4(1), (0, 0, k))`. -/
theorem inverse_translate_z (k : F) :
    inverse (!![1, 0, 0, 0; 0, 1, 0, 0; 0, 0, 1, k; 0, 0, 0, 1] : Mat4 F)
      = !![1, 0, 0, 0; 0, 1, 0, 0; 0, 0, 1, -k; 0, 0, 0, 1] := by
  apply inverse_eq_of_mul_eq_one
  ext i j
  fin_cases i <;> fin_cases j <;>
    simp [Matrix.mul_apply, Fin.sum_univ_four, Matrix.one_apply, Matrix.vecHead, Matrix.vecTail]

/-- The view matrix of the camera at `(0, 0, 5)` looking at the origin with up `(0, 1, 0)`
is the translation by `(0, 0, -5)`. -/
theorem lookAt_scenario {sqrt : F → F} (hs : IsSqrt sqrt) :
    lookAt sqrt (⟨0, 0, 5⟩ : Vec3 F) ⟨0, 0, 0⟩ ⟨0, 1, 0⟩
      = !![1, 0, 0, 0; 0, 1, 0, 0; 0, 0, 1, -5; 0, 0, 0, 1] := by
  have h25 : sqrt (25 : F) = 5 := hs.eq_of_mul_self (by norm_num) (by norm_num)
  have h1 : sqrt (1 : F) = 1 := hs.sqrt_one
  simp only [lookAt, Vec3.normalize, Vec3.dot, Vec3.cross, Vec3.sub_x, Vec3.sub_y, Vec3.sub_z,
    Vec3.smul_x, Vec3.smul_y, Vec3.smul_z]
  norm_num [h25, h1]

/-- The camera ray of the scenario for normalised device coordinates `(ndcX, ndcY)`. -/
theorem rayDirectionNdc_scenario {sqrt : F → F} (hs : IsSqrt sqrt) (ndcX ndcY : F) :
    rayDirectionNdc sqrt (lookAt sqrt (⟨0, 0, 5⟩ : Vec3 F) ⟨0, 0, 0⟩ ⟨0, 1, 0⟩) ndcX ndcY
      = -(Vec3.normalize sqrt ⟨ndcX, ndcY, 4⟩) := by
  rw [lookAt_scenario hs, rayDirectionNdc, inverse_translate_z]
  congr 2
  simp [vec3, Matrix.mulVec, Matrix.dotProduct, Fin.sum_univ_four]
  norm_num

end Camera

namespace RayTracer

@[simp] theorem vec3_vec4 {F : Type} (v : Vec3 F) (w : F) : vec3 (vec4 v w) = v := rfl

section Scenario

variable {F : Type} [LinearOrderedField F]


/-- Under the identity transform the ray is tested as it is. -/
theorem localIntersect_identity (sqrt : F → F) (o d : Vec3 F) (shape : Shape F)
    (h : shape.transform = 1) :
    localIntersect sqrt o d shape = intersect sqrt o d shape := by
  simp [localIntersect, h]

theorem traceRay_singleton (sqrt : F → F) (o d : Vec3 F) (shape : Shape F) :
    traceRay sqrt o d [shape]
      = if (localIntersect sqrt o d shape).isSome then shape.color else ⟨0, 0, 0⟩ := by
  unfold traceRay
  simp only [List.foldl_cons, List.foldl_nil, traceStep, closerThan]
  cases h : localIntersect sqrt o d shape with
  | none => simp
  | some tn => simp

/-- The direction `-normalize(x, y, 4)` has unit length. -/
theorem neg_normalize_dot {sqrt : F → F} (hs : IsSqrt sqrt) (x y : F) :
    Vec3.dot (-(Vec3.normalize sqrt ⟨x, y, 4⟩)) (-(Vec3.normalize sqrt ⟨x, y, 4⟩)) = 1 := by
  have hpos : 0 < x * x + y * y + 4 * 4 := by nlinarith [mul_self_nonneg x, mul_self_nonneg y]
  have hr := hs.pos hpos
  have hrr := hs.mul_self hpos.le
  simp only [Vec3.dot, Vec3.normalize, Vec3.neg_x, Vec3.neg_y, Vec3.neg_z, Vec3.smul_x,
    Vec3.smul_y, Vec3.smul_z]
  field_simp
  linear_combination -hrr

/-- Projection of the centre onto the scenario ray, squared. -/
theorem scenario_projection {sqrt : F → F} (hs : IsSqrt sqrt) (x y : F) :
    0 < Vec3.dot ((⟨0, 0, 0⟩ : Vec3 F) - ⟨0, 0, 5⟩) (-(Vec3.normalize sqrt ⟨x, y, 4⟩)) ∧
    Vec3.dot ((⟨0, 0, 0⟩ : Vec3 F) - ⟨0, 0, 5⟩) (-(Vec3.normalize sqrt ⟨x, y, 4⟩))
      * Vec3.dot ((⟨0, 0, 0⟩ : Vec3 F) - ⟨0, 0, 5⟩) (-(Vec3.normalize sqrt ⟨x, y, 4⟩))
      = 400 / (x * x + y * y + 16) := by
  have hpos : 0 < x * x + y * y + 4 * 4 := by nlinarith [mul_self_nonneg x, mul_self_nonneg y]
  have hr := hs.pos hpos
  have hrr := hs.mul_self hpos.le
  have h16 : x * x + y * y + 16 = x * x + y * y + 4 * 4 := by norm_num
  simp only [Vec3.dot, Vec3.normalize, Vec3.neg_x, Vec3.neg_y, Vec3.neg_z, Vec3.smul_x,
    Vec3.smul_y, Vec3.smul_z, Vec3.sub_x, Vec3.sub_y, Vec3.sub_z]
  constructor
  · have : 0 < 1 / sqrt (x * x + y * y + 4 * 4) := by positivity
    nlinarith
  · rw [h16]
    field_simp
    linear_combination (-400 : F) * hrr

/-- The scenario of the end-to-end test: the sphere of radius 1 at the origin with colour
`(1, 0, 0)`, seen from `(0, 0, 5)`.  The ray for the normalised device coordinates `(x, y)`
sees the sphere exactly when `24 (x² + y² + 16) ≤ 400`. -/
theorem traceRay_scenario {sqrt : F → F} (hs : IsSqrt sqrt) (x y : F) :
    traceRay sqrt (⟨0, 0, 5⟩ : Vec3 F) (-(Vec3.normalize sqrt ⟨x, y, 4⟩))
        [⟨.sphere ⟨⟨0, 0, 0⟩, 1, ⟨1, 0, 0⟩⟩, ⟨1, 0, 0⟩, 1, []⟩]
      = if 24 * (x * x + y * y + 16) ≤ 400 then ⟨1, 0, 0⟩ else ⟨0, 0, 0⟩ := by
  have hpos : 0 < x * x + y * y + 16 := by nlinarith [mul_self_nonneg x, mul_self_nonneg y]
  have hd := neg_normalize_dot hs x y
  obtain ⟨hp, hpp⟩ := scenario_projection hs x y
  rw [traceRay_singleton, localIntersect_identity _ _ _ _ rfl]
  simp only [intersect]
  set d := -(Vec3.normalize sqrt ⟨x, y, 4⟩) with hddef
  set p := Vec3.dot ((⟨0, 0, 0⟩ : Vec3 F) - ⟨0, 0, 5⟩) d with hpdef
  have hoc : Vec3.dot ((⟨0, 0, 5⟩ : Vec3 F) - ⟨0, 0, 0⟩) (⟨0, 0, 5⟩ - ⟨0, 0, 0⟩) = 25 := by
    simp [Vec3.dot]; norm_num
  have hDnn : 0 ≤ 25 - p * p := by
    have := closest_dot (⟨0, 0, 5⟩ : Vec3 F) d ⟨0, 0, 0⟩ hd
    rw [hoc] at this
    rw [← this]; exact Vec3.dot_self_nonneg _
  by_cases hvis : 24 * (x * x + y * y + 16) ≤ 400
  · have h24 : 24 ≤ p * p := by
      rw [hpp, le_div_iff₀ hpos]; linarith
    rw [if_pos hvis, intersectSphere_eq_some hs _ _ _ (by norm_num) hd]
    · simp
    · simp only [hoc]; norm_num; linarith
    · simp only [hoc]
      have hdisc : (0 : F) ≤ 1 * 1 - (25 - p * p) := by linarith
      have h1 := hs.nonneg hdisc
      have h2 := hs.mul_self hdisc
      nlinarith
  · have h24 : p * p < 24 := by
      rw [hpp, div_lt_iff₀ hpos]; push_neg at hvis; linarith
    rw [if_neg hvis, intersectSphere_eq_none_of_far hs _ _ _ (by norm_num) hd]
    · simp
    · simp only [hoc]; norm_num; linarith

end Scenario

end RayTracer

namespace RayTracer

section PixelScenario

variable {F : Type} [LinearOrderedField F]

/-- The pixel of the scenario in terms of its normalised device coordinates. -/
theorem pixelColor_scenario {sqrt : F → F} (hs : IsSqrt sqrt) (width height x y : ℕ) :
    pixelColor sqrt (⟨0, 0, 5⟩ : Vec3 F) ⟨0, 0, 0⟩ ⟨0, 1, 0⟩ width height
        [⟨.sphere ⟨⟨0, 0, 0⟩, 1, ⟨1, 0, 0⟩⟩, ⟨1, 0, 0⟩, 1, []⟩] x y
      = if 24 * (((width : F) / (height : F) * ((2 * (x : F)) / (width : F) - 1))
              * ((width : F) / (height : F) * ((2 * (x : F)) / (width : F) - 1))
            + (1 - (2 * (y : F)) / (height : F)) * (1 - (2 * (y : F)) / (height : F)) + 16)
          ≤ 400
        then ⟨1, 0, 0⟩ else ⟨0, 0, 0⟩ := by
  unfold pixelColor rayDirection
  simp only []
  rw [rayDirectionNdc_scenario hs, traceRay_scenario hs]

end PixelScenario

section EndToEnd

variable {F : Type} [LinearOrderedField F] [FloorRing F]

theorem toByte_zero : toByte (0 : F) = 0 := by simp [toByte]

theorem toByte_one : toByte (1 : F) = 255 := by
  have : ⌊(1 : F) * 255⌋₊ = 255 := by
    rw [one_mul]; exact Nat.floor_natCast 255
  simp [toByte, this]

/-- C7 (as amended): in the 4 x 4 end-to-end scenario (sphere of radius 1 at the origin with
colour `(1, 0, 0)` and identity transform, camera at `(0, 0, 5)` looking at the origin, up
`(0, 1, 0)`) the render loop produces exactly black for the corner pixels `(0, 0)`, `(3, 0)`
and `(0, 3)`, bytes `(0, 0, 0)`, while the corner pixel `(3, 3)` has the colour `(1, 0, 0)`
of the sphere, bytes `(255, 0, 0)`. -/
theorem corner_pixels_4x4 (sqrt : F → F) (hs : IsSqrt sqrt) :
    pixelColor sqrt (⟨0, 0, 5⟩ : Vec3 F) ⟨0, 0, 0⟩ ⟨0, 1, 0⟩ 4 4
        [⟨.sphere ⟨⟨0, 0, 0⟩, 1, ⟨1, 0, 0⟩⟩, ⟨1, 0, 0⟩, 1, []⟩] 0 0 = ⟨0, 0, 0⟩ ∧
    pixelColor sqrt (⟨0, 0, 5⟩ : Vec3 F) ⟨0, 0, 0⟩ ⟨0, 1, 0⟩ 4 4
        [⟨.sphere ⟨⟨0, 0, 0⟩, 1, ⟨1, 0, 0⟩⟩, ⟨1, 0, 0⟩, 1, []⟩] 3 0 = ⟨0, 0, 0⟩ ∧
    pixelColor sqrt (⟨0, 0, 5⟩ : Vec3 F) ⟨0, 0, 0⟩ ⟨0, 1, 0⟩ 4 4
        [⟨.sphere ⟨⟨0, 0, 0⟩, 1, ⟨1, 0, 0⟩⟩, ⟨1, 0, 0⟩, 1, []⟩] 0 3 = ⟨0, 0, 0⟩ ∧
    pixelColor sqrt (⟨0, 0, 5⟩ : Vec3 F) ⟨0, 0, 0⟩ ⟨0, 1, 0⟩ 4 4
        [⟨.sphere ⟨⟨0, 0, 0⟩, 1, ⟨1, 0, 0⟩⟩, ⟨1, 0, 0⟩, 1, []⟩] 3 3 = ⟨1, 0, 0⟩ ∧
    renderPixel sqrt (⟨0, 0, 5⟩ : Vec3 F) ⟨0, 0, 0⟩ ⟨0, 1, 0⟩ 4 4
        [⟨.sphere ⟨⟨0, 0, 0⟩, 1, ⟨1, 0, 0⟩⟩, ⟨1, 0, 0⟩, 1, []⟩] 0 0 = (0, 0, 0) ∧
    renderPixel sqrt (⟨0, 0, 5⟩ : Vec3 F) ⟨0, 0, 0⟩ ⟨0, 1, 0⟩ 4 4
        [⟨.sphere ⟨⟨0, 0, 0⟩, 1, ⟨1, 0, 0⟩⟩, ⟨1, 0, 0⟩, 1, []⟩] 3 0 = (0, 0, 0) ∧
    renderPixel sqrt (⟨0, 0, 5⟩ : Vec3 F) ⟨0, 0, 0⟩ ⟨0, 1, 0⟩ 4 4
        [⟨.sphere ⟨⟨0, 0, 0⟩, 1, ⟨1, 0, 0⟩⟩, ⟨1, 0, 0⟩, 1, []⟩] 0 3 = (0, 0, 0) ∧
    renderPixel sqrt (⟨0, 0, 5⟩ : Vec3 F) ⟨0, 0, 0⟩ ⟨0, 1, 0⟩ 4 4
        [⟨.sphere ⟨⟨0, 0, 0⟩, 1, ⟨1, 0, 0⟩⟩, ⟨1, 0, 0⟩, 1, []⟩] 3 3 = (255, 0, 0) := by
  have h00 := pixelColor_scenario hs 4 4 0 0
  have h30 := pixelColor_scenario hs 4 4 3 0
  have h03 := pixelColor_scenario hs 4 4 0 3
  have h33 := pixelColor_scenario hs 4 4 3 3
  norm_num at h00 h30 h03 h33
  refine ⟨h00, h30, h03, h33, ?_, ?_, ?_, ?_⟩ <;>
    simp only [renderPixel, h00, h30, h03, h33, toByte_zero, toByte_one]

/-- Witness for C7 over the real numbers. -/
theorem corner_pixels_4x4_witness :
    pixelColor Real.sqrt (⟨0, 0, 5⟩ : Vec3 ℝ) ⟨0, 0, 0⟩ ⟨0, 1, 0⟩ 4 4
        [⟨.sphere ⟨⟨0, 0, 0⟩, 1, ⟨1, 0, 0⟩⟩, ⟨1, 0, 0⟩, 1, []⟩] 0 0 = ⟨0, 0, 0⟩ :=
  (corner_pixels_4x4 Real.sqrt isSqrt_real).1

/-- Counterexample to C7 as stated: the corner pixel `(3, 3)` of the 4 x 4 image is not
black; the tracer returns the colour `(1, 0, 0)` of the sphere for it. -/
theorem corner_pixel_3_3_counterexample :
    pixelColor Real.sqrt (⟨0, 0, 5⟩ : Vec3 ℝ) ⟨0, 0, 0⟩ ⟨0, 1, 0⟩ 4 4
        [⟨.sphere ⟨⟨0, 0, 0⟩, 1, ⟨1, 0, 0⟩⟩, ⟨1, 0, 0⟩, 1, []⟩] 3 3 = ⟨1, 0, 0⟩ ∧
    pixelColor Real.sqrt (⟨0, 0, 5⟩ : Vec3 ℝ) ⟨0, 0, 0⟩ ⟨0, 1, 0⟩ 4 4
        [⟨.sphere ⟨⟨0, 0, 0⟩, 1, ⟨1, 0, 0⟩⟩, ⟨1, 0, 0⟩, 1, []⟩] 3 3 ≠ ⟨0, 0, 0⟩ := by
  have h33 := pixelColor_scenario isSqrt_real 4 4 3 3
  norm_num at h33
  rw [h33]
  simp

end EndToEnd

end RayTracer

namespace RayMarcher

section Loop

variable {F : Type} [LinearOrderedField F] [FloorRing F]

theorem shapeStep_distTraveled (sqrt : F → F) (cam dir : Vec3 F) (scene : List (Shape F))
    (st : MarchState F) (e : ℕ × Shape F) :
    (shapeStep sqrt cam dir scene st e).distTraveled = st.distTraveled ∧
      (shapeStep sqrt cam dir scene st e).iterations = st.iterations := by
  unfold shapeStep
  simp only []
  split_ifs <;> exact ⟨rfl, rfl⟩

theorem foldl_shapeStep_distTraveled (sqrt : F → F) (cam dir : Vec3 F) (scene : List (Shape F))
    (l : List (ℕ × Shape F)) (st : MarchState F) :
    (l.foldl (shapeStep sqrt cam dir scene) st).distTraveled = st.distTraveled ∧
      (l.foldl (shapeStep sqrt cam dir scene) st).iterations = st.iterations := by
  induction l generalizing st with
  | nil => exact ⟨rfl, rfl⟩
  | cons e l ih =>
    rw [List.foldl_cons]
    obtain ⟨h1, h2⟩ := ih (shapeStep sqrt cam dir scene st e)
    obtain ⟨h3, h4⟩ := shapeStep_distTraveled sqrt cam dir scene st e
    exact ⟨h1.trans h3, h2.trans h4⟩

/-- The variable `minSignedDistance` never grows and never falls below `delta`. -/
theorem foldl_shapeStep_min_bounds (sqrt : F → F) (cam dir : Vec3 F) (scene : List (Shape F))
    (l : List (ℕ × Shape F)) (st : MarchState F) :
    (l.foldl (shapeStep sqrt cam dir scene) st).minSignedDistance ≤ st.minSignedDistance ∧
      (delta ≤ st.minSignedDistance →
        delta ≤ (l.foldl (shapeStep sqrt cam dir scene) st).minSignedDistance) := by
  induction l generalizing st with
  | nil => exact ⟨le_rfl, fun h => h⟩
  | cons e l ih =>
    rw [List.foldl_cons]
    obtain ⟨h1, h2⟩ := ih (shapeStep sqrt cam dir scene st e)
    have h3 : (shapeStep sqrt cam dir scene st e).minSignedDistance ≤ st.minSignedDistance ∧
        (delta ≤ st.minSignedDistance →
          delta ≤ (shapeStep sqrt cam dir scene st e).minSignedDistance) := by
      unfold shapeStep
      simp only []
      split_ifs with ha hb
      · exact ⟨le_rfl, fun h => h⟩
      · exact ⟨hb, fun _ => not_lt.1 ha⟩
      · exact ⟨le_rfl, fun h => h⟩
    exact ⟨h1.trans h3.1, fun h => h2 (h3.2 h)⟩

/-- A pass over shapes none of which is closer than `delta`: colour and flag are kept, and
`minSignedDistance` becomes the least of its old value and the distances of the shapes. -/
theorem foldl_shapeStep_noHit (sqrt : F → F) (cam dir : Vec3 F) (scene : List (Shape F))
    (l : List (ℕ × Shape F)) (st : MarchState F)
    (hno : ∀ e ∈ l, ¬ shapeDistance sqrt (cam + st.distTraveled • dir) e.2 < delta) :
    (l.foldl (shapeStep sqrt cam dir scene) st).color = st.color ∧
    (l.foldl (shapeStep sqrt cam dir scene) st).colorPicked = st.colorPicked ∧
    (∀ e ∈ l, (l.foldl (shapeStep sqrt cam dir scene) st).minSignedDistance
      ≤ shapeDistance sqrt (cam + st.distTraveled • dir) e.2) ∧
    ((l.foldl (shapeStep sqrt cam dir scene) st).minSignedDistance = st.minSignedDistance ∨
      ∃ e ∈ l, (l.foldl (shapeStep sqrt cam dir scene) st).minSignedDistance
        = shapeDistance sqrt (cam + st.distTraveled • dir) e.2) := by
  induction l generalizing st with
  | nil => simp
  | cons e l ih =>
    rw [List.foldl_cons]
    have he := hno e (List.mem_cons_self _ _)
    have hstep : (shapeStep sqrt cam dir scene st e).distTraveled = st.distTraveled :=
      (shapeStep_distTraveled sqrt cam dir scene st e).1
    have hno2 : ∀ e2 ∈ l, ¬ shapeDistance sqrt
        (cam + (shapeStep sqrt cam dir scene st e).distTraveled • dir) e2.2 < delta := by
      intro e2 he2
      rw [hstep]
      exact hno e2 (List.mem_cons_of_mem _ he2)
    obtain ⟨h1, h2, h3, h4⟩ := ih (shapeStep sqrt cam dir scene st e) hno2
    rw [hstep] at h3 h4
    have hmono := (foldl_shapeStep_min_bounds sqrt cam dir scene l
      (shapeStep sqrt cam dir scene st e)).1
    have hs : (shapeStep sqrt cam dir scene st e).color = st.color ∧
        (shapeStep sqrt cam dir scene st e).colorPicked = st.colorPicked ∧
        (shapeStep sqrt cam dir scene st e).minSignedDistance
          ≤ shapeDistance sqrt (cam + st.distTraveled • dir) e.2 ∧
        ((shapeStep sqrt cam dir scene st e).minSignedDistance = st.minSignedDistance ∨
          (shapeStep sqrt cam dir scene st e).minSignedDistance
            = shapeDistance sqrt (cam + st.distTraveled • dir) e.2) := by
      unfold shapeStep
      simp only [if_neg he]
      split_ifs with hb
      · exact ⟨rfl, rfl, le_rfl, Or.inr rfl⟩
      · exact ⟨rfl, rfl, le_of_lt (not_le.1 hb), Or.inl rfl⟩
    obtain ⟨hs1, hs2, hs3, hs4⟩ := hs
    refine ⟨h1.trans hs1, h2.trans hs2, ?_, ?_⟩
    · intro e2 he2
      rcases List.mem_cons.1 he2 with rfl | hmem
      · exact hmono.trans hs3
      · exact h3 e2 hmem
    · rcases h4 with h4 | ⟨e2, he2, h4⟩
      · rcases hs4 with hs4 | hs4
        · exact Or.inl (h4.trans hs4)
        · exact Or.inr ⟨e, List.mem_cons_self _ _, h4.trans hs4⟩
      · exact Or.inr ⟨e2, List.mem_cons_of_mem _ he2, h4⟩

/-- A pass in which `e` is the last entry closer than `delta`: the colour is the shading
of `e`. -/
theorem foldl_shapeStep_lastHit (sqrt : F → F) (cam dir : Vec3 F) (scene : List (Shape F))
    (l1 l2 : List (ℕ × Shape F)) (e : ℕ × Shape F) (st : MarchState F)
    (hhit : shapeDistance sqrt (cam + st.distTraveled • dir) e.2 < delta)
    (hno : ∀ e2 ∈ l2, ¬ shapeDistance sqrt (cam + st.distTraveled • dir) e2.2 < delta) :
    ((l1 ++ e :: l2).foldl (shapeStep sqrt cam dir scene) st).color
      = lighting sqrt cam scene e.1 e.2 (cam + st.distTraveled • dir) ∧
    ((l1 ++ e :: l2).foldl (shapeStep sqrt cam dir scene) st).colorPicked = true := by
  rw [List.foldl_append, List.foldl_cons]
  have hd1 := (foldl_shapeStep_distTraveled sqrt cam dir scene l1 st).1
  set st1 := l1.foldl (shapeStep sqrt cam dir scene) st with hst1
  have hstep : shapeStep sqrt cam dir scene st1 e
      = { st1 with
          color := lighting sqrt cam scene e.1 e.2 (cam + st.distTraveled • dir)
          colorPicked := true } := by
    unfold shapeStep
    simp only [hd1, if_pos hhit]
  rw [hstep]
  have hno2 : ∀ e2 ∈ l2, ¬ shapeDistance sqrt
      (cam + ({ st1 with
          color := lighting sqrt cam scene e.1 e.2 (cam + st.distTraveled • dir)
          colorPicked := true } : MarchState F).distTraveled • dir) e2.2 < delta := by
    intro e2 he2
    simp only [hd1]
    exact hno e2 he2
  obtain ⟨h1, h2, _, _⟩ := foldl_shapeStep_noHit sqrt cam dir scene l2 _ hno2
  exact ⟨h1, h2⟩

theorem marchLoop_of_not_cond (sqrt : F → F) (cam dir : Vec3 F) (scene : List (Shape F))
    (fuel : ℕ) (st : MarchState F) (h : marchCond st = false) :
    marchLoop sqrt cam dir scene fuel st = st := by
  cases fuel with
  | zero => rfl
  | succ n => simp [marchLoop, h]

theorem marchLoop_succ_of_cond (sqrt : F → F) (cam dir : Vec3 F) (scene : List (Shape F))
    (fuel : ℕ) (st : MarchState F) (h : marchCond st = true) :
    marchLoop sqrt cam dir scene (fuel + 1) st
      = marchLoop sqrt cam dir scene fuel (marchBody sqrt cam dir scene st) := by
  simp [marchLoop, h]

theorem marchState_succ (sqrt : F → F) (cam dir : Vec3 F) (scene : List (Shape F)) (k : ℕ) :
    marchState sqrt cam dir scene (k + 1)
      = marchBody sqrt cam dir scene (marchState sqrt cam dir scene k) := by
  unfold marchState
  rw [Function.iterate_succ_apply']

theorem marchState_iterations (sqrt : F → F) (cam dir : Vec3 F) (scene : List (Shape F))
    (k : ℕ) : (marchState sqrt cam dir scene k).iterations = k := by
  induction k with
  | zero => rfl
  | succ k ih =>
    rw [marchState_succ]
    unfold marchBody
    simp only []
    rw [(foldl_shapeStep_distTraveled sqrt cam dir scene _ _).2, ih]

/-- While the condition holds the loop walks through the states `marchState`. -/
theorem marchLoop_marchState (sqrt : F → F) (cam dir : Vec3 F) (scene : List (Shape F))
    (fuel k : ℕ) (h : ∀ j, j < k → marchCond (marchState sqrt cam dir scene j) = true) :
    marchLoop sqrt cam dir scene (fuel + k) initialState
      = marchLoop sqrt cam dir scene fuel (marchState sqrt cam dir scene k) := by
  induction k generalizing fuel with
  | zero => rfl
  | succ k ih =>
    have h1 := ih (fuel + 1) (fun j hj => h j (Nat.lt_succ_of_lt hj))
    rw [show fuel + (k + 1) = fuel + 1 + k by omega, h1,
      marchLoop_succ_of_cond _ _ _ _ _ _ (h k (Nat.lt_succ_self k)), marchState_succ]

/-- The loop stops in the first state whose condition fails, provided that state is reached
within `maxIterations` passes. -/
theorem march_eq_marchState (sqrt : F → F) (cam dir : Vec3 F) (scene : List (Shape F))
    (k : ℕ) (h : ∀ j, j < k → marchCond (marchState sqrt cam dir scene j) = true)
    (hk : marchCond (marchState sqrt cam dir scene k) = false) :
    march sqrt cam dir scene = marchState sqrt cam dir scene k := by
  have hkle : k ≤ maxIterations := by
    by_contra hcon
    push_neg at hcon
    have := h maxIterations hcon
    simp [marchCond, marchState_iterations] at this
  unfold march
  obtain ⟨fuel, hf⟩ := Nat.exists_eq_add_of_le hkle
  rw [hf, Nat.add_comm, marchLoop_marchState sqrt cam dir scene fuel k h,
    marchLoop_of_not_cond _ _ _ _ _ _ hk]

/-- The bound `maxIterations` on the passes is enough: the loop has stopped because its
condition failed. -/
theorem marchCond_march (sqrt : F → F) (cam dir : Vec3 F) (scene : List (Shape F)) :
    marchCond (march sqrt cam dir scene) = false := by
  by_cases hall : ∀ j, j < maxIterations → marchCond (marchState sqrt cam dir scene j) = true
  · have hk : marchCond (marchState sqrt cam dir scene maxIterations) = false := by
      simp [marchCond, marchState_iterations]
    rw [march_eq_marchState sqrt cam dir scene maxIterations hall hk]
    exact hk
  · push_neg at hall
    have hex : ∃ j, marchCond (marchState sqrt cam dir scene j) ≠ true :=
      let ⟨j, _, hj⟩ := hall
      ⟨j, hj⟩
    classical
    have hk := Nat.find_spec hex
    have hmin : ∀ j, j < Nat.find hex → marchCond (marchState sqrt cam dir scene j) = true := by
      intro j hj
      have := Nat.find_min hex hj
      simpa using this
    have hk2 : marchCond (marchState sqrt cam dir scene (Nat.find hex)) = false := by
      simpa using hk
    rw [march_eq_marchState sqrt cam dir scene _ hmin hk2]
    exact hk2

end Loop

end RayMarcher

namespace RayMarcher

section ShadowFuel

variable {F : Type} [LinearOrderedField F]

/-- Once the loop variable of the shadow test is bound to reach `shadowRayDistance` within
`fuel` passes, more passes change nothing. -/
theorem shadowLoop_add_fuel (sqrt : F → F) (scene : List (Shape F)) (idx : ℕ)
    (p dirL : Vec3 F) (dist : F) (fuel extra : ℕ) (t : F) (b : Bool)
    (h : dist ≤ t + (fuel : F) * delta) :
    shadowLoop sqrt scene idx p dirL dist (fuel + extra) t b
      = shadowLoop sqrt scene idx p dirL dist fuel t b := by
  induction fuel generalizing t b with
  | zero =>
    have ht : ¬ t < dist := by
      simp only [Nat.cast_zero, zero_mul, add_zero] at h
      exact not_lt.2 h
    cases extra with
    | zero => rfl
    | succ m =>
      rw [Nat.zero_add]
      simp only [shadowLoop, if_neg ht]
  | succ n ih =>
    rw [Nat.succ_add]
    simp only [shadowLoop]
    split_ifs
    · rfl
    · apply ih
      push_cast at h
      linarith
    · rfl

/-- The bound on the passes of the shadow test in `inShadow` is enough: the loop has ended
because its variable reached `shadowRayDistance`, and any larger bound gives the same
flag. -/
theorem inShadow_fuel [FloorRing F] (sqrt : F → F) (scene : List (Shape F)) (idx : ℕ) (p : Vec3 F)
    (extra : ℕ) :
    shadowLoop sqrt scene idx p (Vec3.normalize sqrt (lightPosition - p))
        (Vec3.length sqrt (lightPosition - p))
        (⌈Vec3.length sqrt (lightPosition - p) / delta⌉₊ + extra) delta false
      = inShadow sqrt scene idx p := by
  unfold inShadow
  apply shadowLoop_add_fuel
  have hd : (0 : F) < delta := by unfold delta; norm_num
  have h1 := Nat.le_ceil (Vec3.length sqrt (lightPosition - p) / delta)
  rw [div_le_iff₀ hd] at h1
  linarith

end ShadowFuel

end RayMarcher

namespace RayMarcher

theorem marchCond_of_picked {F : Type} [LinearOrderedField F] (st : MarchState F) (h : st.colorPicked = true) :
    marchCond st = false := by
  simp [marchCond, h]

section LoopClaims

variable {F : Type} [LinearOrderedField F] [FloorRing F]

/-- The loop stops, within `maxIterations` passes, in the first state whose condition
fails. -/
theorem march_stops (sqrt : F → F) (cam dir : Vec3 F) (scene : List (Shape F)) :
    ∃ k, k ≤ maxIterations ∧
      (∀ j, j < k → marchCond (marchState sqrt cam dir scene j) = true) ∧
      marchCond (marchState sqrt cam dir scene k) = false ∧
      march sqrt cam dir scene = marchState sqrt cam dir scene k := by
  have hex : ∃ j, marchCond (marchState sqrt cam dir scene j) ≠ true :=
    ⟨maxIterations, by simp [marchCond, marchState_iterations]⟩
  classical
  have hk := Nat.find_spec hex
  have hmin : ∀ j, j < Nat.find hex → marchCond (marchState sqrt cam dir scene j) = true := by
    intro j hj
    have := Nat.find_min hex hj
    simpa using this
  have hk2 : marchCond (marchState sqrt cam dir scene (Nat.find hex)) = false := by
    simpa using hk
  refine ⟨Nat.find hex, ?_, hmin, hk2, march_eq_marchState sqrt cam dir scene _ hmin hk2⟩
  exact Nat.find_min' hex (by simp [marchCond, marchState_iterations])

/-- A pass that finds some shape closer than `delta` sets `colorPicked`. -/
theorem foldl_shapeStep_picked (sqrt : F → F) (cam dir : Vec3 F) (scene : List (Shape F))
    (l : List (ℕ × Shape F)) (st : MarchState F)
    (h : st.colorPicked = true ∨
      ∃ e ∈ l, shapeDistance sqrt (cam + st.distTraveled • dir) e.2 < delta) :
    (l.foldl (shapeStep sqrt cam dir scene) st).colorPicked = true := by
  induction l generalizing st with
  | nil =>
    rcases h with h | ⟨e, he, _⟩
    · exact h
    · cases he
  | cons e l ih =>
    rw [List.foldl_cons]
    apply ih
    have hd := (shapeStep_distTraveled sqrt cam dir scene st e).1
    rw [hd]
    by_cases hit : shapeDistance sqrt (cam + st.distTraveled • dir) e.2 < delta
    · left
      unfold shapeStep
      simp only [if_pos hit]
    · rcases h with h | ⟨e2, he2, h2⟩
      · left
        unfold shapeStep
        simp only [if_neg hit]
        split_ifs <;> exact h
      · rcases List.mem_cons.1 he2 with rfl | hmem
        · exact absurd h2 hit
        · exact Or.inr ⟨e2, hmem, h2⟩

/-- The scene as the loop walks it splits at index `i`. -/
theorem enum_split {α : Type} (scene : List α) (i : ℕ) (a : α) (hi : scene[i]? = some a) :
    ∃ l1 l2 : List (ℕ × α), scene.enum = l1 ++ (i, a) :: l2 ∧
      ∀ e ∈ l2, i < e.1 ∧ scene[e.1]? = some e.2 := by
  have hlt : i < scene.length := by
    by_contra hcon
    rw [List.getElem?_eq_none (not_lt.1 hcon)] at hi
    cases hi
  have hget : scene[i] = a := by
    rw [List.getElem?_eq_getElem hlt] at hi
    exact Option.some.inj hi
  refine ⟨(scene.take i).enum, List.enumFrom (i + 1) (scene.drop (i + 1)), ?_, ?_⟩
  · have hsplit : scene = scene.take i ++ a :: scene.drop (i + 1) := by
      rw [← hget, List.getElem_cons_drop scene i hlt, List.take_append_drop]
    have hlen : (scene.take i).length = i := by
      rw [List.length_take]; omega
    conv_lhs => rw [hsplit]
    rw [List.enum_append, hlen, List.enumFrom_cons]
  · intro e he
    obtain ⟨j, b⟩ := e
    rw [List.mk_mem_enumFrom_iff_le_and_getElem?_sub] at he
    obtain ⟨hle, hb⟩ := he
    refine ⟨by simpa using hle, ?_⟩
    simp only []
    rw [List.getElem?_drop] at hb
    rw [← hb]
    congr 1
    omega

/-- The pass that finds a shape closer than `delta`: the loop ends after it, and the pixel
has the shading of the last such shape in scene order. -/
theorem march_lastHit (sqrt : F → F) (cam dir : Vec3 F) (scene : List (Shape F)) (k : ℕ)
    (hrun : Runs sqrt cam dir scene k) (i : ℕ) (shape : Shape F)
    (hi : scene[i]? = some shape)
    (hhit : shapeDistance sqrt (marchPoint sqrt cam dir scene k) shape < delta)
    (hlast : ∀ j shape2, i < j → scene[j]? = some shape2 →
      ¬ shapeDistance sqrt (marchPoint sqrt cam dir scene k) shape2 < delta) :
    march sqrt cam dir scene = marchState sqrt cam dir scene (k + 1) ∧
    (march sqrt cam dir scene).color
      = lighting sqrt cam scene i shape (marchPoint sqrt cam dir scene k) ∧
    (march sqrt cam dir scene).colorPicked = true := by
  obtain ⟨l1, l2, hsplit, hl2⟩ := enum_split scene i shape hi
  have hfold := foldl_shapeStep_lastHit sqrt cam dir scene l1 l2 (i, shape)
    (marchState sqrt cam dir scene k) hhit
    (fun e2 he2 => hlast e2.1 e2.2 (hl2 e2 he2).1 (hl2 e2 he2).2)
  rw [← hsplit] at hfold
  have hnext : (marchState sqrt cam dir scene (k + 1)).color
        = lighting sqrt cam scene i shape (marchPoint sqrt cam dir scene k) ∧
      (marchState sqrt cam dir scene (k + 1)).colorPicked = true := by
    rw [marchState_succ]
    unfold marchBody
    exact hfold
  have hstop := marchCond_of_picked _ hnext.2
  have heq := march_eq_marchState sqrt cam dir scene (k + 1)
    (fun j hj => hrun j (Nat.lt_succ_iff.1 hj)) hstop
  rw [heq]
  exact ⟨rfl, hnext⟩

/-- A pass the loop executes starts with `colorPicked` unset, so no earlier pass found a
shape closer than `delta`. -/
theorem no_hit_before (sqrt : F → F) (cam dir : Vec3 F) (scene : List (Shape F)) (k : ℕ)
    (hrun : Runs sqrt cam dir scene k) (j : ℕ) (hj : j < k) (shape : Shape F)
    (hmem : shape ∈ scene) :
    ¬ shapeDistance sqrt (marchPoint sqrt cam dir scene j) shape < delta := by
  intro hhit
  have hpicked : (marchState sqrt cam dir scene (j + 1)).colorPicked = true := by
    rw [marchState_succ]
    unfold marchBody
    apply foldl_shapeStep_picked
    right
    obtain ⟨n, hn, hget⟩ := List.getElem_of_mem hmem
    refine ⟨(n, shape), ?_, hhit⟩
    rw [List.mk_mem_enum_iff_getElem?, List.getElem?_eq_getElem hn, hget]
  have := hrun (j + 1) hj
  rw [marchCond_of_picked _ hpicked] at this
  cases this

/-- The step of a pass that finds no shape closer than `delta`. -/
theorem marchState_step (sqrt : F → F) (cam dir : Vec3 F) (scene : List (Shape F)) (k : ℕ)
    (hno : ∀ shape ∈ scene,
      ¬ shapeDistance sqrt (marchPoint sqrt cam dir scene k) shape < delta) :
    (marchState sqrt cam dir scene (k + 1)).distTraveled
        = (marchState sqrt cam dir scene k).distTraveled
          + (marchState sqrt cam dir scene (k + 1)).minSignedDistance ∧
    (marchState sqrt cam dir scene (k + 1)).minSignedDistance
        ≤ (marchState sqrt cam dir scene k).minSignedDistance ∧
    (∀ shape ∈ scene, (marchState sqrt cam dir scene (k + 1)).minSignedDistance
        ≤ shapeDistance sqrt (marchPoint sqrt cam dir scene k) shape) ∧
    ((marchState sqrt cam dir scene (k + 1)).minSignedDistance
        = (marchState sqrt cam dir scene k).minSignedDistance ∨
      ∃ shape ∈ scene, (marchState sqrt cam dir scene (k + 1)).minSignedDistance
        = shapeDistance sqrt (marchPoint sqrt cam dir scene k) shape) ∧
    (marchState sqrt cam dir scene (k + 1)).color = (marchState sqrt cam dir scene k).color ∧
    (marchState sqrt cam dir scene (k + 1)).colorPicked
        = (marchState sqrt cam dir scene k).colorPicked := by
  have hno2 : ∀ e ∈ scene.enum, ¬ shapeDistance sqrt
      (cam + (marchState sqrt cam dir scene k).distTraveled • dir) e.2 < delta :=
    fun e he => hno e.2 (List.snd_mem_of_mem_enum he)
  obtain ⟨h1, h2, h3, h4⟩ := foldl_shapeStep_noHit sqrt cam dir scene scene.enum _ hno2
  have hd := (foldl_shapeStep_distTraveled sqrt cam dir scene scene.enum
    (marchState sqrt cam dir scene k)).1
  have hm := (foldl_shapeStep_min_bounds sqrt cam dir scene scene.enum
    (marchState sqrt cam dir scene k)).1
  rw [marchState_succ]
  unfold marchBody marchPoint
  simp only []
  refine ⟨by rw [hd], hm, ?_, ?_, h1, h2⟩
  · intro shape hmem
    obtain ⟨n, hn, hget⟩ := List.getElem_of_mem hmem
    have := h3 (n, shape) (by
      rw [List.mk_mem_enum_iff_getElem?, List.getElem?_eq_getElem hn, hget])
    exact this
  · rcases h4 with h4 | ⟨e, he, h4⟩
    · exact Or.inl h4
    · exact Or.inr ⟨e.2, List.snd_mem_of_mem_enum he, h4⟩

theorem marchState_min_le (sqrt : F → F) (cam dir : Vec3 F) (scene : List (Shape F)) (k : ℕ) :
    (marchState sqrt cam dir scene k).minSignedDistance ≤ 100 := by
  induction k with
  | zero => exact le_rfl
  | succ k ih =>
    rw [marchState_succ]
    unfold marchBody
    simp only []
    exact (foldl_shapeStep_min_bounds sqrt cam dir scene scene.enum _).1.trans ih

end LoopClaims

end RayMarcher

namespace RayMarcher

section Evaluation

variable {F : Type} [LinearOrderedField F]

theorem sqrt_mul_self_abs {sqrt : F → F} (hs : IsSqrt sqrt) (x : F) : sqrt (x * x) = |x| :=
  hs.eq_of_mul_self (abs_nonneg x) (abs_mul_abs_self x)

/-- Distance to a sphere from a point straight above or below its centre. -/
theorem signedDistanceSphere_axis {sqrt : F → F} (hs : IsSqrt sqrt) (a b z c r : F)
    (col : Vec3 F) :
    signedDistanceSphere sqrt ⟨a, b, z⟩ ⟨⟨a, b, c⟩, r, col⟩ = |z - c| - r := by
  unfold signedDistanceSphere Vec3.length Vec3.dot
  simp only [Vec3.sub_x, Vec3.sub_y, Vec3.sub_z, sub_self, mul_zero, zero_add]
  rw [sqrt_mul_self_abs hs]

/-- Distance to a sphere on the axis of a ray along `(0, 0, -1)`. -/
theorem shapeDistance_axis {sqrt : F → F} (hs : IsSqrt sqrt) (a b z c r t : F)
    (col col2 : Vec3 F) (m : Mat4 F) (ch : List ℤ) :
    shapeDistance sqrt ((⟨a, b, z⟩ : Vec3 F) + t • (⟨0, 0, -1⟩ : Vec3 F))
        ⟨.sphere ⟨⟨a, b, c⟩, r, col⟩, col2, m, ch⟩ = |z - t - c| - r := by
  have hp : (⟨a, b, z⟩ : Vec3 F) + t • (⟨0, 0, -1⟩ : Vec3 F) = ⟨a, b, z - t⟩ := by
    ext <;> simp
    ring
  rw [hp]
  simp only [shapeDistance]
  exact signedDistanceSphere_axis hs a b (z - t) c r col

theorem shadowLoop_not_occluded (sqrt : F → F) (scene : List (Shape F)) (idx : ℕ)
    (p dirL : Vec3 F) (dist : F) (h : ∀ q, occluded sqrt scene idx q = false) (fuel : ℕ)
    (t : F) : shadowLoop sqrt scene idx p dirL dist fuel t false = false := by
  induction fuel generalizing t with
  | zero => rfl
  | succ n ih =>
    unfold shadowLoop
    split_ifs
    · rfl
    · rw [h]; exact ih _
    · rfl

end Evaluation

section EvaluationLoop

variable {F : Type} [LinearOrderedField F] [FloorRing F]

theorem marchBody_singleton_hit (sqrt : F → F) (cam dir : Vec3 F) (s : Shape F)
    (st : MarchState F)
    (h : shapeDistance sqrt (cam + st.distTraveled • dir) s < delta) :
    marchBody sqrt cam dir [s] st
      = ⟨st.distTraveled + st.minSignedDistance, st.minSignedDistance,
          lighting sqrt cam [s] 0 s (cam + st.distTraveled • dir), true, st.iterations + 1⟩ := by
  simp [marchBody, shapeStep, h]

theorem marchBody_singleton_near (sqrt : F → F) (cam dir : Vec3 F) (s : Shape F)
    (st : MarchState F)
    (h : ¬ shapeDistance sqrt (cam + st.distTraveled • dir) s < delta)
    (h2 : shapeDistance sqrt (cam + st.distTraveled • dir) s ≤ st.minSignedDistance) :
    marchBody sqrt cam dir [s] st
      = ⟨st.distTraveled + shapeDistance sqrt (cam + st.distTraveled • dir) s,
          shapeDistance sqrt (cam + st.distTraveled • dir) s,
          st.color, st.colorPicked, st.iterations + 1⟩ := by
  simp [marchBody, shapeStep, h, h2]

theorem marchBody_singleton_far (sqrt : F → F) (cam dir : Vec3 F) (s : Shape F)
    (st : MarchState F)
    (h : ¬ shapeDistance sqrt (cam + st.distTraveled • dir) s < delta)
    (h2 : ¬ shapeDistance sqrt (cam + st.distTraveled • dir) s ≤ st.minSignedDistance) :
    marchBody sqrt cam dir [s] st
      = ⟨st.distTraveled + st.minSignedDistance, st.minSignedDistance,
          st.color, st.colorPicked, st.iterations + 1⟩ := by
  simp [marchBody, shapeStep, h, h2]

/-- In a scene of one shape nothing can shade the shape. -/
theorem lighting_singleton (sqrt : F → F) (cam : Vec3 F) (s : Shape F) (p : Vec3 F) :
    lighting sqrt cam [s] 0 s p = unshadowedColor sqrt cam s p := by
  have hocc : ∀ q, occluded sqrt [s] 0 q = false := by
    intro q
    simp [occluded]
  unfold lighting inShadow
  simp only []
  rw [shadowLoop_not_occluded sqrt [s] 0 _ _ _ hocc]
  simp

end EvaluationLoop

end RayMarcher

namespace RayMarcher

section Scenarios

variable {F : Type} [LinearOrderedField F] [FloorRing F]

/-- One pass of the loop for a scene of one sphere whose centre lies on the axis of a ray
along `(0, 0, -1)`. -/
theorem marchBody_axis {sqrt : F → F} (hs : IsSqrt sqrt) (a b z c r : F) (col : Vec3 F)
    (st : MarchState F) :
    marchBody sqrt (⟨a, b, z⟩ : Vec3 F) ⟨0, 0, -1⟩ [⟨.sphere ⟨⟨a, b, c⟩, r, col⟩, col, 1, []⟩] st
      = if |z - st.distTraveled - c| - r < delta then
          ⟨st.distTraveled + st.minSignedDistance, st.minSignedDistance,
            unshadowedColor sqrt ⟨a, b, z⟩ ⟨.sphere ⟨⟨a, b, c⟩, r, col⟩, col, 1, []⟩
              (⟨a, b, z⟩ + st.distTraveled • ⟨0, 0, -1⟩), true, st.iterations + 1⟩
        else if |z - st.distTraveled - c| - r ≤ st.minSignedDistance then
          ⟨st.distTraveled + (|z - st.distTraveled - c| - r), |z - st.distTraveled - c| - r,
            st.color, st.colorPicked, st.iterations + 1⟩
        else
          ⟨st.distTraveled + st.minSignedDistance, st.minSignedDistance,
            st.color, st.colorPicked, st.iterations + 1⟩ := by
  have hd := shapeDistance_axis hs a b z c r st.distTraveled col col 1 []
  split_ifs with h1 h2
  · rw [marchBody_singleton_hit sqrt _ _ _ _ (by rw [hd]; exact h1), lighting_singleton]
  · rw [marchBody_singleton_near sqrt _ _ _ _ (by rw [hd]; exact h1) (by rw [hd]; exact h2), hd]
  · rw [marchBody_singleton_far sqrt _ _ _ _ (by rw [hd]; exact h1) (by rw [hd]; exact h2)]

theorem marchState_zero (sqrt : F → F) (cam dir : Vec3 F) (scene : List (Shape F)) :
    marchState sqrt cam dir scene 0 = initialState := rfl

/-- The states of the centre-ray scenario: the sphere of radius 1 at the origin seen from
`(0, 0, 5)` along `(0, 0, -1)`. -/
theorem centre_states {sqrt : F → F} (hs : IsSqrt sqrt) (col : Vec3 F) :
    marchState sqrt (⟨0, 0, 5⟩ : Vec3 F) ⟨0, 0, -1⟩
        [⟨.sphere ⟨⟨0, 0, 0⟩, 1, col⟩, col, 1, []⟩] 1 = ⟨4, 4, ⟨0, 0, 0⟩, false, 1⟩ ∧
    marchState sqrt (⟨0, 0, 5⟩ : Vec3 F) ⟨0, 0, -1⟩
        [⟨.sphere ⟨⟨0, 0, 0⟩, 1, col⟩, col, 1, []⟩] 2
      = ⟨8, 4, unshadowedColor sqrt ⟨0, 0, 5⟩ ⟨.sphere ⟨⟨0, 0, 0⟩, 1, col⟩, col, 1, []⟩
          ⟨0, 0, 1⟩, true, 2⟩ := by
  have h1 : marchState sqrt (⟨0, 0, 5⟩ : Vec3 F) ⟨0, 0, -1⟩
      [⟨.sphere ⟨⟨0, 0, 0⟩, 1, col⟩, col, 1, []⟩] 1 = ⟨4, 4, ⟨0, 0, 0⟩, false, 1⟩ := by
    rw [marchState_succ, marchState_zero, marchBody_axis hs]
    norm_num [initialState, delta]
  refine ⟨h1, ?_⟩
  rw [marchState_succ, h1, marchBody_axis hs]
  have hp : (⟨0, 0, 5⟩ : Vec3 F) + (4 : F) • (⟨0, 0, -1⟩ : Vec3 F) = ⟨0, 0, 1⟩ := by
    ext <;> simp
    norm_num
  norm_num [delta, hp]

end Scenarios

end RayMarcher

namespace RayMarcher

section Centre

variable {F : Type} [LinearOrderedField F]

/-- The colour formula at the hit point `(0, 0, 1)` of the centre-ray scenario. -/
theorem unshadowedColor_centre {sqrt : F → F} (hs : IsSqrt sqrt) (col : Vec3 F) :
    unshadowedColor sqrt (⟨0, 0, 5⟩ : Vec3 F) ⟨.sphere ⟨⟨0, 0, 0⟩, 1, col⟩, col, 1, []⟩
        ⟨0, 0, 1⟩
      = clampVec (ambientColor + (4 / sqrt 66) • col + (4 / sqrt 66) ^ 10 • specularColor)
          0 1 := by
  have h1 : sqrt (1 : F) = 1 := hs.sqrt_one
  have h16 : sqrt (16 : F) = 4 := hs.eq_of_mul_self (by norm_num) (by norm_num)
  have hr : 0 < sqrt (66 : F) := hs.pos (by norm_num)
  have hn : normalVector sqrt (⟨0, 0, 1⟩ : Vec3 F) ⟨.sphere ⟨⟨0, 0, 0⟩, 1, col⟩, col, 1, []⟩
      = ⟨0, 0, 1⟩ := by
    simp only [normalVector, Vec3.normalize, Vec3.dot, Vec3.sub_x, Vec3.sub_y, Vec3.sub_z]
    norm_num [h1]
    ext <;> simp
  have hL : Vec3.normalize sqrt ((lightPosition : Vec3 F) - ⟨0, 0, 1⟩)
      = ⟨-5 / sqrt 66, -5 / sqrt 66, 4 / sqrt 66⟩ := by
    simp only [Vec3.normalize, Vec3.dot, lightPosition, Vec3.sub_x, Vec3.sub_y, Vec3.sub_z]
    norm_num
    ext <;> simp <;> ring
  have hv : Vec3.normalize sqrt ((⟨0, 0, 5⟩ : Vec3 F) - ⟨0, 0, 1⟩) = ⟨0, 0, 1⟩ := by
    simp only [Vec3.normalize, Vec3.dot, Vec3.sub_x, Vec3.sub_y, Vec3.sub_z]
    norm_num [h16]
    ext <;> simp
    norm_num
  have hpos : (0 : F) ≤ 4 / sqrt 66 := by positivity
  unfold unshadowedColor
  simp only [hn, hL, hv]
  have hdiff : Vec3.dot (⟨0, 0, 1⟩ : Vec3 F) ⟨-5 / sqrt 66, -5 / sqrt 66, 4 / sqrt 66⟩
      = 4 / sqrt 66 := by
    simp [Vec3.dot]
  have hspec : Vec3.dot (⟨0, 0, 1⟩ : Vec3 F)
      (Vec3.reflect (-(⟨-5 / sqrt 66, -5 / sqrt 66, 4 / sqrt 66⟩ : Vec3 F)) ⟨0, 0, 1⟩)
      = 4 / sqrt 66 := by
    simp [Vec3.dot, Vec3.reflect]
    ring
  rw [hdiff, hspec, max_eq_right hpos]
  congr 1
  ext <;> simp [lightColor]

end Centre

end RayMarcher

namespace RayMarcher

section MarchClaims

variable {F : Type} [LinearOrderedField F] [FloorRing F]

/-- If no executed pass finds a shape closer than `delta`, the loop ends with the initial
colour and with `colorPicked` unset. -/
theorem march_noHit (sqrt : F → F) (cam dir : Vec3 F) (scene : List (Shape F))
    (hno : ∀ k, Runs sqrt cam dir scene k → ∀ shape ∈ scene,
      ¬ shapeDistance sqrt (marchPoint sqrt cam dir scene k) shape < delta) :
    (march sqrt cam dir scene).color = ⟨0, 0, 0⟩ ∧
      (march sqrt cam dir scene).colorPicked = false := by
  obtain ⟨K, _, hrun, _, heq⟩ := march_stops sqrt cam dir scene
  have hinv : ∀ j, j ≤ K → (marchState sqrt cam dir scene j).color = ⟨0, 0, 0⟩ ∧
      (marchState sqrt cam dir scene j).colorPicked = false := by
    intro j
    induction j with
    | zero => intro _; exact ⟨rfl, rfl⟩
    | succ j ih =>
      intro hj
      obtain ⟨h1, h2⟩ := ih (Nat.le_of_succ_le hj)
      have hr : Runs sqrt cam dir scene j := fun i hi => hrun i (by omega)
      obtain ⟨_, _, _, _, h5, h6⟩ := marchState_step sqrt cam dir scene j (hno j hr)
      exact ⟨h5.trans h1, h6.trans h2⟩
  rw [heq]
  exact hinv K le_rfl

/-- C9: if no pass the marching loop executes finds a shape closer than `delta = 0.001`
to its current point, the loop stops because 100 passes are done or `distTraveled` has
reached 100, and the pixel colour is exactly black; in particular the pixel of every ray
through an empty scene is black. -/
theorem march_exhausted_black (sqrt : F → F) (cam dir : Vec3 F) (scene : List (Shape F))
    (hno : ∀ k, Runs sqrt cam dir scene k → ∀ shape ∈ scene,
      ¬ shapeDistance sqrt (marchPoint sqrt cam dir scene k) shape < delta) :
    (march sqrt cam dir scene).color = ⟨0, 0, 0⟩ ∧
    (march sqrt cam dir scene).colorPicked = false ∧
    (maxIterations ≤ (march sqrt cam dir scene).iterations ∨
      maxDistance ≤ (march sqrt cam dir scene).distTraveled) ∧
    (march sqrt cam dir ([] : List (Shape F))).color = ⟨0, 0, 0⟩ := by
  obtain ⟨h1, h2⟩ := march_noHit sqrt cam dir scene hno
  refine ⟨h1, h2, ?_, ?_⟩
  · have hc := marchCond_march sqrt cam dir scene
    simp only [marchCond, h2, Bool.not_false, Bool.and_true, Bool.and_eq_false_imp,
      decide_eq_true_eq, decide_eq_false_iff_not, not_lt] at hc
    by_cases hi : (march sqrt cam dir scene).iterations < maxIterations
    · exact Or.inr (hc hi)
    · exact Or.inl (not_lt.1 hi)
  · exact (march_noHit sqrt cam dir [] (fun _ _ shape hmem => by cases hmem)).1

/-- C3 (as amended): in a pass of the marching loop in which no shape is within `delta` of
the current point, `distTraveled` is increased by a step that is at most 100 and at most
the signed distance from the current point to every shape of the scene; in the first pass
of a pixel the step is exactly the minimum of 100 and of these signed distances. -/
theorem march_step_size (sqrt : F → F) (cam dir : Vec3 F) (scene : List (Shape F)) (k : ℕ)
    (hno : ∀ shape ∈ scene,
      ¬ shapeDistance sqrt (marchPoint sqrt cam dir scene k) shape < delta) :
    ∃ step : F,
      (marchState sqrt cam dir scene (k + 1)).distTraveled
        = (marchState sqrt cam dir scene k).distTraveled + step ∧
      step ≤ 100 ∧
      (∀ shape ∈ scene, step ≤ shapeDistance sqrt (marchPoint sqrt cam dir scene k) shape) ∧
      (k = 0 → step = 100 ∨
        ∃ shape ∈ scene, step = shapeDistance sqrt (marchPoint sqrt cam dir scene k) shape) := by
  obtain ⟨h1, _, h3, h4, _, _⟩ := marchState_step sqrt cam dir scene k hno
  refine ⟨_, h1, marchState_min_le sqrt cam dir scene (k + 1), h3, ?_⟩
  intro hk
  subst hk
  exact h4

/-- C2 (as amended): if the marching loop executes the pass `k` and in it some shape is
closer than `delta = 0.001` to the current point, then no earlier pass found such a shape
and the pixel colour is the lighting-model shading of the last shape in scene order that is
closer than `delta` to the current point. -/
theorem march_hit_last_shape (sqrt : F → F) (cam dir : Vec3 F) (scene : List (Shape F))
    (k : ℕ) (hrun : Runs sqrt cam dir scene k) (i : ℕ) (shape : Shape F)
    (hi : scene[i]? = some shape)
    (hhit : shapeDistance sqrt (marchPoint sqrt cam dir scene k) shape < delta)
    (hlast : ∀ j shape2, i < j → scene[j]? = some shape2 →
      ¬ shapeDistance sqrt (marchPoint sqrt cam dir scene k) shape2 < delta) :
    (∀ j, j < k → ∀ shape2 ∈ scene,
      ¬ shapeDistance sqrt (marchPoint sqrt cam dir scene j) shape2 < delta) ∧
    (march sqrt cam dir scene).color
      = lighting sqrt cam scene i shape (marchPoint sqrt cam dir scene k) :=
  ⟨fun j hj shape2 hmem => no_hit_before sqrt cam dir scene k hrun j hj shape2 hmem,
    (march_lastHit sqrt cam dir scene k hrun i shape hi hhit hlast).2.1⟩

/-- C10: for the scene of one sphere of radius 1 at the origin with non-negative colour
channels and the camera at `(0, 0, 5)` looking at the origin with up `(0, 1, 0)`, the ray
for the normalised device coordinates `(0, 0)` has direction `(0, 0, -1)`, the marching
loop finds the hit in its second pass, and the pixel colour is
`clamp(ambient + diffuseIntensity * sphereColor + specularIntensity * specularColor, 0, 1)`
with `diffuseIntensity = 4 / sqrt 66` and `specularIntensity = (4 / sqrt 66) ^ 10`, without
shadow attenuation, which is not black. -/
theorem march_centre_ray (sqrt : F → F) (hs : IsSqrt sqrt) (col : Vec3 F)
    (hcol : 0 ≤ col.x ∧ 0 ≤ col.y ∧ 0 ≤ col.z) :
    rayDirectionNdc sqrt (lookAt sqrt (⟨0, 0, 5⟩ : Vec3 F) ⟨0, 0, 0⟩ ⟨0, 1, 0⟩) 0 0
      = ⟨0, 0, -1⟩ ∧
    (march sqrt (⟨0, 0, 5⟩ : Vec3 F) ⟨0, 0, -1⟩
      [⟨.sphere ⟨⟨0, 0, 0⟩, 1, col⟩, col, 1, []⟩]).colorPicked = true ∧
    (march sqrt (⟨0, 0, 5⟩ : Vec3 F) ⟨0, 0, -1⟩
      [⟨.sphere ⟨⟨0, 0, 0⟩, 1, col⟩, col, 1, []⟩]).iterations = 2 ∧
    (march sqrt (⟨0, 0, 5⟩ : Vec3 F) ⟨0, 0, -1⟩
      [⟨.sphere ⟨⟨0, 0, 0⟩, 1, col⟩, col, 1, []⟩]).color
      = clampVec (ambientColor + (4 / sqrt 66) • col + (4 / sqrt 66) ^ 10 • specularColor)
          0 1 ∧
    (march sqrt (⟨0, 0, 5⟩ : Vec3 F) ⟨0, 0, -1⟩
      [⟨.sphere ⟨⟨0, 0, 0⟩, 1, col⟩, col, 1, []⟩]).color ≠ ⟨0, 0, 0⟩ := by
  obtain ⟨h1, h2⟩ := centre_states hs col
  have hmarch : march sqrt (⟨0, 0, 5⟩ : Vec3 F) ⟨0, 0, -1⟩
      [⟨.sphere ⟨⟨0, 0, 0⟩, 1, col⟩, col, 1, []⟩]
      = marchState sqrt (⟨0, 0, 5⟩ : Vec3 F) ⟨0, 0, -1⟩
        [⟨.sphere ⟨⟨0, 0, 0⟩, 1, col⟩, col, 1, []⟩] 2 := by
    apply march_eq_marchState
    · intro j hj
      interval_cases j
      · rw [marchState_zero]; simp [marchCond, initialState, maxIterations, maxDistance]
      · rw [h1]; simp [marchCond, maxIterations, maxDistance]; norm_num
    · rw [h2]; simp [marchCond]
  have h16 : sqrt (16 : F) = 4 := hs.eq_of_mul_self (by norm_num) (by norm_num)
  have hr : 0 < sqrt (66 : F) := hs.pos (by norm_num)
  rw [hmarch, h2, unshadowedColor_centre hs col]
  refine ⟨?_, rfl, rfl, rfl, ?_⟩
  · rw [rayDirectionNdc_scenario hs]
    simp only [Vec3.normalize, Vec3.dot]
    norm_num [h16]
    ext <;> simp
  · intro hblack
    have hx := congrArg Vec3.x hblack
    simp only [clampVec, clamp, ambientColor, specularColor, Vec3.add_x, Vec3.smul_x] at hx
    have hd : (0 : F) ≤ 4 / sqrt 66 := by positivity
    have ha : (1 : F) / 10 ≤ 1 / 10 + 4 / sqrt 66 * col.x + (4 / sqrt 66) ^ 10 * (1 / 2) := by
      have := mul_nonneg hd hcol.1
      have : (0 : F) ≤ (4 / sqrt 66) ^ 10 * (1 / 2) := by positivity
      linarith
    have hm : (1 : F) / 10 ≤
        min (max (1 / 10 + 4 / sqrt 66 * col.x + (4 / sqrt 66) ^ 10 * (1 / 2)) 0) 1 :=
      le_min (le_max_of_le_left ha) (by norm_num)
    rw [hx] at hm
    norm_num at hm

end MarchClaims

end RayMarcher

namespace RayMarcher

section Witnesses

variable {F : Type} [LinearOrderedField F] [FloorRing F]

/-- A sphere of radius 1 around `(0, 0, -200)` seen from `(0, 0, 5)` along `(0, 0, -1)`:
the first pass finds it 204 away and advances by 100. -/
theorem far_states {sqrt : F → F} (hs : IsSqrt sqrt) (col : Vec3 F) :
    shapeDistance sqrt (marchPoint sqrt (⟨0, 0, 5⟩ : Vec3 F) ⟨0, 0, -1⟩
        [⟨.sphere ⟨⟨0, 0, -200⟩, 1, col⟩, col, 1, []⟩] 0)
      ⟨.sphere ⟨⟨0, 0, -200⟩, 1, col⟩, col, 1, []⟩ = 204 ∧
    marchState sqrt (⟨0, 0, 5⟩ : Vec3 F) ⟨0, 0, -1⟩
        [⟨.sphere ⟨⟨0, 0, -200⟩, 1, col⟩, col, 1, []⟩] 1 = ⟨100, 100, ⟨0, 0, 0⟩, false, 1⟩ := by
  constructor
  · unfold marchPoint
    rw [marchState_zero, shapeDistance_axis hs]
    norm_num [initialState]
  · rw [marchState_succ, marchState_zero, marchBody_axis hs]
    norm_num [initialState, delta]

/-- A sphere of radius 1 around `(0, 0, 10)`, behind the camera at `(0, 0, 5)` that looks
along `(0, 0, -1)`: the first pass finds it 4 away, the second 8 away. -/
theorem behind_states {sqrt : F → F} (hs : IsSqrt sqrt) (col : Vec3 F) :
    marchState sqrt (⟨0, 0, 5⟩ : Vec3 F) ⟨0, 0, -1⟩
        [⟨.sphere ⟨⟨0, 0, 10⟩, 1, col⟩, col, 1, []⟩] 1 = ⟨4, 4, ⟨0, 0, 0⟩, false, 1⟩ ∧
    shapeDistance sqrt (marchPoint sqrt (⟨0, 0, 5⟩ : Vec3 F) ⟨0, 0, -1⟩
        [⟨.sphere ⟨⟨0, 0, 10⟩, 1, col⟩, col, 1, []⟩] 1)
      ⟨.sphere ⟨⟨0, 0, 10⟩, 1, col⟩, col, 1, []⟩ = 8 ∧
    marchState sqrt (⟨0, 0, 5⟩ : Vec3 F) ⟨0, 0, -1⟩
        [⟨.sphere ⟨⟨0, 0, 10⟩, 1, col⟩, col, 1, []⟩] 2 = ⟨8, 4, ⟨0, 0, 0⟩, false, 2⟩ := by
  have h1 : marchState sqrt (⟨0, 0, 5⟩ : Vec3 F) ⟨0, 0, -1⟩
      [⟨.sphere ⟨⟨0, 0, 10⟩, 1, col⟩, col, 1, []⟩] 1 = ⟨4, 4, ⟨0, 0, 0⟩, false, 1⟩ := by
    rw [marchState_succ, marchState_zero, marchBody_axis hs]
    have : |(5 : F) - 0 - 10| = 5 := by
      rw [abs_of_nonpos (by norm_num)]; norm_num
    norm_num [initialState, delta, this]
  have h9 : |(5 : F) - 4 - 10| = 9 := by
    rw [abs_of_nonpos (by norm_num)]; norm_num
  refine ⟨h1, ?_, ?_⟩
  · unfold marchPoint
    rw [h1, shapeDistance_axis hs]
    norm_num [h9]
  · rw [marchState_succ, h1, marchBody_axis hs]
    norm_num [delta, h9]

end Witnesses

/-- Witness for C9: a sphere of radius 1 around `(0, 0, -200)`; the single pass of the loop
finds it 204 away and advances `distTraveled` to 100. -/
theorem march_exhausted_black_witness :
    (march Real.sqrt (⟨0, 0, 5⟩ : Vec3 ℝ) ⟨0, 0, -1⟩
      [⟨.sphere ⟨⟨0, 0, -200⟩, 1, ⟨1, 0, 0⟩⟩, ⟨1, 0, 0⟩, 1, []⟩]).color = ⟨0, 0, 0⟩ := by
  obtain ⟨hd, h1⟩ := far_states isSqrt_real (⟨1, 0, 0⟩ : Vec3 ℝ)
  refine (march_exhausted_black Real.sqrt _ _ _ ?_).1
  intro k hrun shape hmem
  rcases Nat.eq_zero_or_pos k with hk | hk
  · subst hk
    rw [List.mem_singleton.1 hmem, hd]
    norm_num [delta]
  · have hc := hrun 1 hk
    rw [h1] at hc
    simp [marchCond, maxDistance] at hc

/-- Witness for C3: the first pass for a sphere of radius 1 around `(0, 0, 10)` seen from
`(0, 0, 5)`. -/
theorem march_step_size_witness :
    ∃ step : ℝ,
      (marchState Real.sqrt (⟨0, 0, 5⟩ : Vec3 ℝ) ⟨0, 0, -1⟩
        [⟨.sphere ⟨⟨0, 0, 10⟩, 1, ⟨1, 0, 0⟩⟩, ⟨1, 0, 0⟩, 1, []⟩] (0 + 1)).distTraveled
        = (marchState Real.sqrt (⟨0, 0, 5⟩ : Vec3 ℝ) ⟨0, 0, -1⟩
          [⟨.sphere ⟨⟨0, 0, 10⟩, 1, ⟨1, 0, 0⟩⟩, ⟨1, 0, 0⟩, 1, []⟩] 0).distTraveled + step ∧
      step ≤ 100 := by
  obtain ⟨step, h1, h2, _, _⟩ := march_step_size Real.sqrt (⟨0, 0, 5⟩ : Vec3 ℝ) ⟨0, 0, -1⟩
    [⟨.sphere ⟨⟨0, 0, 10⟩, 1, ⟨1, 0, 0⟩⟩, ⟨1, 0, 0⟩, 1, []⟩] 0 (by
      intro shape hmem
      rw [List.mem_singleton.1 hmem]
      unfold marchPoint
      rw [marchState_zero, shapeDistance_axis isSqrt_real]
      have : |(5 : ℝ) - 0 - 10| = 5 := by
        rw [abs_of_nonpos (by norm_num)]; norm_num
      norm_num [initialState, delta, this])
  exact ⟨step, h1, h2⟩

/-- Counterexample to C3 as stated.  (a) For a sphere of radius 1 around `(0, 0, -200)` the
first pass finds the only shape 204 away, yet `distTraveled` grows by 100.  (b) For a sphere
of radius 1 around `(0, 0, 10)` the loop executes its second pass, in which the only shape
is 8 away from the current point, yet `distTraveled` grows from 4 to 8, by 4. -/
theorem march_step_size_counterexample :
    (shapeDistance Real.sqrt (marchPoint Real.sqrt (⟨0, 0, 5⟩ : Vec3 ℝ) ⟨0, 0, -1⟩
          [⟨.sphere ⟨⟨0, 0, -200⟩, 1, ⟨1, 0, 0⟩⟩, ⟨1, 0, 0⟩, 1, []⟩] 0)
        ⟨.sphere ⟨⟨0, 0, -200⟩, 1, ⟨1, 0, 0⟩⟩, ⟨1, 0, 0⟩, 1, []⟩ = 204 ∧
      (marchState Real.sqrt (⟨0, 0, 5⟩ : Vec3 ℝ) ⟨0, 0, -1⟩
          [⟨.sphere ⟨⟨0, 0, -200⟩, 1, ⟨1, 0, 0⟩⟩, ⟨1, 0, 0⟩, 1, []⟩] 0).distTraveled = 0 ∧
      (marchState Real.sqrt (⟨0, 0, 5⟩ : Vec3 ℝ) ⟨0, 0, -1⟩
          [⟨.sphere ⟨⟨0, 0, -200⟩, 1, ⟨1, 0, 0⟩⟩, ⟨1, 0, 0⟩, 1, []⟩] 1).distTraveled = 100) ∧
    (Runs Real.sqrt (⟨0, 0, 5⟩ : Vec3 ℝ) ⟨0, 0, -1⟩
          [⟨.sphere ⟨⟨0, 0, 10⟩, 1, ⟨1, 0, 0⟩⟩, ⟨1, 0, 0⟩, 1, []⟩] 1 ∧
      shapeDistance Real.sqrt (marchPoint Real.sqrt (⟨0, 0, 5⟩ : Vec3 ℝ) ⟨0, 0, -1⟩
          [⟨.sphere ⟨⟨0, 0, 10⟩, 1, ⟨1, 0, 0⟩⟩, ⟨1, 0, 0⟩, 1, []⟩] 1)
        ⟨.sphere ⟨⟨0, 0, 10⟩, 1, ⟨1, 0, 0⟩⟩, ⟨1, 0, 0⟩, 1, []⟩ = 8 ∧
      (marchState Real.sqrt (⟨0, 0, 5⟩ : Vec3 ℝ) ⟨0, 0, -1⟩
          [⟨.sphere ⟨⟨0, 0, 10⟩, 1, ⟨1, 0, 0⟩⟩, ⟨1, 0, 0⟩, 1, []⟩] 1).distTraveled = 4 ∧
      (marchState Real.sqrt (⟨0, 0, 5⟩ : Vec3 ℝ) ⟨0, 0, -1⟩
          [⟨.sphere ⟨⟨0, 0, 10⟩, 1, ⟨1, 0, 0⟩⟩, ⟨1, 0, 0⟩, 1, []⟩] 2).distTraveled = 8) := by
  obtain ⟨hd, h1⟩ := far_states isSqrt_real (⟨1, 0, 0⟩ : Vec3 ℝ)
  obtain ⟨b1, bd, b2⟩ := behind_states isSqrt_real (⟨1, 0, 0⟩ : Vec3 ℝ)
  refine ⟨⟨hd, rfl, by rw [h1]⟩, ?_, bd, by rw [b1], by rw [b2]⟩
  intro j hj
  interval_cases j
  · rw [marchState_zero]; simp [marchCond, initialState, maxIterations, maxDistance]
  · rw [b1]; simp [marchCond, maxIterations, maxDistance]; norm_num

/-- Witness for C10 over the real numbers, for the colour `(1, 0, 0)`. -/
theorem march_centre_ray_witness :
    (march Real.sqrt (⟨0, 0, 5⟩ : Vec3 ℝ) ⟨0, 0, -1⟩
      [⟨.sphere ⟨⟨0, 0, 0⟩, 1, ⟨1, 0, 0⟩⟩, ⟨1, 0, 0⟩, 1, []⟩]).colorPicked = true ∧
    (march Real.sqrt (⟨0, 0, 5⟩ : Vec3 ℝ) ⟨0, 0, -1⟩
      [⟨.sphere ⟨⟨0, 0, 0⟩, 1, ⟨1, 0, 0⟩⟩, ⟨1, 0, 0⟩, 1, []⟩]).iterations = 2 :=
  let h := march_centre_ray Real.sqrt isSqrt_real (⟨1, 0, 0⟩ : Vec3 ℝ) (by norm_num)
  ⟨h.2.1, h.2.2.1⟩

end RayMarcher

namespace RayMarcher

section TwoSpheresBasics

variable {F : Type} [LinearOrderedField F]

theorem shadowLoop_congr (sqrt : F → F) (scene : List (Shape F)) (i j : ℕ)
    (p dirL : Vec3 F) (dist : F)
    (h : ∀ q, occluded sqrt scene i q = occluded sqrt scene j q) (fuel : ℕ) (t : F)
    (b : Bool) :
    shadowLoop sqrt scene i p dirL dist fuel t b
      = shadowLoop sqrt scene j p dirL dist fuel t b := by
  induction fuel generalizing t b with
  | zero => rfl
  | succ n ih =>
    unfold shadowLoop
    split_ifs
    · rfl
    · rw [h]; exact ih _ _
    · rfl

/-- The colour formula on top of a sphere around `(-5, -5, 0)`, straight below the light and
the camera. -/
theorem unshadowedColor_top {sqrt : F → F} (hs : IsSqrt sqrt) (col : Vec3 F) :
    unshadowedColor sqrt (⟨-5, -5, 10⟩ : Vec3 F) ⟨.sphere ⟨⟨-5, -5, 0⟩, 1, col⟩, col, 1, []⟩
        ⟨-5, -5, 1⟩
      = clampVec (ambientColor + col + specularColor) 0 1 := by
  have h1 : sqrt (1 : F) = 1 := hs.sqrt_one
  have h16 : sqrt (16 : F) = 4 := hs.eq_of_mul_self (by norm_num) (by norm_num)
  have h81 : sqrt (81 : F) = 9 := hs.eq_of_mul_self (by norm_num) (by norm_num)
  have hn : normalVector sqrt (⟨-5, -5, 1⟩ : Vec3 F)
      ⟨.sphere ⟨⟨-5, -5, 0⟩, 1, col⟩, col, 1, []⟩ = ⟨0, 0, 1⟩ := by
    simp only [normalVector, Vec3.normalize, Vec3.dot, Vec3.sub_x, Vec3.sub_y, Vec3.sub_z]
    norm_num [h1]
    ext <;> simp
  have hL : Vec3.normalize sqrt ((lightPosition : Vec3 F) - ⟨-5, -5, 1⟩) = ⟨0, 0, 1⟩ := by
    simp only [Vec3.normalize, Vec3.dot, lightPosition, Vec3.sub_x, Vec3.sub_y, Vec3.sub_z]
    norm_num [h16]
    ext <;> simp
    norm_num
  have hv : Vec3.normalize sqrt ((⟨-5, -5, 10⟩ : Vec3 F) - ⟨-5, -5, 1⟩) = ⟨0, 0, 1⟩ := by
    simp only [Vec3.normalize, Vec3.dot, Vec3.sub_x, Vec3.sub_y, Vec3.sub_z]
    norm_num [h81]
    ext <;> simp
    norm_num
  unfold unshadowedColor
  simp only [hn, hL, hv]
  have hdiff : Vec3.dot (⟨0, 0, 1⟩ : Vec3 F) ⟨0, 0, 1⟩ = 1 := by simp [Vec3.dot]
  have hspec : Vec3.dot (⟨0, 0, 1⟩ : Vec3 F)
      (Vec3.reflect (-(⟨0, 0, 1⟩ : Vec3 F)) ⟨0, 0, 1⟩) = 1 := by
    simp [Vec3.dot, Vec3.reflect]
    norm_num
  rw [hdiff, hspec, max_eq_right zero_le_one]
  congr 1
  ext <;> simp [lightColor]

end TwoSpheresBasics

section TwoSpheres

variable {F : Type} [LinearOrderedField F] [FloorRing F]

/-- Two spheres of radius 1 around `(-5, -5, 0)`, the first with colour `colA`, the second
with colour `colB`, seen from `(-5, -5, 10)` along `(0, 0, -1)`: the first pass advances by
9, and in the second pass both spheres are at distance 0 from the current point. -/
theorem two_spheres_states {sqrt : F → F} (hs : IsSqrt sqrt) (colA colB : Vec3 F) :
    marchState sqrt (⟨-5, -5, 10⟩ : Vec3 F) ⟨0, 0, -1⟩
        [⟨.sphere ⟨⟨-5, -5, 0⟩, 1, colA⟩, colA, 1, []⟩,
         ⟨.sphere ⟨⟨-5, -5, 0⟩, 1, colB⟩, colB, 1, []⟩] 1 = ⟨9, 9, ⟨0, 0, 0⟩, false, 1⟩ ∧
    marchPoint sqrt (⟨-5, -5, 10⟩ : Vec3 F) ⟨0, 0, -1⟩
        [⟨.sphere ⟨⟨-5, -5, 0⟩, 1, colA⟩, colA, 1, []⟩,
         ⟨.sphere ⟨⟨-5, -5, 0⟩, 1, colB⟩, colB, 1, []⟩] 1 = ⟨-5, -5, 1⟩ ∧
    (∀ col : Vec3 F, shapeDistance sqrt (⟨-5, -5, 1⟩ : Vec3 F)
        ⟨.sphere ⟨⟨-5, -5, 0⟩, 1, col⟩, col, 1, []⟩ = 0) := by
  have h1 : marchState sqrt (⟨-5, -5, 10⟩ : Vec3 F) ⟨0, 0, -1⟩
      [⟨.sphere ⟨⟨-5, -5, 0⟩, 1, colA⟩, colA, 1, []⟩,
       ⟨.sphere ⟨⟨-5, -5, 0⟩, 1, colB⟩, colB, 1, []⟩] 1 = ⟨9, 9, ⟨0, 0, 0⟩, false, 1⟩ := by
    rw [marchState_succ, marchState_zero]
    simp only [marchBody, List.enum, List.enumFrom, List.foldl_cons, List.foldl_nil, shapeStep,
      initialState, shapeDistance_axis hs]
    norm_num [delta]
  refine ⟨h1, ?_, ?_⟩
  · unfold marchPoint
    rw [h1]
    ext <;> simp
    norm_num
  · intro col
    have := signedDistanceSphere_axis hs (-5) (-5) 1 0 1 col
    simp only [shapeDistance]
    rw [this]
    norm_num

/-- The shadings of the two coincident spheres differ. -/
theorem two_spheres_lighting_ne {sqrt : F → F} (hs : IsSqrt sqrt) :
    lighting sqrt (⟨-5, -5, 10⟩ : Vec3 F)
        [⟨.sphere ⟨⟨-5, -5, 0⟩, 1, ⟨1, 0, 0⟩⟩, ⟨1, 0, 0⟩, 1, []⟩,
         ⟨.sphere ⟨⟨-5, -5, 0⟩, 1, ⟨0, 0, 1⟩⟩, ⟨0, 0, 1⟩, 1, []⟩] 1
        ⟨.sphere ⟨⟨-5, -5, 0⟩, 1, ⟨0, 0, 1⟩⟩, ⟨0, 0, 1⟩, 1, []⟩ ⟨-5, -5, 1⟩
      ≠ lighting sqrt (⟨-5, -5, 10⟩ : Vec3 F)
        [⟨.sphere ⟨⟨-5, -5, 0⟩, 1, ⟨1, 0, 0⟩⟩, ⟨1, 0, 0⟩, 1, []⟩,
         ⟨.sphere ⟨⟨-5, -5, 0⟩, 1, ⟨0, 0, 1⟩⟩, ⟨0, 0, 1⟩, 1, []⟩] 0
        ⟨.sphere ⟨⟨-5, -5, 0⟩, 1, ⟨1, 0, 0⟩⟩, ⟨1, 0, 0⟩, 1, []⟩ ⟨-5, -5, 1⟩ := by
  have hocc : ∀ q : Vec3 F, occluded sqrt
      [⟨.sphere ⟨⟨-5, -5, 0⟩, 1, ⟨1, 0, 0⟩⟩, ⟨1, 0, 0⟩, 1, []⟩,
       (⟨.sphere ⟨⟨-5, -5, 0⟩, 1, ⟨0, 0, 1⟩⟩, ⟨0, 0, 1⟩, 1, []⟩ : Shape F)] 1 q
      = occluded sqrt
      [⟨.sphere ⟨⟨-5, -5, 0⟩, 1, ⟨1, 0, 0⟩⟩, ⟨1, 0, 0⟩, 1, []⟩,
       (⟨.sphere ⟨⟨-5, -5, 0⟩, 1, ⟨0, 0, 1⟩⟩, ⟨0, 0, 1⟩, 1, []⟩ : Shape F)] 0 q := by
    intro q
    simp [occluded, List.enum, List.enumFrom, shapeDistance, signedDistanceSphere]
  have hsh : inShadow sqrt
      [⟨.sphere ⟨⟨-5, -5, 0⟩, 1, ⟨1, 0, 0⟩⟩, ⟨1, 0, 0⟩, 1, []⟩,
       (⟨.sphere ⟨⟨-5, -5, 0⟩, 1, ⟨0, 0, 1⟩⟩, ⟨0, 0, 1⟩, 1, []⟩ : Shape F)] 1 ⟨-5, -5, 1⟩
      = inShadow sqrt
      [⟨.sphere ⟨⟨-5, -5, 0⟩, 1, ⟨1, 0, 0⟩⟩, ⟨1, 0, 0⟩, 1, []⟩,
       (⟨.sphere ⟨⟨-5, -5, 0⟩, 1, ⟨0, 0, 1⟩⟩, ⟨0, 0, 1⟩, 1, []⟩ : Shape F)] 0 ⟨-5, -5, 1⟩ := by
    unfold inShadow
    exact shadowLoop_congr sqrt _ 1 0 _ _ _ hocc _ _ _
  unfold lighting
  rw [hsh, unshadowedColor_top hs, unshadowedColor_top hs]
  intro heq
  split_ifs at heq
  all_goals
    have hx := congrArg Vec3.x heq
    simp only [clampVec, clamp, ambientColor, specularColor, Vec3.add_x, Vec3.smul_x] at hx
    norm_num at hx

end TwoSpheres

end RayMarcher

namespace RayMarcher

/-- The loop executes the second pass for the two coincident spheres. -/
theorem two_spheres_runs {F : Type} [LinearOrderedField F] [FloorRing F] {sqrt : F → F}
    (hs : IsSqrt sqrt) (colA colB : Vec3 F) :
    Runs sqrt (⟨-5, -5, 10⟩ : Vec3 F) ⟨0, 0, -1⟩
      [⟨.sphere ⟨⟨-5, -5, 0⟩, 1, colA⟩, colA, 1, []⟩,
       ⟨.sphere ⟨⟨-5, -5, 0⟩, 1, colB⟩, colB, 1, []⟩] 1 := by
  obtain ⟨h1, _, _⟩ := two_spheres_states hs colA colB
  intro j hj
  interval_cases j
  · rw [marchState_zero]; simp [marchCond, initialState, maxIterations, maxDistance]
  · rw [h1]; simp [marchCond, maxIterations, maxDistance]; norm_num

/-- Witness for C2: two spheres of radius 1 around `(-5, -5, 0)`, a red one followed by a
blue one, seen from `(-5, -5, 10)` along `(0, 0, -1)`; the pixel has the shading of the
second. -/
theorem march_hit_last_shape_witness :
    (march Real.sqrt (⟨-5, -5, 10⟩ : Vec3 ℝ) ⟨0, 0, -1⟩
      [⟨.sphere ⟨⟨-5, -5, 0⟩, 1, ⟨1, 0, 0⟩⟩, ⟨1, 0, 0⟩, 1, []⟩,
       ⟨.sphere ⟨⟨-5, -5, 0⟩, 1, ⟨0, 0, 1⟩⟩, ⟨0, 0, 1⟩, 1, []⟩]).color
      = lighting Real.sqrt (⟨-5, -5, 10⟩ : Vec3 ℝ)
        [⟨.sphere ⟨⟨-5, -5, 0⟩, 1, ⟨1, 0, 0⟩⟩, ⟨1, 0, 0⟩, 1, []⟩,
         ⟨.sphere ⟨⟨-5, -5, 0⟩, 1, ⟨0, 0, 1⟩⟩, ⟨0, 0, 1⟩, 1, []⟩] 1
        ⟨.sphere ⟨⟨-5, -5, 0⟩, 1, ⟨0, 0, 1⟩⟩, ⟨0, 0, 1⟩, 1, []⟩
        (marchPoint Real.sqrt (⟨-5, -5, 10⟩ : Vec3 ℝ) ⟨0, 0, -1⟩
          [⟨.sphere ⟨⟨-5, -5, 0⟩, 1, ⟨1, 0, 0⟩⟩, ⟨1, 0, 0⟩, 1, []⟩,
           ⟨.sphere ⟨⟨-5, -5, 0⟩, 1, ⟨0, 0, 1⟩⟩, ⟨0, 0, 1⟩, 1, []⟩] 1) := by
  obtain ⟨_, hp, hd⟩ := two_spheres_states isSqrt_real (⟨1, 0, 0⟩ : Vec3 ℝ) ⟨0, 0, 1⟩
  refine (march_hit_last_shape Real.sqrt _ _ _ 1
    (two_spheres_runs isSqrt_real _ _) 1
    ⟨.sphere ⟨⟨-5, -5, 0⟩, 1, ⟨0, 0, 1⟩⟩, ⟨0, 0, 1⟩, 1, []⟩ rfl ?_ ?_).2
  · rw [hp, hd]; norm_num [delta]
  · intro j shape2 hj hget
    have : ([⟨.sphere ⟨⟨-5, -5, 0⟩, 1, ⟨1, 0, 0⟩⟩, ⟨1, 0, 0⟩, 1, []⟩,
        ⟨.sphere ⟨⟨-5, -5, 0⟩, 1, ⟨0, 0, 1⟩⟩, ⟨0, 0, 1⟩, 1, []⟩] : List (Shape ℝ))[j]?
        = none := List.getElem?_eq_none (by simpa using hj)
    rw [this] at hget
    cases hget

/-- Counterexample to C2 as stated: two spheres of radius 1 around `(-5, -5, 0)`, a red one
followed by a blue one, seen from `(-5, -5, 10)` along `(0, 0, -1)`.  The loop executes its
second pass, in which both spheres are closer than `delta` to the current point
`(-5, -5, 1)`; the pixel colour is the shading of the second sphere and differs from the
shading of the first. -/
theorem march_first_shape_counterexample :
    Runs Real.sqrt (⟨-5, -5, 10⟩ : Vec3 ℝ) ⟨0, 0, -1⟩
      [⟨.sphere ⟨⟨-5, -5, 0⟩, 1, ⟨1, 0, 0⟩⟩, ⟨1, 0, 0⟩, 1, []⟩,
       ⟨.sphere ⟨⟨-5, -5, 0⟩, 1, ⟨0, 0, 1⟩⟩, ⟨0, 0, 1⟩, 1, []⟩] 1 ∧
    marchPoint Real.sqrt (⟨-5, -5, 10⟩ : Vec3 ℝ) ⟨0, 0, -1⟩
      [⟨.sphere ⟨⟨-5, -5, 0⟩, 1, ⟨1, 0, 0⟩⟩, ⟨1, 0, 0⟩, 1, []⟩,
       ⟨.sphere ⟨⟨-5, -5, 0⟩, 1, ⟨0, 0, 1⟩⟩, ⟨0, 0, 1⟩, 1, []⟩] 1 = ⟨-5, -5, 1⟩ ∧
    shapeDistance Real.sqrt (⟨-5, -5, 1⟩ : Vec3 ℝ)
      ⟨.sphere ⟨⟨-5, -5, 0⟩, 1, ⟨1, 0, 0⟩⟩, ⟨1, 0, 0⟩, 1, []⟩ < delta ∧
    shapeDistance Real.sqrt (⟨-5, -5, 1⟩ : Vec3 ℝ)
      ⟨.sphere ⟨⟨-5, -5, 0⟩, 1, ⟨0, 0, 1⟩⟩, ⟨0, 0, 1⟩, 1, []⟩ < delta ∧
    (march Real.sqrt (⟨-5, -5, 10⟩ : Vec3 ℝ) ⟨0, 0, -1⟩
      [⟨.sphere ⟨⟨-5, -5, 0⟩, 1, ⟨1, 0, 0⟩⟩, ⟨1, 0, 0⟩, 1, []⟩,
       ⟨.sphere ⟨⟨-5, -5, 0⟩, 1, ⟨0, 0, 1⟩⟩, ⟨0, 0, 1⟩, 1, []⟩]).color
      = lighting Real.sqrt (⟨-5, -5, 10⟩ : Vec3 ℝ)
        [⟨.sphere ⟨⟨-5, -5, 0⟩, 1, ⟨1, 0, 0⟩⟩, ⟨1, 0, 0⟩, 1, []⟩,
         ⟨.sphere ⟨⟨-5, -5, 0⟩, 1, ⟨0, 0, 1⟩⟩, ⟨0, 0, 1⟩, 1, []⟩] 1
        ⟨.sphere ⟨⟨-5, -5, 0⟩, 1, ⟨0, 0, 1⟩⟩, ⟨0, 0, 1⟩, 1, []⟩ ⟨-5, -5, 1⟩ ∧
    (march Real.sqrt (⟨-5, -5, 10⟩ : Vec3 ℝ) ⟨0, 0, -1⟩
      [⟨.sphere ⟨⟨-5, -5, 0⟩, 1, ⟨1, 0, 0⟩⟩, ⟨1, 0, 0⟩, 1, []⟩,
       ⟨.sphere ⟨⟨-5, -5, 0⟩, 1, ⟨0, 0, 1⟩⟩, ⟨0, 0, 1⟩, 1, []⟩]).color
      ≠ lighting Real.sqrt (⟨-5, -5, 10⟩ : Vec3 ℝ)
        [⟨.sphere ⟨⟨-5, -5, 0⟩, 1, ⟨1, 0, 0⟩⟩, ⟨1, 0, 0⟩, 1, []⟩,
         ⟨.sphere ⟨⟨-5, -5, 0⟩, 1, ⟨0, 0, 1⟩⟩, ⟨0, 0, 1⟩, 1, []⟩] 0
        ⟨.sphere ⟨⟨-5, -5, 0⟩, 1, ⟨1, 0, 0⟩⟩, ⟨1, 0, 0⟩, 1, []⟩ ⟨-5, -5, 1⟩ := by
  obtain ⟨_, hp, hd⟩ := two_spheres_states isSqrt_real (⟨1, 0, 0⟩ : Vec3 ℝ) ⟨0, 0, 1⟩
  have hrun := two_spheres_runs isSqrt_real (⟨1, 0, 0⟩ : Vec3 ℝ) ⟨0, 0, 1⟩
  have hcol := (march_lastHit Real.sqrt (⟨-5, -5, 10⟩ : Vec3 ℝ) ⟨0, 0, -1⟩
    [⟨.sphere ⟨⟨-5, -5, 0⟩, 1, ⟨1, 0, 0⟩⟩, ⟨1, 0, 0⟩, 1, []⟩,
     ⟨.sphere ⟨⟨-5, -5, 0⟩, 1, ⟨0, 0, 1⟩⟩, ⟨0, 0, 1⟩, 1, []⟩] 1 hrun 1
    ⟨.sphere ⟨⟨-5, -5, 0⟩, 1, ⟨0, 0, 1⟩⟩, ⟨0, 0, 1⟩, 1, []⟩ rfl
    (by rw [hp, hd]; norm_num [delta])
    (by
      intro j shape2 hj hget
      have : ([⟨.sphere ⟨⟨-5, -5, 0⟩, 1, ⟨1, 0, 0⟩⟩, ⟨1, 0, 0⟩, 1, []⟩,
          ⟨.sphere ⟨⟨-5, -5, 0⟩, 1, ⟨0, 0, 1⟩⟩, ⟨0, 0, 1⟩, 1, []⟩] : List (Shape ℝ))[j]?
          = none := List.getElem?_eq_none (by simpa using hj)
      rw [this] at hget
      cases hget)).2.1
  rw [hp] at hcol
  refine ⟨hrun, hp, by rw [hd]; norm_num [delta], by rw [hd]; norm_num [delta], hcol, ?_⟩
  rw [hcol]
  exact two_spheres_lighting_ne isSqrt_real

end RayMarcher

namespace RayMarcher

section TriangleArithmetic

variable {F : Type} [LinearOrderedField F]

/-- The Gram form of two independent vectors is non-negative. -/
theorem gram_nonneg (ee gg eg s t : F) (hee : 0 < ee) (hN : 0 < ee * gg - eg * eg) :
    0 ≤ s * s * ee + 2 * (s * t) * eg + t * t * gg := by
  have h : 0 ≤ ee * (s * s * ee + 2 * (s * t) * eg + t * t * gg) := by
    have h1 := mul_self_nonneg (s * ee + t * eg)
    have h2 := mul_nonneg hN.le (mul_self_nonneg t)
    nlinarith
  exact nonneg_of_mul_nonneg_right h hee

/-- Around the foot `(α, β)` of the perpendicular the squared distance grows by the Gram
form. -/
theorem planeDist2_shift (ee gg eg ww x y α β u v : F)
    (hx : ee * α + eg * β = x) (hy : eg * α + gg * β = y) :
    planeDist2 ee gg eg ww x y u v
      = planeDist2 ee gg eg ww x y α β
        + ((u - α) * (u - α) * ee + 2 * ((u - α) * (v - β)) * eg + (v - β) * (v - β) * gg) := by
  unfold planeDist2
  linear_combination (2 * (u - α)) * hx + (2 * (v - β)) * hy

/-- Moving from `(u, v)` towards the foot of the perpendicular does not increase the
distance. -/
theorem planeDist2_contract (ee gg eg ww x y α β u v l : F) (hee : 0 < ee)
    (hN : 0 < ee * gg - eg * eg)
    (hx : ee * α + eg * β = x) (hy : eg * α + gg * β = y) (hl0 : 0 ≤ l) (hl1 : l ≤ 1) :
    planeDist2 ee gg eg ww x y ((1 - l) * α + l * u) ((1 - l) * β + l * v)
      ≤ planeDist2 ee gg eg ww x y u v := by
  rw [planeDist2_shift ee gg eg ww x y α β u v hx hy,
    planeDist2_shift ee gg eg ww x y α β _ _ hx hy]
  have hq := gram_nonneg ee gg eg (u - α) (v - β) hee hN
  have hl : 0 ≤ 1 - l * l := by nlinarith
  have := mul_nonneg hl hq
  nlinarith

/-- The clamped projection minimises a quadratic over the unit interval. -/
theorem clamp_minimises (len c s : F) (hlen : 0 < len) (hs0 : 0 ≤ s) (hs1 : s ≤ 1) :
    clamp (c / len) 0 1 * clamp (c / len) 0 1 * len - 2 * clamp (c / len) 0 1 * c
      ≤ s * s * len - 2 * s * c := by
  have hc : c = c / len * len := by field_simp
  set r := c / len with hr
  unfold clamp
  rcases le_total r 0 with h0 | h0
  · rw [max_eq_right h0, min_eq_left zero_le_one]
    have : 0 ≤ s * s * len := by positivity
    have : r * len ≤ 0 := mul_nonpos_of_nonpos_of_nonneg h0 hlen.le
    nlinarith
  · rw [max_eq_left h0]
    rcases le_total r 1 with h1 | h1
    · rw [min_eq_left h1]
      have := mul_nonneg hlen.le (mul_self_nonneg (s - r))
      nlinarith
    · rw [min_eq_right h1]
      have h3 : 0 ≤ (1 - s) * len := mul_nonneg (by linarith) hlen.le
      have h4 : 0 ≤ (1 - s) * len * (r - 1) := mul_nonneg h3 (by linarith)
      have h5 : 0 ≤ (1 - s) * len * (1 - s) := mul_nonneg h3 (by linarith)
      nlinarith

theorem clamp_mem (a : F) : 0 ≤ clamp a 0 1 ∧ clamp a 0 1 ≤ 1 := by
  unfold clamp
  exact ⟨le_min (le_max_right _ _) zero_le_one, min_le_right _ _⟩

/-- Raising a parameter until one more affine function is non-negative. -/
theorem exit_step (a b l0 : F) (hb : 0 ≤ b) (h0 : 0 ≤ l0) (h1 : l0 ≤ 1) :
    ∃ l, l0 ≤ l ∧ l ≤ 1 ∧ (l = l0 ∨ (1 - l) * a + l * b = 0) ∧
      ∀ m, l ≤ m → m ≤ 1 → 0 ≤ (1 - m) * a + m * b := by
  by_cases ha : 0 ≤ (1 - l0) * a + l0 * b
  · refine ⟨l0, le_rfl, h1, Or.inl rfl, ?_⟩
    intro m hm hm1
    by_cases ha0 : 0 ≤ a
    · have := mul_nonneg (sub_nonneg.2 hm1) ha0
      have := mul_nonneg (h0.trans hm) hb
      linarith
    · push_neg at ha0
      have : 0 ≤ (m - l0) * (b - a) := mul_nonneg (sub_nonneg.2 hm) (by linarith)
      nlinarith
  · push_neg at ha
    have hab : a < 0 := by
      by_contra hcon
      push_neg at hcon
      have := mul_nonneg (sub_nonneg.2 h1) hcon
      have := mul_nonneg h0 hb
      linarith
    have hpos : 0 < b - a := by linarith
    refine ⟨-a / (b - a), ?_, ?_, Or.inr ?_, ?_⟩
    · rw [le_div_iff₀ hpos]; nlinarith
    · rw [div_le_one hpos]; linarith
    · field_simp; ring
    · intro m hm hm1
      rw [div_le_iff₀ hpos] at hm
      nlinarith

/-- On the way from a point with some non-positive barycentric coordinate to a point of
the triangle there is a point of the triangle with a vanishing barycentric coordinate. -/
theorem exit_point (a1 a2 a3 b1 b2 b3 : F) (hb1 : 0 ≤ b1) (hb2 : 0 ≤ b2) (hb3 : 0 ≤ b3)
    (ha : a1 ≤ 0 ∨ a2 ≤ 0 ∨ a3 ≤ 0) :
    ∃ l, 0 ≤ l ∧ l ≤ 1 ∧
      0 ≤ (1 - l) * a1 + l * b1 ∧ 0 ≤ (1 - l) * a2 + l * b2 ∧ 0 ≤ (1 - l) * a3 + l * b3 ∧
      ((1 - l) * a1 + l * b1 = 0 ∨ (1 - l) * a2 + l * b2 = 0 ∨ (1 - l) * a3 + l * b3 = 0) := by
  obtain ⟨l1, h01, h11, hz1, hm1⟩ := exit_step a1 b1 0 hb1 le_rfl zero_le_one
  obtain ⟨l2, h12, h21, hz2, hm2⟩ := exit_step a2 b2 l1 hb2 h01 h11
  obtain ⟨l3, h23, h31, hz3, hm3⟩ := exit_step a3 b3 l2 hb3 (h01.trans h12) h21
  have hc1 := hm1 l3 (h12.trans h23) h31
  have hc2 := hm2 l3 h23 h31
  have hc3 := hm3 l3 le_rfl h31
  refine ⟨l3, h01.trans (h12.trans h23), h31, hc1, hc2, hc3, ?_⟩
  rcases hz3 with hz3 | hz3
  · rcases hz2 with hz2 | hz2
    · rcases hz1 with hz1 | hz1
      · have hl : l3 = 0 := by rw [hz3, hz2, hz1]
        rw [hl] at hc1 hc2 hc3 ⊢
        simp only [sub_zero, one_mul, zero_mul, add_zero] at hc1 hc2 hc3 ⊢
        rcases ha with ha | ha | ha
        · exact Or.inl (le_antisymm ha hc1)
        · exact Or.inr (Or.inl (le_antisymm ha hc2))
        · exact Or.inr (Or.inr (le_antisymm ha hc3))
      · left
        rw [hz3, hz2]; exact hz1
    · right; left
      rw [hz3]; exact hz2
  · exact Or.inr (Or.inr hz3)

/-- The test on the three signs in `signedDistanceTriangle`. -/
theorem sign_sum_lt_two (a b c : F) (h : sign a + sign b + sign c < 2) :
    a ≤ 0 ∨ b ≤ 0 ∨ c ≤ 0 := by
  by_contra hcon
  push_neg at hcon
  obtain ⟨ha, hb, hc⟩ := hcon
  simp only [sign, if_pos ha, if_pos hb, if_pos hc] at h
  norm_num at h

theorem sign_sum_not_lt_two (a b c : F) (h : ¬ sign a + sign b + sign c < 2) :
    0 ≤ a ∧ 0 ≤ b ∧ 0 ≤ c := by
  have hle : ∀ t : F, sign t ≤ 1 := by
    intro t
    unfold sign
    split_ifs <;> norm_num
  have hneg : ∀ t : F, t < 0 → sign t = -1 := by
    intro t ht
    unfold sign
    rw [if_neg (not_lt.2 ht.le), if_pos ht]
  push_neg at h
  refine ⟨?_, ?_, ?_⟩
  · by_contra hcon
    have := hneg a (not_le.1 hcon)
    have := hle b
    have := hle c
    linarith
  · by_contra hcon
    have := hneg b (not_le.1 hcon)
    have := hle a
    have := hle c
    linarith
  · by_contra hcon
    have := hneg c (not_le.1 hcon)
    have := hle a
    have := hle b
    linarith

end TriangleArithmetic

end RayMarcher

namespace RayMarcher

section TriangleVectors

variable {F : Type} [LinearOrderedField F]

theorem dot_self_pos_of_ne_zero (v : Vec3 F) (hv : v ≠ 0) : 0 < Vec3.dot v v := by
  rcases (Vec3.dot_self_nonneg v).eq_or_lt with h | h
  · exfalso
    apply hv
    unfold Vec3.dot at h
    have hx : v.x = 0 := by
      nlinarith [mul_self_nonneg v.x, mul_self_nonneg v.y, mul_self_nonneg v.z]
    have hy : v.y = 0 := by
      nlinarith [mul_self_nonneg v.x, mul_self_nonneg v.y, mul_self_nonneg v.z]
    have hz : v.z = 0 := by
      nlinarith [mul_self_nonneg v.x, mul_self_nonneg v.y, mul_self_nonneg v.z]
    ext
    · exact hx
    · exact hy
    · exact hz
  · exact h

/-- Squared distance from `p` to the point of the plane of the triangle `a b c` with the
coordinates `(u, v)`. -/
theorem dist2_plane (a b c p : Vec3 F) (u v : F) :
    Vec3.dot (p - (a + u • (b - a) + v • (c - a))) (p - (a + u • (b - a) + v • (c - a)))
      = planeDist2 (Vec3.dot (b - a) (b - a)) (Vec3.dot (c - a) (c - a))
          (Vec3.dot (b - a) (c - a)) (Vec3.dot (p - a) (p - a)) (Vec3.dot (p - a) (b - a))
          (Vec3.dot (p - a) (c - a)) u v := by
  simp only [Vec3.dot, planeDist2, Vec3.sub_x, Vec3.sub_y, Vec3.sub_z, Vec3.add_x, Vec3.add_y,
    Vec3.add_z, Vec3.smul_x, Vec3.smul_y, Vec3.smul_z]
  ring

theorem dist2_edge1 (a b c p : Vec3 F) (s : F) :
    Vec3.dot (s • (b - a) - (p - a)) (s • (b - a) - (p - a))
      = planeDist2 (Vec3.dot (b - a) (b - a)) (Vec3.dot (c - a) (c - a))
          (Vec3.dot (b - a) (c - a)) (Vec3.dot (p - a) (p - a)) (Vec3.dot (p - a) (b - a))
          (Vec3.dot (p - a) (c - a)) s 0 := by
  simp only [Vec3.dot, planeDist2, Vec3.sub_x, Vec3.sub_y, Vec3.sub_z, Vec3.add_x, Vec3.add_y,
    Vec3.add_z, Vec3.smul_x, Vec3.smul_y, Vec3.smul_z]
  ring

theorem dist2_edge2 (a b c p : Vec3 F) (s : F) :
    Vec3.dot (s • (c - b) - (p - b)) (s • (c - b) - (p - b))
      = planeDist2 (Vec3.dot (b - a) (b - a)) (Vec3.dot (c - a) (c - a))
          (Vec3.dot (b - a) (c - a)) (Vec3.dot (p - a) (p - a)) (Vec3.dot (p - a) (b - a))
          (Vec3.dot (p - a) (c - a)) (1 - s) s := by
  simp only [Vec3.dot, planeDist2, Vec3.sub_x, Vec3.sub_y, Vec3.sub_z, Vec3.add_x, Vec3.add_y,
    Vec3.add_z, Vec3.smul_x, Vec3.smul_y, Vec3.smul_z]
  ring

theorem dist2_edge3 (a b c p : Vec3 F) (s : F) :
    Vec3.dot (s • (a - c) - (p - c)) (s • (a - c) - (p - c))
      = planeDist2 (Vec3.dot (b - a) (b - a)) (Vec3.dot (c - a) (c - a))
          (Vec3.dot (b - a) (c - a)) (Vec3.dot (p - a) (p - a)) (Vec3.dot (p - a) (b - a))
          (Vec3.dot (p - a) (c - a)) 0 (1 - s) := by
  simp only [Vec3.dot, planeDist2, Vec3.sub_x, Vec3.sub_y, Vec3.sub_z, Vec3.add_x, Vec3.add_y,
    Vec3.add_z, Vec3.smul_x, Vec3.smul_y, Vec3.smul_z]
  ring

/-- The three half-plane tests of `signedDistanceTriangle` are, up to the positive factor
`|nor|²`, the barycentric coordinates of the foot of the perpendicular. -/
theorem side_test1 (a b c p : Vec3 F) :
    Vec3.dot (Vec3.cross (b - a) (Vec3.cross (b - a) (a - c))) (p - a)
      = Vec3.dot (b - a) (b - a) * Vec3.dot (p - a) (c - a)
        - Vec3.dot (b - a) (c - a) * Vec3.dot (p - a) (b - a) := by
  simp only [Vec3.dot, Vec3.cross, Vec3.sub_x, Vec3.sub_y, Vec3.sub_z]
  ring

theorem side_test3 (a b c p : Vec3 F) :
    Vec3.dot (Vec3.cross (a - c) (Vec3.cross (b - a) (a - c))) (p - c)
      = Vec3.dot (c - a) (c - a) * Vec3.dot (p - a) (b - a)
        - Vec3.dot (b - a) (c - a) * Vec3.dot (p - a) (c - a) := by
  simp only [Vec3.dot, Vec3.cross, Vec3.sub_x, Vec3.sub_y, Vec3.sub_z]
  ring

theorem side_test2 (a b c p : Vec3 F) :
    Vec3.dot (Vec3.cross (c - b) (Vec3.cross (b - a) (a - c))) (p - b)
      = (Vec3.dot (b - a) (b - a) * Vec3.dot (c - a) (c - a)
          - Vec3.dot (b - a) (c - a) * Vec3.dot (b - a) (c - a))
        - (Vec3.dot (c - a) (c - a) * Vec3.dot (p - a) (b - a)
          - Vec3.dot (b - a) (c - a) * Vec3.dot (p - a) (c - a))
        - (Vec3.dot (b - a) (b - a) * Vec3.dot (p - a) (c - a)
          - Vec3.dot (b - a) (c - a) * Vec3.dot (p - a) (b - a)) := by
  simp only [Vec3.dot, Vec3.cross, Vec3.sub_x, Vec3.sub_y, Vec3.sub_z]
  ring

theorem nor_dot_self (a b c : Vec3 F) :
    Vec3.dot (Vec3.cross (b - a) (a - c)) (Vec3.cross (b - a) (a - c))
      = Vec3.dot (b - a) (b - a) * Vec3.dot (c - a) (c - a)
        - Vec3.dot (b - a) (c - a) * Vec3.dot (b - a) (c - a) := by
  simp only [Vec3.dot, Vec3.cross, Vec3.sub_x, Vec3.sub_y, Vec3.sub_z]
  ring

theorem nor_eq_neg_cross (a b c : Vec3 F) :
    Vec3.cross (b - a) (a - c) = -(Vec3.cross (b - a) (c - a)) := by
  ext <;> simp [Vec3.cross] <;> ring

/-- The height of `p` over the plane of the triangle, squared and scaled by `|nor|²`. -/
theorem nor_dot_sq (a b c p : Vec3 F) :
    Vec3.dot (Vec3.cross (b - a) (a - c)) (p - a) * Vec3.dot (Vec3.cross (b - a) (a - c)) (p - a)
      = Vec3.dot (p - a) (p - a)
          * (Vec3.dot (b - a) (b - a) * Vec3.dot (c - a) (c - a)
            - Vec3.dot (b - a) (c - a) * Vec3.dot (b - a) (c - a))
        - (Vec3.dot (c - a) (c - a) * (Vec3.dot (p - a) (b - a) * Vec3.dot (p - a) (b - a))
          - 2 * Vec3.dot (b - a) (c - a) * (Vec3.dot (p - a) (b - a) * Vec3.dot (p - a) (c - a))
          + Vec3.dot (b - a) (b - a) * (Vec3.dot (p - a) (c - a) * Vec3.dot (p - a) (c - a))) := by
  simp only [Vec3.dot, Vec3.cross, Vec3.sub_x, Vec3.sub_y, Vec3.sub_z]
  ring

theorem edge2_dot_self (a b c : Vec3 F) :
    Vec3.dot (c - b) (c - b)
      = Vec3.dot (b - a) (b - a) + Vec3.dot (c - a) (c - a) - 2 * Vec3.dot (b - a) (c - a) := by
  simp only [Vec3.dot, Vec3.sub_x, Vec3.sub_y, Vec3.sub_z]
  ring

theorem edge3_dot_self (a c : Vec3 F) : Vec3.dot (a - c) (a - c) = Vec3.dot (c - a) (c - a) := by
  simp only [Vec3.dot, Vec3.sub_x, Vec3.sub_y, Vec3.sub_z]
  ring

/-- The clamped projection is the nearest point of the segment from the origin to `v`. -/
theorem edgeDist2_le (v pp : Vec3 F) (hv : 0 < Vec3.dot v v) (s : F) (hs0 : 0 ≤ s)
    (hs1 : s ≤ 1) : edgeDist2 v pp ≤ Vec3.dot (s • v - pp) (s • v - pp) := by
  have hexp : ∀ t : F, Vec3.dot (t • v - pp) (t • v - pp)
      = t * t * Vec3.dot v v - 2 * t * Vec3.dot v pp + Vec3.dot pp pp := by
    intro t
    simp only [Vec3.dot, Vec3.sub_x, Vec3.sub_y, Vec3.sub_z, Vec3.smul_x, Vec3.smul_y,
      Vec3.smul_z]
    ring
  unfold edgeDist2
  rw [hexp, hexp]
  have := clamp_minimises (Vec3.dot v v) (Vec3.dot v pp) s hv hs0 hs1
  linarith

end TriangleVectors

end RayMarcher

namespace RayMarcher

section TrianglePlane

variable {F : Type} [LinearOrderedField F]

/-- The normal equations of the foot of the perpendicular. -/
theorem foot_normal_eq (ee gg eg x y n : F) (hn : ee * gg - eg * eg = n) (hne : n ≠ 0) :
    ee * ((gg * x - eg * y) / n) + eg * ((ee * y - eg * x) / n) = x ∧
    eg * ((gg * x - eg * y) / n) + gg * ((ee * y - eg * x) / n) = y := by
  constructor
  · rw [eq_comm, ← sub_eq_zero]
    have : x - (ee * ((gg * x - eg * y) / n) + eg * ((ee * y - eg * x) / n))
        = (x * n - (ee * (gg * x - eg * y) + eg * (ee * y - eg * x))) / n := by
      field_simp
    rw [this, ← hn]
    have : x * (ee * gg - eg * eg) - (ee * (gg * x - eg * y) + eg * (ee * y - eg * x)) = 0 := by
      ring
    rw [this, zero_div]
  · rw [eq_comm, ← sub_eq_zero]
    have : y - (eg * ((gg * x - eg * y) / n) + gg * ((ee * y - eg * x) / n))
        = (y * n - (eg * (gg * x - eg * y) + gg * (ee * y - eg * x))) / n := by
      field_simp
    rw [this, ← hn]
    have : y * (ee * gg - eg * eg) - (eg * (gg * x - eg * y) + gg * (ee * y - eg * x)) = 0 := by
      ring
    rw [this, zero_div]

/-- The squared distance to the foot of the perpendicular. -/
theorem foot_dist2 (ee gg eg ww x y n h : F) (hn : ee * gg - eg * eg = n) (hne : n ≠ 0)
    (hh : h * h = ww * n - (gg * (x * x) - 2 * eg * (x * y) + ee * (y * y))) :
    planeDist2 ee gg eg ww x y ((gg * x - eg * y) / n) ((ee * y - eg * x) / n) = h * h / n := by
  obtain ⟨hx, hy⟩ := foot_normal_eq ee gg eg x y n hn hne
  have h1 : planeDist2 ee gg eg ww x y ((gg * x - eg * y) / n) ((ee * y - eg * x) / n)
      = ww - ((gg * x - eg * y) / n * x + (ee * y - eg * x) / n * y) := by
    unfold planeDist2
    linear_combination ((gg * x - eg * y) / n) * hx + ((ee * y - eg * x) / n) * hy
  have h2 : (gg * x - eg * y) / n * x + (ee * y - eg * x) / n * y
      = (gg * (x * x) - 2 * eg * (x * y) + ee * (y * y)) / n := by
    ring
  rw [h1, h2, hh, eq_div_iff hne, sub_mul, div_mul_cancel₀ _ hne]

/-- If the foot of the perpendicular has a non-positive barycentric coordinate, every point
of the triangle is at least as far away as the nearest of the three edges. -/
theorem edges_le_plane (ee gg eg ww x y n e1 e2 e3 : F) (hee : 0 < ee)
    (hn : ee * gg - eg * eg = n) (hnpos : 0 < n)
    (h1 : ∀ s, 0 ≤ s → s ≤ 1 → e1 ≤ planeDist2 ee gg eg ww x y s 0)
    (h2 : ∀ s, 0 ≤ s → s ≤ 1 → e2 ≤ planeDist2 ee gg eg ww x y (1 - s) s)
    (h3 : ∀ s, 0 ≤ s → s ≤ 1 → e3 ≤ planeDist2 ee gg eg ww x y 0 (1 - s))
    (hcoord : ee * y - eg * x ≤ 0 ∨ n - (gg * x - eg * y) - (ee * y - eg * x) ≤ 0 ∨
      gg * x - eg * y ≤ 0)
    (u v : F) (hu : 0 ≤ u) (hv : 0 ≤ v) (huv : u + v ≤ 1) :
    min (min e1 e2) e3 ≤ planeDist2 ee gg eg ww x y u v := by
  obtain ⟨hx, hy⟩ := foot_normal_eq ee gg eg x y n hn hnpos.ne.symm
  have hbary : (gg * x - eg * y) / n ≤ 0 ∨ (ee * y - eg * x) / n ≤ 0 ∨
      1 - (gg * x - eg * y) / n - (ee * y - eg * x) / n ≤ 0 := by
    rcases hcoord with hc | hc | hc
    · exact Or.inr (Or.inl (div_nonpos_of_nonpos_of_nonneg hc hnpos.le))
    · right; right
      have : 1 - (gg * x - eg * y) / n - (ee * y - eg * x) / n
          = (n - (gg * x - eg * y) - (ee * y - eg * x)) / n := by
        field_simp
      rw [this]
      exact div_nonpos_of_nonpos_of_nonneg hc hnpos.le
    · exact Or.inl (div_nonpos_of_nonpos_of_nonneg hc hnpos.le)
  obtain ⟨l, hl0, hl1, hc1, hc2, hc3, hzero⟩ := exit_point ((gg * x - eg * y) / n)
    ((ee * y - eg * x) / n) (1 - (gg * x - eg * y) / n - (ee * y - eg * x) / n)
    u v (1 - u - v) hu hv (by linarith) hbary
  have hcon := planeDist2_contract ee gg eg ww x y ((gg * x - eg * y) / n)
    ((ee * y - eg * x) / n) u v l hee (by rw [hn]; exact hnpos) hx hy hl0 hl1
  refine le_trans ?_ hcon
  generalize hur : (1 - l) * ((gg * x - eg * y) / n) + l * u = ur at *
  generalize hvr : (1 - l) * ((ee * y - eg * x) / n) + l * v = vr at *
  have hthird : (1 - l) * (1 - (gg * x - eg * y) / n - (ee * y - eg * x) / n)
      + l * (1 - u - v) = 1 - ur - vr := by
    rw [← hur, ← hvr]; ring
  rw [hthird] at hc3 hzero
  rcases hzero with hz | hz | hz
  · refine le_trans (min_le_right _ _) ?_
    have := h3 (1 - vr) (by linarith) (by linarith)
    rw [hz]
    simpa using this
  · refine le_trans (le_trans (min_le_left _ _) (min_le_left _ _)) ?_
    have := h1 ur hc1 (by linarith)
    rw [hz]
    exact this
  · refine le_trans (le_trans (min_le_left _ _) (min_le_right _ _)) ?_
    have := h2 vr hc2 (by linarith)
    have hu1 : 1 - vr = ur := by linarith
    rw [hu1] at this
    exact this

/-- The Gram determinant of two independent vectors forces both to be non-zero and their
difference to be non-zero. -/
theorem gram_pos (ee gg eg : F) (hee : 0 ≤ ee) (hgg : 0 ≤ gg) (hn : 0 < ee * gg - eg * eg) :
    0 < ee ∧ 0 < gg ∧ 0 < ee + gg - 2 * eg := by
  have hE : 0 < ee := by
    rcases hee.eq_or_lt with h0 | h0
    · rw [← h0] at hn; nlinarith [mul_self_nonneg eg]
    · exact h0
  have hG : 0 < gg := by
    rcases hgg.eq_or_lt with h0 | h0
    · rw [← h0] at hn; nlinarith [mul_self_nonneg eg]
    · exact h0
  refine ⟨hE, hG, ?_⟩
  by_contra hcon
  push_neg at hcon
  nlinarith [mul_self_nonneg (ee - gg), mul_nonneg (sub_nonneg.2 hcon)
    (by linarith : (0 : F) ≤ 2 * eg + (ee + gg))]

end TrianglePlane

end RayMarcher

namespace RayMarcher

section TriangleExact

variable {F : Type} [LinearOrderedField F]

theorem signedDistanceTriangle_eq_sqrt (sqrt : F → F) (p : Vec3 F) (triangle : Triangle F) :
    signedDistanceTriangle sqrt p triangle = sqrt (triangleDist2 p triangle) := rfl

theorem triangleDist2_mk (a b c col p : Vec3 F) :
    triangleDist2 p ⟨a, b, c, col⟩
      = if sign (Vec3.dot (Vec3.cross (b - a) (Vec3.cross (b - a) (a - c))) (p - a)) +
            sign (Vec3.dot (Vec3.cross (c - b) (Vec3.cross (b - a) (a - c))) (p - b)) +
            sign (Vec3.dot (Vec3.cross (a - c) (Vec3.cross (b - a) (a - c))) (p - c)) < 2
        then min (min (edgeDist2 (b - a) (p - a)) (edgeDist2 (c - b) (p - b)))
          (edgeDist2 (a - c) (p - c))
        else Vec3.dot (Vec3.cross (b - a) (a - c)) (p - a)
          * Vec3.dot (Vec3.cross (b - a) (a - c)) (p - a)
          / Vec3.dot (Vec3.cross (b - a) (a - c)) (Vec3.cross (b - a) (a - c)) := rfl

theorem inTriangle_mk (a b c col q : Vec3 F) :
    InTriangle ⟨a, b, c, col⟩ q ↔ ∃ u v : F, 0 ≤ u ∧ 0 ≤ v ∧ u + v ≤ 1 ∧
      q = a + u • (b - a) + v • (c - a) := Iff.rfl

/-- The value under the square root is the least squared distance from `p` to a point of
the filled triangle `a b c`. -/
theorem triangle_value_exact (a b c p : Vec3 F) (hnc : Vec3.cross (b - a) (c - a) ≠ 0) :
    0 ≤ (if sign (Vec3.dot (Vec3.cross (b - a) (Vec3.cross (b - a) (a - c))) (p - a)) +
            sign (Vec3.dot (Vec3.cross (c - b) (Vec3.cross (b - a) (a - c))) (p - b)) +
            sign (Vec3.dot (Vec3.cross (a - c) (Vec3.cross (b - a) (a - c))) (p - c)) < 2
        then min (min (edgeDist2 (b - a) (p - a)) (edgeDist2 (c - b) (p - b)))
          (edgeDist2 (a - c) (p - c))
        else Vec3.dot (Vec3.cross (b - a) (a - c)) (p - a)
          * Vec3.dot (Vec3.cross (b - a) (a - c)) (p - a)
          / Vec3.dot (Vec3.cross (b - a) (a - c)) (Vec3.cross (b - a) (a - c))) ∧
    (∃ q : Vec3 F, (∃ u v : F, 0 ≤ u ∧ 0 ≤ v ∧ u + v ≤ 1 ∧
        q = a + u • (b - a) + v • (c - a)) ∧
      Vec3.dot (p - q) (p - q)
        = (if sign (Vec3.dot (Vec3.cross (b - a) (Vec3.cross (b - a) (a - c))) (p - a)) +
            sign (Vec3.dot (Vec3.cross (c - b) (Vec3.cross (b - a) (a - c))) (p - b)) +
            sign (Vec3.dot (Vec3.cross (a - c) (Vec3.cross (b - a) (a - c))) (p - c)) < 2
        then min (min (edgeDist2 (b - a) (p - a)) (edgeDist2 (c - b) (p - b)))
          (edgeDist2 (a - c) (p - c))
        else Vec3.dot (Vec3.cross (b - a) (a - c)) (p - a)
          * Vec3.dot (Vec3.cross (b - a) (a - c)) (p - a)
          / Vec3.dot (Vec3.cross (b - a) (a - c)) (Vec3.cross (b - a) (a - c)))) ∧
    (∀ q : Vec3 F, (∃ u v : F, 0 ≤ u ∧ 0 ≤ v ∧ u + v ≤ 1 ∧
        q = a + u • (b - a) + v • (c - a)) →
      (if sign (Vec3.dot (Vec3.cross (b - a) (Vec3.cross (b - a) (a - c))) (p - a)) +
            sign (Vec3.dot (Vec3.cross (c - b) (Vec3.cross (b - a) (a - c))) (p - b)) +
            sign (Vec3.dot (Vec3.cross (a - c) (Vec3.cross (b - a) (a - c))) (p - c)) < 2
        then min (min (edgeDist2 (b - a) (p - a)) (edgeDist2 (c - b) (p - b)))
          (edgeDist2 (a - c) (p - c))
        else Vec3.dot (Vec3.cross (b - a) (a - c)) (p - a)
          * Vec3.dot (Vec3.cross (b - a) (a - c)) (p - a)
          / Vec3.dot (Vec3.cross (b - a) (a - c)) (Vec3.cross (b - a) (a - c)))
        ≤ Vec3.dot (p - q) (p - q)) := by
  have hNpos : 0 < Vec3.dot (Vec3.cross (b - a) (a - c)) (Vec3.cross (b - a) (a - c)) := by
    apply dot_self_pos_of_ne_zero
    rw [nor_eq_neg_cross]
    intro h
    apply hnc
    ext
    · have := congrArg Vec3.x h; simpa using this
    · have := congrArg Vec3.y h; simpa using this
    · have := congrArg Vec3.z h; simpa using this
  have hh := nor_dot_sq a b c p
  have hE0 := Vec3.dot_self_nonneg (b - a)
  have hG0 := Vec3.dot_self_nonneg (c - a)
  have he2 := edge2_dot_self a b c
  have he3 := edge3_dot_self a c
  have hd := dist2_plane a b c p
  have hd1 := dist2_edge1 a b c p
  have hd2 := dist2_edge2 a b c p
  have hd3 := dist2_edge3 a b c p
  have hle1 := edgeDist2_le (b - a) (p - a)
  have hle2 := edgeDist2_le (c - b) (p - b)
  have hle3 := edgeDist2_le (a - c) (p - c)
  rw [side_test1, side_test2, side_test3]
  rw [nor_dot_self] at hNpos ⊢
  generalize hEdef : Vec3.dot (b - a) (b - a) = E at *
  generalize hGdef : Vec3.dot (c - a) (c - a) = G at *
  generalize hMdef : Vec3.dot (b - a) (c - a) = M at *
  generalize hWdef : Vec3.dot (p - a) (p - a) = W at *
  generalize hxdef : Vec3.dot (p - a) (b - a) = x at *
  generalize hydef : Vec3.dot (p - a) (c - a) = y at *
  generalize hhdef : Vec3.dot (Vec3.cross (b - a) (a - c)) (p - a) = h at *
  obtain ⟨hE, hG, hEG⟩ := gram_pos E G M hE0 hG0 hNpos
  generalize hNdef : E * G - M * M = N at *
  have hNne : N ≠ 0 := hNpos.ne.symm
  obtain ⟨hx, hy⟩ := foot_normal_eq E G M x y N hNdef hNne
  have hfoot := foot_dist2 E G M W x y N h hNdef hNne hh
  have hedge1 : ∀ s, 0 ≤ s → s ≤ 1 → edgeDist2 (b - a) (p - a) ≤ planeDist2 E G M W x y s 0 :=
    fun s h0 h1 => (hd1 s) ▸ hle1 hE s h0 h1
  have hedge2 : ∀ s, 0 ≤ s → s ≤ 1 →
      edgeDist2 (c - b) (p - b) ≤ planeDist2 E G M W x y (1 - s) s :=
    fun s h0 h1 => (hd2 s) ▸ hle2 (by rw [he2]; exact hEG) s h0 h1
  have hedge3 : ∀ s, 0 ≤ s → s ≤ 1 →
      edgeDist2 (a - c) (p - c) ≤ planeDist2 E G M W x y 0 (1 - s) :=
    fun s h0 h1 => (hd3 s) ▸ hle3 (by rw [he3]; exact hG) s h0 h1
  split_ifs with hsum
  · -- the foot of the perpendicular is not inside the triangle
    refine ⟨le_min (le_min (Vec3.dot_self_nonneg _) (Vec3.dot_self_nonneg _))
      (Vec3.dot_self_nonneg _), ?_, ?_⟩
    · have hq1 : ∃ q : Vec3 F, (∃ u v : F, 0 ≤ u ∧ 0 ≤ v ∧ u + v ≤ 1 ∧
            q = a + u • (b - a) + v • (c - a)) ∧
          Vec3.dot (p - q) (p - q) = edgeDist2 (b - a) (p - a) := by
        obtain ⟨h0, h1⟩ := clamp_mem (Vec3.dot (b - a) (p - a) / Vec3.dot (b - a) (b - a))
        refine ⟨a + clamp (Vec3.dot (b - a) (p - a) / Vec3.dot (b - a) (b - a)) 0 1 • (b - a)
          + (0 : F) • (c - a), ⟨_, 0, h0, le_rfl, by linarith, rfl⟩, ?_⟩
        rw [hd]
        unfold edgeDist2
        rw [hd1]
      have hq2 : ∃ q : Vec3 F, (∃ u v : F, 0 ≤ u ∧ 0 ≤ v ∧ u + v ≤ 1 ∧
            q = a + u • (b - a) + v • (c - a)) ∧
          Vec3.dot (p - q) (p - q) = edgeDist2 (c - b) (p - b) := by
        obtain ⟨h0, h1⟩ := clamp_mem (Vec3.dot (c - b) (p - b) / Vec3.dot (c - b) (c - b))
        refine ⟨a + (1 - clamp (Vec3.dot (c - b) (p - b) / Vec3.dot (c - b) (c - b)) 0 1)
            • (b - a)
          + clamp (Vec3.dot (c - b) (p - b) / Vec3.dot (c - b) (c - b)) 0 1 • (c - a),
          ⟨_, _, by linarith, h0, by linarith, rfl⟩, ?_⟩
        rw [hd]
        unfold edgeDist2
        rw [hd2]
      have hq3 : ∃ q : Vec3 F, (∃ u v : F, 0 ≤ u ∧ 0 ≤ v ∧ u + v ≤ 1 ∧
            q = a + u • (b - a) + v • (c - a)) ∧
          Vec3.dot (p - q) (p - q) = edgeDist2 (a - c) (p - c) := by
        obtain ⟨h0, h1⟩ := clamp_mem (Vec3.dot (a - c) (p - c) / Vec3.dot (a - c) (a - c))
        refine ⟨a + (0 : F) • (b - a)
          + (1 - clamp (Vec3.dot (a - c) (p - c) / Vec3.dot (a - c) (a - c)) 0 1) • (c - a),
          ⟨0, _, le_rfl, by linarith, by linarith, rfl⟩, ?_⟩
        rw [hd]
        unfold edgeDist2
        rw [hd3]
      rcases min_choice (min (edgeDist2 (b - a) (p - a)) (edgeDist2 (c - b) (p - b)))
        (edgeDist2 (a - c) (p - c)) with hm | hm
      · rw [hm]
        rcases min_choice (edgeDist2 (b - a) (p - a)) (edgeDist2 (c - b) (p - b)) with hm2 | hm2
        · rw [hm2]; exact hq1
        · rw [hm2]; exact hq2
      · rw [hm]; exact hq3
    · rintro q ⟨u, v, hu, hv, huv, hq⟩
      rw [hq, hd]
      exact edges_le_plane E G M W x y N _ _ _ hE hNdef hNpos hedge1 hedge2 hedge3
        (sign_sum_lt_two (E * y - M * x) (N - (G * x - M * y) - (E * y - M * x))
          (G * x - M * y) hsum) u v hu hv huv
  · -- the foot of the perpendicular is a point of the triangle
    obtain ⟨hB, hC, hA⟩ := sign_sum_not_lt_two (E * y - M * x)
      (N - (G * x - M * y) - (E * y - M * x)) (G * x - M * y) hsum
    refine ⟨div_nonneg (mul_self_nonneg h) hNpos.le, ?_, ?_⟩
    · refine ⟨a + ((G * x - M * y) / N) • (b - a) + ((E * y - M * x) / N) • (c - a),
        ⟨(G * x - M * y) / N, (E * y - M * x) / N, div_nonneg hA hNpos.le,
        div_nonneg hB hNpos.le, ?_, rfl⟩, ?_⟩
      · rw [← add_div, div_le_one hNpos]
        linarith
      · rw [hd, hfoot]
    · rintro q ⟨u, v, _, _, _, hq⟩
      rw [hq, hd, planeDist2_shift E G M W x y _ _ u v hx hy, hfoot]
      have := gram_nonneg E G M (u - (G * x - M * y) / N) (v - (E * y - M * x) / N) hE
        (by rw [hNdef]; exact hNpos)
      linarith

theorem triangleDist2_exact (a b c col p : Vec3 F)
    (hnc : Vec3.cross (b - a) (c - a) ≠ 0) :
    0 ≤ triangleDist2 p ⟨a, b, c, col⟩ ∧
    (∃ q, InTriangle ⟨a, b, c, col⟩ q ∧
      Vec3.dot (p - q) (p - q) = triangleDist2 p ⟨a, b, c, col⟩) ∧
    (∀ q, InTriangle ⟨a, b, c, col⟩ q →
      triangleDist2 p ⟨a, b, c, col⟩ ≤ Vec3.dot (p - q) (p - q)) := by
  rw [triangleDist2_mk]
  exact triangle_value_exact a b c p hnc

end TriangleExact

end RayMarcher

namespace RayMarcher

section TriangleClaim

variable {F : Type} [LinearOrderedField F]

theorem sqrt_le_sqrt {sqrt : F → F} (hs : IsSqrt sqrt) {x y : F} (hx : 0 ≤ x) (hxy : x ≤ y) :
    sqrt x ≤ sqrt y := by
  rw [hs.le_iff hx (hs.nonneg (hx.trans hxy)), hs.mul_self (hx.trans hxy)]
  exact hxy

theorem eq_of_dot_sub_eq_zero (p q : Vec3 F) (h : Vec3.dot (p - q) (p - q) = 0) : p = q := by
  by_contra hne
  have hpos := dot_self_pos_of_ne_zero (p - q) (by
    intro h0
    apply hne
    ext
    · have := congrArg Vec3.x h0; simp at this; linarith
    · have := congrArg Vec3.y h0; simp at this; linarith
    · have := congrArg Vec3.z h0; simp at this; linarith)
  linarith

/-- C6: for every triangle with non-collinear vertices and every point `p`,
`signedDistanceTriangle(p, triangle)` is the Euclidean distance from `p` to the nearest
point of the filled triangle: some point of the triangle is at exactly this distance from
`p` and no point of the triangle is nearer.  In particular it is never negative and it is 0
exactly when `p` lies on the triangle. -/
theorem signedDistanceTriangle_exact (sqrt : F → F) (hs : IsSqrt sqrt) (triangle : Triangle F)
    (hnc : Vec3.cross (triangle.vertex2 - triangle.vertex1)
      (triangle.vertex3 - triangle.vertex1) ≠ 0) (p : Vec3 F) :
    (∃ q, InTriangle triangle q ∧
      Vec3.length sqrt (p - q) = signedDistanceTriangle sqrt p triangle) ∧
    (∀ q, InTriangle triangle q →
      signedDistanceTriangle sqrt p triangle ≤ Vec3.length sqrt (p - q)) ∧
    0 ≤ signedDistanceTriangle sqrt p triangle ∧
    (signedDistanceTriangle sqrt p triangle = 0 ↔ InTriangle triangle p) := by
  obtain ⟨a, b, c, col⟩ := triangle
  obtain ⟨hV, ⟨q0, hq0, hd0⟩, hmin⟩ := triangleDist2_exact a b c col p hnc
  rw [signedDistanceTriangle_eq_sqrt]
  refine ⟨⟨q0, hq0, ?_⟩, ?_, hs.nonneg hV, ?_, ?_⟩
  · unfold Vec3.length
    rw [hd0]
  · intro q hq
    exact sqrt_le_sqrt hs hV (hmin q hq)
  · intro h0
    have hV0 : triangleDist2 p ⟨a, b, c, col⟩ = 0 := by
      have := hs.mul_self hV
      rw [h0] at this
      simpa using this.symm
    rw [hV0] at hd0
    rw [eq_of_dot_sub_eq_zero p q0 hd0]
    exact hq0
  · intro hp
    have hle := hmin p hp
    have hzero : Vec3.dot (p - p) (p - p) = 0 := by simp [Vec3.dot]
    rw [hzero] at hle
    rw [le_antisymm hle hV]
    exact hs.sqrt_zero

end TriangleClaim

/-- Witness for C6: the triangle `(0,0,0)`, `(1,0,0)`, `(0,1,0)` and the point `(0,0,1)`
over the real numbers. -/
theorem signedDistanceTriangle_exact_witness :
    0 ≤ signedDistanceTriangle Real.sqrt (⟨0, 0, 1⟩ : Vec3 ℝ)
      ⟨⟨0, 0, 0⟩, ⟨1, 0, 0⟩, ⟨0, 1, 0⟩, ⟨1, 0, 0⟩⟩ :=
  (signedDistanceTriangle_exact Real.sqrt isSqrt_real
    (⟨⟨0, 0, 0⟩, ⟨1, 0, 0⟩, ⟨0, 1, 0⟩, ⟨1, 0, 0⟩⟩ : Triangle ℝ)
    (by
      intro h
      have := congrArg Vec3.z h
      simp [Vec3.cross] at this)
    ⟨0, 0, 1⟩).2.2.1

end RayMarcher

namespace RayTracer

section PlaneTriangle

variable {F : Type} [LinearOrderedField F]

theorem EPSILON_pos : (0 : F) < EPSILON := by
  unfold EPSILON
  norm_num

/-- The triple product `dot(edge1, cross(direction, edge2))` vanishes when the two edges
are linearly dependent. -/
theorem triple_eq_zero_of_dependent (e1 e2 d : Vec3 F) (a b : F) (hab : a ≠ 0 ∨ b ≠ 0)
    (hdep : a • e1 + b • e2 = 0) : Vec3.dot e1 (Vec3.cross d e2) = 0 := by
  have hx : a * e1.x + b * e2.x = 0 := congrArg Vec3.x hdep
  have hy : a * e1.y + b * e2.y = 0 := congrArg Vec3.y hdep
  have hz : a * e1.z + b * e2.z = 0 := congrArg Vec3.z hdep
  unfold Vec3.dot Vec3.cross
  simp only []
  rcases hab with ha | hb
  · have h : a * (e1.x * (d.y * e2.z - e2.y * d.z) + e1.y * (d.z * e2.x - e2.z * d.x)
        + e1.z * (d.x * e2.y - e2.x * d.y)) = 0 := by
      linear_combination (d.y * e2.z - e2.y * d.z) * hx + (d.z * e2.x - e2.z * d.x) * hy
        + (d.x * e2.y - e2.x * d.y) * hz
    exact (mul_eq_zero.1 h).resolve_left ha
  · have h : b * (e1.x * (d.y * e2.z - e2.y * d.z) + e1.y * (d.z * e2.x - e2.z * d.x)
        + e1.z * (d.x * e2.y - e2.x * d.y)) = 0 := by
      linear_combination (e1.y * d.z - e1.z * d.y) * hx + (e1.z * d.x - e1.x * d.z) * hy
        + (e1.x * d.y - e1.y * d.x) * hz
    exact (mul_eq_zero.1 h).resolve_left hb

/-- In exact arithmetic, for every triangle whose edge vectors `vertex2 - vertex1` and
`vertex3 - vertex1` are linearly dependent (a zero-length edge, two coincident vertices, or
three collinear vertices) and for every ray, `intersectTriangle` returns false.  In `float`
arithmetic the determinant need not cancel, see `intersectTriangle32`. -/
theorem intersectTriangle_degenerate (sqrt : F → F) (rayOrigin rayDirection : Vec3 F)
    (triangle : Triangle F) (a b : F) (hab : a ≠ 0 ∨ b ≠ 0)
    (hdep : a • (triangle.vertex2 - triangle.vertex1)
      + b • (triangle.vertex3 - triangle.vertex1) = 0) :
    intersectTriangle sqrt rayOrigin rayDirection triangle = none := by
  have h := triple_eq_zero_of_dependent (triangle.vertex2 - triangle.vertex1)
    (triangle.vertex3 - triangle.vertex1) rayDirection a b hab hdep
  have hpos : (0 : F) < EPSILON := EPSILON_pos
  unfold intersectTriangle
  simp only [h]
  rw [if_pos ⟨by linarith, hpos⟩]

end PlaneTriangle

/-- Three collinear vertices on the x axis, and a ray straight at them, in exact
arithmetic. -/
theorem intersectTriangle_degenerate_witness :
    intersectTriangle Real.sqrt (⟨1, 0, 5⟩ : Vec3 ℝ) ⟨0, 0, -1⟩
      ⟨⟨0, 0, 0⟩, ⟨1, 0, 0⟩, ⟨2, 0, 0⟩, ⟨1, 1, 1⟩⟩ = none :=
  intersectTriangle_degenerate Real.sqrt _ _ _ 2 (-1) (Or.inl (by norm_num))
    (by ext <;> simp)

end RayTracer

namespace RayMarcher

section Distances

variable {F : Type} [LinearOrderedField F]

/-- The square root is strictly monotone on the non-negative numbers. -/
theorem sqrt_lt_sqrt {sqrt : F → F} (hs : IsSqrt sqrt) {x y : F} (hx : 0 ≤ x) (hxy : x < y) :
    sqrt x < sqrt y := by
  have hy : 0 ≤ y := hx.trans hxy.le
  have h1 := hs.nonneg hx
  have h2 := hs.mul_self hx
  have h3 := hs.nonneg hy
  have h4 := hs.mul_self hy
  by_contra hcon
  push_neg at hcon
  nlinarith

/-- The box distance outside the slab of one coordinate: the length of the positive parts. -/
theorem signedDistanceBox_outside (sqrt : F → F) (p : Vec3 F) (box : Box F)
    (h : 0 < |p.x - box.center.x| - 1 / 2 * box.size ∨
      0 < |p.y - box.center.y| - 1 / 2 * box.size ∨
      0 < |p.z - box.center.z| - 1 / 2 * box.size) :
    signedDistanceBox sqrt p box
      = sqrt (max (|p.x - box.center.x| - 1 / 2 * box.size) 0
            * max (|p.x - box.center.x| - 1 / 2 * box.size) 0
          + max (|p.y - box.center.y| - 1 / 2 * box.size) 0
            * max (|p.y - box.center.y| - 1 / 2 * box.size) 0
          + max (|p.z - box.center.z| - 1 / 2 * box.size) 0
            * max (|p.z - box.center.z| - 1 / 2 * box.size) 0) := by
  unfold signedDistanceBox Vec3.length Vec3.dot
  simp only []
  have hmax : 0 ≤ max (|p.x - box.center.x| - 1 / 2 * box.size)
      (max (|p.y - box.center.y| - 1 / 2 * box.size)
        (|p.z - box.center.z| - 1 / 2 * box.size)) := by
    rcases h with h | h | h
    · exact le_max_of_le_left h.le
    · exact le_max_of_le_right (le_max_of_le_left h.le)
    · exact le_max_of_le_right (le_max_of_le_right h.le)
  rw [min_eq_right hmax, add_zero]

/-- The cylinder distance outside the slab or outside the tube: the length of the positive
parts of the two excesses. -/
theorem signedDistanceCylinder_outside (sqrt : F → F) (p : Vec3 F) (cyl : Cylinder F)
    (h : 0 < (cylinderExcess sqrt p cyl).x ∨ 0 < (cylinderExcess sqrt p cyl).y) :
    signedDistanceCylinder sqrt p cyl
      = sqrt (max (cylinderExcess sqrt p cyl).x 0 * max (cylinderExcess sqrt p cyl).x 0
          + max (cylinderExcess sqrt p cyl).y 0 * max (cylinderExcess sqrt p cyl).y 0) := by
  unfold signedDistanceCylinder Vec2.length
  simp only []
  have hmax : 0 ≤ max (cylinderExcess sqrt p cyl).x (cylinderExcess sqrt p cyl).y := by
    rcases h with h | h
    · exact le_max_of_le_left h.le
    · exact le_max_of_le_right h.le
  rw [min_eq_right hmax, add_zero]

/-- The square of the positive part grows with a positive argument. -/
theorem sq_max_lt {a b : F} (ha : 0 < a) (hab : a < b) :
    max a 0 * max a 0 < max b 0 * max b 0 := by
  rw [max_eq_left ha.le, max_eq_left (ha.trans hab).le]
  nlinarith

/-- C16: for every sphere (center `c`, radius `r`) and every point `p`,
`signedDistanceSphere(p, sphere) = |p - c| - r`; hence it is 0 for every `p` on the surface
(`|p - c| = r`) and strictly positive for every `p` strictly outside (`|p - c| > r`). -/
theorem signedDistanceSphere_spec (sqrt : F → F) (p : Vec3 F) (sphere : Sphere F) :
    signedDistanceSphere sqrt p sphere = Vec3.length sqrt (p - sphere.center) - sphere.radius ∧
    (Vec3.length sqrt (p - sphere.center) = sphere.radius →
      signedDistanceSphere sqrt p sphere = 0) ∧
    (Vec3.length sqrt (p - sphere.center) > sphere.radius →
      signedDistanceSphere sqrt p sphere > 0) := by
  refine ⟨rfl, ?_, ?_⟩
  · intro h
    unfold signedDistanceSphere
    rw [h, sub_self]
  · intro h
    unfold signedDistanceSphere
    exact sub_pos.2 h

/-- C17: for every box with `size > 0`, `signedDistanceBox(box.center, box)` equals
`-size/2` and is negative; for every cylinder with `rad > 0` and `h > 0`,
`signedDistanceCylinder(cylinder.center, cylinder)` equals `-min(rad, h/2)` and is
negative. -/
theorem signedDistance_centre_negative (sqrt : F → F) (hs : IsSqrt sqrt) :
    (∀ box : Box F, 0 < box.size →
      signedDistanceBox sqrt box.center box = -(box.size / 2) ∧
      signedDistanceBox sqrt box.center box < 0) ∧
    (∀ cylinder : Cylinder F, 0 < cylinder.rad → 0 < cylinder.h →
      signedDistanceCylinder sqrt cylinder.center cylinder = -(min cylinder.rad (cylinder.h / 2)) ∧
      signedDistanceCylinder sqrt cylinder.center cylinder < 0) := by
  constructor
  · intro box hsize
    have hq : (0 : F) - 1 / 2 * box.size ≤ 0 := by linarith
    have hval : signedDistanceBox sqrt box.center box = -(box.size / 2) := by
      unfold signedDistanceBox Vec3.length Vec3.dot
      simp only [sub_self, abs_zero, max_eq_right hq, max_self, mul_zero, add_zero,
        hs.sqrt_zero, min_eq_left hq]
      ring
    rw [hval]
    exact ⟨rfl, by linarith⟩
  · intro cylinder hrad hh
    have hx : (0 : F) - cylinder.rad ≤ 0 := by linarith
    have hy : (0 : F) - cylinder.h * (1 / 2) ≤ 0 := by linarith
    have hm : max ((0 : F) - cylinder.rad) (0 - cylinder.h * (1 / 2)) ≤ 0 := max_le hx hy
    have hval : signedDistanceCylinder sqrt cylinder.center cylinder
        = -(min cylinder.rad (cylinder.h / 2)) := by
      unfold signedDistanceCylinder cylinderExcess Vec2.length
      simp only [sub_self, abs_zero, mul_zero, add_zero, hs.sqrt_zero, max_eq_right hx,
        max_eq_right hy, min_eq_left hm, zero_add]
      rcases le_total cylinder.rad (cylinder.h / 2) with h | h
      · rw [min_eq_left h, max_eq_left (by linarith)]; ring
      · rw [min_eq_right h, max_eq_right (by linarith)]; ring
    rw [hval]
    refine ⟨rfl, ?_⟩
    have : 0 < min cylinder.rad (cylinder.h / 2) := lt_min hrad (by linarith)
    linarith

end Distances

end RayMarcher

namespace RayMarcher

section Monotone

variable {F : Type} [LinearOrderedField F]

/-- The box distance grows with the displacement along x beyond the half-extent. -/
theorem signedDistanceBox_lt_x {sqrt : F → F} (hs : IsSqrt sqrt) (box : Box F) (p p' : Vec3 F)
    (hy : p.y = p'.y) (hz : p.z = p'.z) (h1 : box.size / 2 < |p.x - box.center.x|)
    (h2 : |p.x - box.center.x| < |p'.x - box.center.x|) :
    signedDistanceBox sqrt p box < signedDistanceBox sqrt p' box := by
  have ha : 0 < |p.x - box.center.x| - 1 / 2 * box.size := by linarith
  have hb : |p.x - box.center.x| - 1 / 2 * box.size
      < |p'.x - box.center.x| - 1 / 2 * box.size := by linarith
  rw [signedDistanceBox_outside sqrt p box (Or.inl ha),
    signedDistanceBox_outside sqrt p' box (Or.inl (ha.trans hb)), ← hy, ← hz]
  have hlt := sq_max_lt ha hb
  exact sqrt_lt_sqrt hs
    (add_nonneg (add_nonneg (mul_self_nonneg _) (mul_self_nonneg _)) (mul_self_nonneg _))
    (by linarith)

/-- The box distance grows with the displacement along y beyond the half-extent. -/
theorem signedDistanceBox_lt_y {sqrt : F → F} (hs : IsSqrt sqrt) (box : Box F) (p p' : Vec3 F)
    (hx : p.x = p'.x) (hz : p.z = p'.z) (h1 : box.size / 2 < |p.y - box.center.y|)
    (h2 : |p.y - box.center.y| < |p'.y - box.center.y|) :
    signedDistanceBox sqrt p box < signedDistanceBox sqrt p' box := by
  have ha : 0 < |p.y - box.center.y| - 1 / 2 * box.size := by linarith
  have hb : |p.y - box.center.y| - 1 / 2 * box.size
      < |p'.y - box.center.y| - 1 / 2 * box.size := by linarith
  rw [signedDistanceBox_outside sqrt p box (Or.inr (Or.inl ha)),
    signedDistanceBox_outside sqrt p' box (Or.inr (Or.inl (ha.trans hb))), ← hx, ← hz]
  have hlt := sq_max_lt ha hb
  exact sqrt_lt_sqrt hs
    (add_nonneg (add_nonneg (mul_self_nonneg _) (mul_self_nonneg _)) (mul_self_nonneg _))
    (by linarith)

/-- The box distance grows with the displacement along z beyond the half-extent. -/
theorem signedDistanceBox_lt_z {sqrt : F → F} (hs : IsSqrt sqrt) (box : Box F) (p p' : Vec3 F)
    (hx : p.x = p'.x) (hy : p.y = p'.y) (h1 : box.size / 2 < |p.z - box.center.z|)
    (h2 : |p.z - box.center.z| < |p'.z - box.center.z|) :
    signedDistanceBox sqrt p box < signedDistanceBox sqrt p' box := by
  have ha : 0 < |p.z - box.center.z| - 1 / 2 * box.size := by linarith
  have hb : |p.z - box.center.z| - 1 / 2 * box.size
      < |p'.z - box.center.z| - 1 / 2 * box.size := by linarith
  rw [signedDistanceBox_outside sqrt p box (Or.inr (Or.inr ha)),
    signedDistanceBox_outside sqrt p' box (Or.inr (Or.inr (ha.trans hb))), ← hx, ← hy]
  have hlt := sq_max_lt ha hb
  exact sqrt_lt_sqrt hs
    (add_nonneg (add_nonneg (mul_self_nonneg _) (mul_self_nonneg _)) (mul_self_nonneg _))
    (by linarith)

/-- The horizontal distance of a point from the axis of a cylinder is not negative. -/
theorem horizontal_nonneg {sqrt : F → F} (hs : IsSqrt sqrt) (a b : F) :
    0 ≤ Vec2.length sqrt ⟨a, b⟩ :=
  hs.nonneg (add_nonneg (mul_self_nonneg a) (mul_self_nonneg b))

/-- The cylinder distance grows with the height above (or below) the cap. -/
theorem signedDistanceCylinder_lt_vertical {sqrt : F → F} (hs : IsSqrt sqrt)
    (cylinder : Cylinder F) (p p' : Vec3 F) (hx : p.x = p'.x) (hz : p.z = p'.z)
    (h1 : cylinder.h / 2 < |p.y - cylinder.center.y|)
    (h2 : |p.y - cylinder.center.y| < |p'.y - cylinder.center.y|) :
    signedDistanceCylinder sqrt p cylinder < signedDistanceCylinder sqrt p' cylinder := by
  have ha : 0 < (cylinderExcess sqrt p cylinder).y := by
    unfold cylinderExcess
    simp only []
    linarith
  have hb : (cylinderExcess sqrt p cylinder).y < (cylinderExcess sqrt p' cylinder).y := by
    unfold cylinderExcess
    simp only []
    linarith
  have hxx : (cylinderExcess sqrt p' cylinder).x = (cylinderExcess sqrt p cylinder).x := by
    unfold cylinderExcess
    simp only [hx, hz]
  rw [signedDistanceCylinder_outside sqrt p cylinder (Or.inr ha),
    signedDistanceCylinder_outside sqrt p' cylinder (Or.inr (ha.trans hb)), hxx]
  have hlt := sq_max_lt ha hb
  exact sqrt_lt_sqrt hs (add_nonneg (mul_self_nonneg _) (mul_self_nonneg _)) (by linarith)

/-- The cylinder distance grows with the horizontal distance from the axis beyond the
radius. -/
theorem signedDistanceCylinder_lt_radial {sqrt : F → F} (hs : IsSqrt sqrt)
    (cylinder : Cylinder F) (p p' : Vec3 F) (hy : p.y = p'.y)
    (h1 : cylinder.rad
      < Vec2.length sqrt ⟨p.x - cylinder.center.x, p.z - cylinder.center.z⟩)
    (h2 : Vec2.length sqrt ⟨p.x - cylinder.center.x, p.z - cylinder.center.z⟩
      < Vec2.length sqrt ⟨p'.x - cylinder.center.x, p'.z - cylinder.center.z⟩) :
    signedDistanceCylinder sqrt p cylinder < signedDistanceCylinder sqrt p' cylinder := by
  have hp := horizontal_nonneg hs (p.x - cylinder.center.x) (p.z - cylinder.center.z)
  have hp' := horizontal_nonneg hs (p'.x - cylinder.center.x) (p'.z - cylinder.center.z)
  have ha : 0 < (cylinderExcess sqrt p cylinder).x := by
    unfold cylinderExcess
    simp only [abs_of_nonneg hp]
    linarith
  have hb : (cylinderExcess sqrt p cylinder).x < (cylinderExcess sqrt p' cylinder).x := by
    unfold cylinderExcess
    simp only [abs_of_nonneg hp, abs_of_nonneg hp']
    linarith
  have hyy : (cylinderExcess sqrt p' cylinder).y = (cylinderExcess sqrt p cylinder).y := by
    unfold cylinderExcess
    simp only [hy]
  rw [signedDistanceCylinder_outside sqrt p cylinder (Or.inl ha),
    signedDistanceCylinder_outside sqrt p' cylinder (Or.inl (ha.trans hb)), hyy]
  have hlt := sq_max_lt ha hb
  exact sqrt_lt_sqrt hs (add_nonneg (mul_self_nonneg _) (mul_self_nonneg _)) (by linarith)

/-- C18: for every box and every two points `p`, `p'` that differ only in one coordinate
`k` with `size/2 < |p_k - c_k| < |p'_k - c_k|`,
`signedDistanceBox(p) < signedDistanceBox(p')`; for every cylinder,
`signedDistanceCylinder` strictly increases with `|p.y - c.y|` beyond `h/2` when `x` and `z`
are fixed, and strictly increases with the horizontal distance from the axis beyond `rad`
when `y` is fixed. -/
theorem signedDistance_monotone (sqrt : F → F) (hs : IsSqrt sqrt) :
    (∀ (box : Box F) (p p' : Vec3 F),
      (p.y = p'.y ∧ p.z = p'.z ∧ box.size / 2 < |p.x - box.center.x| ∧
          |p.x - box.center.x| < |p'.x - box.center.x|) ∨
        (p.x = p'.x ∧ p.z = p'.z ∧ box.size / 2 < |p.y - box.center.y| ∧
          |p.y - box.center.y| < |p'.y - box.center.y|) ∨
        (p.x = p'.x ∧ p.y = p'.y ∧ box.size / 2 < |p.z - box.center.z| ∧
          |p.z - box.center.z| < |p'.z - box.center.z|) →
      signedDistanceBox sqrt p box < signedDistanceBox sqrt p' box) ∧
    (∀ (cylinder : Cylinder F) (p p' : Vec3 F), p.x = p'.x → p.z = p'.z →
      cylinder.h / 2 < |p.y - cylinder.center.y| →
      |p.y - cylinder.center.y| < |p'.y - cylinder.center.y| →
      signedDistanceCylinder sqrt p cylinder < signedDistanceCylinder sqrt p' cylinder) ∧
    (∀ (cylinder : Cylinder F) (p p' : Vec3 F), p.y = p'.y →
      cylinder.rad < Vec2.length sqrt ⟨p.x - cylinder.center.x, p.z - cylinder.center.z⟩ →
      Vec2.length sqrt ⟨p.x - cylinder.center.x, p.z - cylinder.center.z⟩
        < Vec2.length sqrt ⟨p'.x - cylinder.center.x, p'.z - cylinder.center.z⟩ →
      signedDistanceCylinder sqrt p cylinder < signedDistanceCylinder sqrt p' cylinder) := by
  refine ⟨?_, ?_, ?_⟩
  · rintro box p p' (⟨hy, hz, h1, h2⟩ | ⟨hx, hz, h1, h2⟩ | ⟨hx, hy, h1, h2⟩)
    · exact signedDistanceBox_lt_x hs box p p' hy hz h1 h2
    · exact signedDistanceBox_lt_y hs box p p' hx hz h1 h2
    · exact signedDistanceBox_lt_z hs box p p' hx hy h1 h2
  · intro cylinder p p' hx hz h1 h2
    exact signedDistanceCylinder_lt_vertical hs cylinder p p' hx hz h1 h2
  · intro cylinder p p' hy h1 h2
    exact signedDistanceCylinder_lt_radial hs cylinder p p' hy h1 h2

end Monotone

end RayMarcher

namespace RayTracer

section Order

variable {F : Type} [LinearOrderedField F]

/-- Two positions of a list with pairwise distinct hit parameters that hold shapes with the
same hit parameter are the same position. -/
theorem index_eq_of_distinctHits (sqrt : F → F) (o d : Vec3 F) (l : List (Shape F))
    (hdist : l.Pairwise (DistinctHits sqrt o d)) (i j : ℕ) (a b : Shape F)
    (hi : l[i]? = some a) (hj : l[j]? = some b) (t : F) (na nb : Vec3 F)
    (ha : localIntersect sqrt o d a = some (t, na))
    (hb : localIntersect sqrt o d b = some (t, nb)) : i = j := by
  rw [List.pairwise_iff_getElem] at hdist
  obtain ⟨hil, hia⟩ := List.getElem?_eq_some.1 hi
  obtain ⟨hjl, hjb⟩ := List.getElem?_eq_some.1 hj
  rcases Nat.lt_trichotomy i j with h | h | h
  · have := hdist i j hil hjl h t t na nb (by rw [hia]; exact ha) (by rw [hjb]; exact hb)
    exact absurd rfl this
  · exact h
  · have := hdist j i hjl hil h t t nb na (by rw [hjb]; exact hb) (by rw [hia]; exact ha)
    exact absurd rfl this

/-- With pairwise distinct hit parameters the colour `traceRay` returns does not depend on
the order of the shapes. -/
theorem traceRay_eq_of_perm (sqrt : F → F) (o d : Vec3 F) (l l' : List (Shape F))
    (hperm : l.Perm l') (hdist : l.Pairwise (DistinctHits sqrt o d)) :
    traceRay sqrt o d l = traceRay sqrt o d l' := by
  have h := foldl_traceStep_firstNearest sqrt o d l
  have h' := foldl_traceStep_firstNearest sqrt o d l'
  unfold traceRay
  cases hacc : l.foldl (traceStep sqrt o d) none with
  | none =>
    rw [hacc] at h
    simp only [FirstNearest] at h
    cases hacc' : l'.foldl (traceStep sqrt o d) none with
    | none => rfl
    | some acc' =>
      obtain ⟨t', n0', c'⟩ := acc'
      rw [hacc'] at h'
      simp only [FirstNearest] at h'
      obtain ⟨i', s', n', hi', hhit', _, _⟩ := h'
      have := h s' (hperm.mem_iff.2 (List.getElem?_mem hi'))
      rw [this] at hhit'
      cases hhit'
  | some acc =>
    obtain ⟨t, n0, c⟩ := acc
    rw [hacc] at h
    simp only [FirstNearest] at h
    obtain ⟨i, s, n, hi, hhit, hc, hmin⟩ := h
    cases hacc' : l'.foldl (traceStep sqrt o d) none with
    | none =>
      rw [hacc'] at h'
      simp only [FirstNearest] at h'
      have := h' s (hperm.mem_iff.1 (List.getElem?_mem hi))
      rw [this] at hhit
      cases hhit
    | some acc' =>
      obtain ⟨t', n0', c'⟩ := acc'
      rw [hacc'] at h'
      simp only [FirstNearest] at h'
      obtain ⟨i', s', n', hi', hhit', hc', hmin'⟩ := h'
      obtain ⟨j, hj⟩ := List.getElem?_of_mem (hperm.mem_iff.2 (List.getElem?_mem hi'))
      obtain ⟨j', hj'⟩ := List.getElem?_of_mem (hperm.mem_iff.1 (List.getElem?_mem hi))
      have h1 : t ≤ t' := (hmin j s' t' n' hj hhit').1
      have h2 : t' ≤ t := (hmin' j' s t n hj' hhit).1
      have ht : t' = t := le_antisymm h2 h1
      rw [ht] at hhit'
      have hij := index_eq_of_distinctHits sqrt o d l hdist i j s s' hi hj t n n' hhit hhit'
      rw [← hij, hi] at hj
      have hs : s = s' := Option.some.inj hj
      simp only []
      rw [hc, hc', hs]

/-- C12: for every ray and every shape list in which the hit parameters `t` of the shapes
that are hit are pairwise distinct, `traceRay` returns the same colour for every
permutation of the shape list. -/
theorem traceRay_order_independent (sqrt : F → F) (rayOrigin rayDirection : Vec3 F)
    (shapes shapes' : List (Shape F)) (hperm : shapes.Perm shapes')
    (hdist : shapes.Pairwise (DistinctHits sqrt rayOrigin rayDirection)) :
    traceRay sqrt rayOrigin rayDirection shapes' = traceRay sqrt rayOrigin rayDirection shapes :=
  (traceRay_eq_of_perm sqrt rayOrigin rayDirection shapes shapes' hperm hdist).symm

end Order

end RayTracer

namespace RayMarcher

/-- Witness for C16: the point `(0, 0, 1)` on the unit sphere around the origin. -/
theorem signedDistanceSphere_spec_witness :
    signedDistanceSphere Real.sqrt (⟨0, 0, 1⟩ : Vec3 ℝ) ⟨⟨0, 0, 0⟩, 1, ⟨1, 0, 0⟩⟩ = 0 :=
  (signedDistanceSphere_spec Real.sqrt _ _).2.1 (by simp [Vec3.length, Vec3.dot])

/-- Witness for C17: the box of size 2 around the origin. -/
theorem signedDistance_centre_negative_witness :
    signedDistanceBox Real.sqrt (⟨0, 0, 0⟩ : Vec3 ℝ) ⟨⟨0, 0, 0⟩, 2, ⟨1, 0, 0⟩⟩ < 0 :=
  ((signedDistance_centre_negative Real.sqrt isSqrt_real).1 ⟨⟨0, 0, 0⟩, 2, ⟨1, 0, 0⟩⟩
    (by norm_num)).2

/-- Witness for C18: the points `(2, 0, 0)` and `(3, 0, 0)` outside the box of size 2 around
the origin. -/
theorem signedDistance_monotone_witness :
    signedDistanceBox Real.sqrt (⟨2, 0, 0⟩ : Vec3 ℝ) ⟨⟨0, 0, 0⟩, 2, ⟨1, 0, 0⟩⟩
      < signedDistanceBox Real.sqrt (⟨3, 0, 0⟩ : Vec3 ℝ) ⟨⟨0, 0, 0⟩, 2, ⟨1, 0, 0⟩⟩ :=
  (signedDistance_monotone Real.sqrt isSqrt_real).1 ⟨⟨0, 0, 0⟩, 2, ⟨1, 0, 0⟩⟩ ⟨2, 0, 0⟩ ⟨3, 0, 0⟩
    (Or.inl ⟨rfl, rfl, by norm_num, by norm_num⟩)

end RayMarcher

namespace RayTracer

/-- The plane `z = c` seen from `(0, 0, 5)` along `(0, 0, -1)` is hit at `t = 5 - c`. -/
theorem localIntersect_plane_z {F : Type} [LinearOrderedField F] (sqrt : F → F) (c : F)
    (hc : c ≤ 5) (col : Vec3 F) :
    localIntersect sqrt (⟨0, 0, 5⟩ : Vec3 F) ⟨0, 0, -1⟩
        ⟨.plane ⟨⟨0, 0, c⟩, ⟨0, 0, 1⟩, col⟩, col, 1, []⟩ = some (5 - c, ⟨0, 0, 1⟩) := by
  rw [localIntersect_identity sqrt _ _ _ rfl]
  have he : ¬ (1 : F) < EPSILON := by unfold EPSILON; norm_num
  simp only [intersect, intersectPlane, Vec3.dot, Vec3.sub_x, Vec3.sub_y, Vec3.sub_z]
  norm_num [he]
  have hdiv : (c - 5) / -1 = 5 - c := by
    rw [div_neg, div_one]
    ring
  rw [hdiv]
  exact ⟨by linarith, rfl⟩

/-- Witness for C12: the planes `z = 0` (red) and `z = -1` (blue) seen from `(0, 0, 5)`
along `(0, 0, -1)`, in both orders. -/
theorem traceRay_order_independent_witness :
    traceRay Real.sqrt (⟨0, 0, 5⟩ : Vec3 ℝ) ⟨0, 0, -1⟩
        [⟨.plane ⟨⟨0, 0, -1⟩, ⟨0, 0, 1⟩, ⟨0, 0, 1⟩⟩, ⟨0, 0, 1⟩, 1, []⟩,
         ⟨.plane ⟨⟨0, 0, 0⟩, ⟨0, 0, 1⟩, ⟨1, 0, 0⟩⟩, ⟨1, 0, 0⟩, 1, []⟩]
      = traceRay Real.sqrt (⟨0, 0, 5⟩ : Vec3 ℝ) ⟨0, 0, -1⟩
        [⟨.plane ⟨⟨0, 0, 0⟩, ⟨0, 0, 1⟩, ⟨1, 0, 0⟩⟩, ⟨1, 0, 0⟩, 1, []⟩,
         ⟨.plane ⟨⟨0, 0, -1⟩, ⟨0, 0, 1⟩, ⟨0, 0, 1⟩⟩, ⟨0, 0, 1⟩, 1, []⟩] :=
  traceRay_order_independent Real.sqrt _ _ _ _ (List.Perm.swap _ _ _) (by
    rw [List.pairwise_pair]
    intro ta tb na nb ha hb
    rw [localIntersect_plane_z Real.sqrt 0 (by norm_num)] at ha
    rw [localIntersect_plane_z Real.sqrt (-1) (by norm_num)] at hb
    simp only [Option.some.injEq, Prod.mk.injEq] at ha hb
    rw [← ha.1, ← hb.1]
    norm_num)

end RayTracer

namespace RayTracer

section MollerTrumbore

variable {F : Type} [LinearOrderedField F]

/-- The four tests of `intersectTriangle` in one statement: `a`, `u`, `v` and `t` are the
locals of the function. -/
theorem intersectTriangle_eq_some_iff (sqrt : F → F) (o d : Vec3 F) (triangle : Triangle F)
    (a u v t : F)
    (ha : a = Vec3.dot (triangle.vertex2 - triangle.vertex1)
      (Vec3.cross d (triangle.vertex3 - triangle.vertex1)))
    (hu : u = 1 / a * Vec3.dot (o - triangle.vertex1)
      (Vec3.cross d (triangle.vertex3 - triangle.vertex1)))
    (hv : v = 1 / a * Vec3.dot d
      (Vec3.cross (o - triangle.vertex1) (triangle.vertex2 - triangle.vertex1)))
    (ht : t = 1 / a * Vec3.dot (triangle.vertex3 - triangle.vertex1)
      (Vec3.cross (o - triangle.vertex1) (triangle.vertex2 - triangle.vertex1)))
    (t' : F) (n : Vec3 F) :
    intersectTriangle sqrt o d triangle = some (t', n) ↔
      EPSILON ≤ |a| ∧ 0 ≤ u ∧ 0 ≤ v ∧ u + v ≤ 1 ∧ EPSILON < t ∧ t' = t ∧
        n = Vec3.normalize sqrt (Vec3.cross (triangle.vertex2 - triangle.vertex1)
          (triangle.vertex3 - triangle.vertex1)) := by
  unfold intersectTriangle
  simp only [← ha, ← hu, ← hv, ← ht]
  have habs : (a > -EPSILON ∧ a < EPSILON) ↔ ¬ EPSILON ≤ |a| := by
    rw [not_le, abs_lt]
  by_cases h1 : a > -EPSILON ∧ a < EPSILON
  · rw [if_pos h1]
    constructor
    · intro h; cases h
    · rintro ⟨h, _⟩
      exact absurd h (habs.1 h1)
  · rw [if_neg h1]
    have ha' : EPSILON ≤ |a| := not_not.1 (fun h => h1 (habs.2 h))
    by_cases h2 : u < 0 ∨ u > 1
    · rw [if_pos h2]
      constructor
      · intro h; cases h
      · rintro ⟨_, hu0, hv0, huv, _⟩
        rcases h2 with h2 | h2
        · exact absurd hu0 (not_le.2 h2)
        · exact absurd h2 (not_lt.2 (by linarith))
    · rw [if_neg h2]
      push_neg at h2
      by_cases h3 : v < 0 ∨ u + v > 1
      · rw [if_pos h3]
        constructor
        · intro h; cases h
        · rintro ⟨_, _, hv0, huv, _⟩
          rcases h3 with h3 | h3
          · exact absurd hv0 (not_le.2 h3)
          · exact absurd huv (not_le.2 h3)
      · rw [if_neg h3]
        push_neg at h3
        by_cases h4 : t > EPSILON
        · rw [if_pos h4]
          constructor
          · intro h
            simp only [Option.some.injEq, Prod.mk.injEq] at h
            exact ⟨ha', h2.1, h3.1, h3.2, h4, h.1.symm, h.2.symm⟩
          · rintro ⟨_, _, _, _, _, h5, h6⟩
            rw [h5, h6]
        · rw [if_neg h4]
          constructor
          · intro h; cases h
          · rintro ⟨_, _, _, _, h5, _⟩
            exact absurd h5 h4

end MollerTrumbore

end RayTracer

namespace RayTracer

section TriangleClaims

variable {F : Type} [LinearOrderedField F]

/-- The locals of `intersectTriangle` for a ray along the face normal `n = cross(edge1,
edge2)` through the centroid: `a = -mu * dot(n, n)`, the numerators of `u` and `v` are
`a / 3` and the numerator of `t` is `lam * dot(n, n)`. -/
theorem centroid_ray_locals (v1 v2 v3 : Vec3 F) (lam mu : F) :
    Vec3.dot (v2 - v1) (Vec3.cross (mu • Vec3.cross (v2 - v1) (v3 - v1)) (v3 - v1))
      = -mu * Vec3.dot (Vec3.cross (v2 - v1) (v3 - v1)) (Vec3.cross (v2 - v1) (v3 - v1)) ∧
    Vec3.dot ((1 / 3 : F) • (v1 + v2 + v3) + lam • Vec3.cross (v2 - v1) (v3 - v1) - v1)
        (Vec3.cross (mu • Vec3.cross (v2 - v1) (v3 - v1)) (v3 - v1))
      = 1 / 3 * (-mu * Vec3.dot (Vec3.cross (v2 - v1) (v3 - v1))
          (Vec3.cross (v2 - v1) (v3 - v1))) ∧
    Vec3.dot (mu • Vec3.cross (v2 - v1) (v3 - v1))
        (Vec3.cross ((1 / 3 : F) • (v1 + v2 + v3) + lam • Vec3.cross (v2 - v1) (v3 - v1) - v1)
          (v2 - v1))
      = 1 / 3 * (-mu * Vec3.dot (Vec3.cross (v2 - v1) (v3 - v1))
          (Vec3.cross (v2 - v1) (v3 - v1))) ∧
    Vec3.dot (v3 - v1)
        (Vec3.cross ((1 / 3 : F) • (v1 + v2 + v3) + lam • Vec3.cross (v2 - v1) (v3 - v1) - v1)
          (v2 - v1))
      = lam * Vec3.dot (Vec3.cross (v2 - v1) (v3 - v1)) (Vec3.cross (v2 - v1) (v3 - v1)) := by
  refine ⟨?_, ?_, ?_, ?_⟩ <;> simp [Vec3.dot, Vec3.cross] <;> ring

/-- A unit vector `mu * n` and the length `L` of `n`: `|mu| * L = 1`. -/
theorem unit_multiple {sqrt : F → F} (hs : IsSqrt sqrt) (n : Vec3 F) (mu : F)
    (hunit : Vec3.dot (mu • n) (mu • n) = 1) :
    0 < Vec3.dot n n ∧ 0 < Vec3.length sqrt n ∧ |mu| * Vec3.length sqrt n = 1 ∧
      Vec3.length sqrt n * Vec3.length sqrt n = Vec3.dot n n := by
  have hN : mu * mu * Vec3.dot n n = 1 := by
    rw [← hunit]
    simp only [Vec3.dot, Vec3.smul_x, Vec3.smul_y, Vec3.smul_z]
    ring
  have hN0 : 0 ≤ Vec3.dot n n := Vec3.dot_self_nonneg n
  have hpos : 0 < Vec3.dot n n := by
    rcases hN0.eq_or_lt with h | h
    · rw [← h, mul_zero] at hN
      exact absurd hN (by norm_num)
    · exact h
  have hL := hs.pos hpos
  have hLL := hs.mul_self hpos.le
  refine ⟨hpos, hL, ?_, hLL⟩
  unfold Vec3.length
  have hsq : (|mu| * sqrt (Vec3.dot n n)) * (|mu| * sqrt (Vec3.dot n n)) = 1 := by
    have : |mu| * |mu| = mu * mu := abs_mul_abs_self mu
    calc (|mu| * sqrt (Vec3.dot n n)) * (|mu| * sqrt (Vec3.dot n n))
        = (|mu| * |mu|) * (sqrt (Vec3.dot n n) * sqrt (Vec3.dot n n)) := by ring
      _ = 1 := by rw [this, hLL, hN]
  have hnn : 0 ≤ |mu| * sqrt (Vec3.dot n n) := mul_nonneg (abs_nonneg _) hL.le
  nlinarith

/-- A ray along the face normal through the centroid, from farther than `EPSILON`, hits a
triangle whose face normal `cross(edge1, edge2)` is at least `EPSILON` long, at the distance
of its origin from the plane. -/
theorem intersectTriangle_centroid {sqrt : F → F} (hs : IsSqrt sqrt) (triangle : Triangle F)
    (lam mu : F)
    (hunit : Vec3.dot
      (mu • Vec3.cross (triangle.vertex2 - triangle.vertex1)
        (triangle.vertex3 - triangle.vertex1))
      (mu • Vec3.cross (triangle.vertex2 - triangle.vertex1)
        (triangle.vertex3 - triangle.vertex1)) = 1)
    (htoward : lam * mu < 0)
    (hsize : EPSILON ≤ Vec3.length sqrt (Vec3.cross (triangle.vertex2 - triangle.vertex1)
      (triangle.vertex3 - triangle.vertex1)))
    (hfar : EPSILON < |lam| * Vec3.length sqrt
      (Vec3.cross (triangle.vertex2 - triangle.vertex1)
        (triangle.vertex3 - triangle.vertex1))) :
    intersectTriangle sqrt
        ((1 / 3 : F) • (triangle.vertex1 + triangle.vertex2 + triangle.vertex3)
          + lam • Vec3.cross (triangle.vertex2 - triangle.vertex1)
            (triangle.vertex3 - triangle.vertex1))
        (mu • Vec3.cross (triangle.vertex2 - triangle.vertex1)
          (triangle.vertex3 - triangle.vertex1)) triangle
      = some (|lam| * Vec3.length sqrt (Vec3.cross (triangle.vertex2 - triangle.vertex1)
            (triangle.vertex3 - triangle.vertex1)),
          Vec3.normalize sqrt (Vec3.cross (triangle.vertex2 - triangle.vertex1)
            (triangle.vertex3 - triangle.vertex1))) := by
  obtain ⟨h1, h2, h3, h4⟩ :=
    centroid_ray_locals triangle.vertex1 triangle.vertex2 triangle.vertex3 lam mu
  obtain ⟨hN, hL, hmL, hLL⟩ := unit_multiple hs _ mu hunit
  generalize Vec3.length sqrt (Vec3.cross (triangle.vertex2 - triangle.vertex1)
    (triangle.vertex3 - triangle.vertex1)) = L at *
  generalize Vec3.dot (Vec3.cross (triangle.vertex2 - triangle.vertex1)
    (triangle.vertex3 - triangle.vertex1)) (Vec3.cross (triangle.vertex2 - triangle.vertex1)
    (triangle.vertex3 - triangle.vertex1)) = N at *
  have hmu : mu ≠ 0 := by
    rintro rfl
    rw [mul_zero] at htoward
    exact lt_irrefl _ htoward
  have ha0 : -mu * N ≠ 0 := mul_ne_zero (neg_ne_zero.2 hmu) hN.ne'
  have habs : |(-mu * N)| = L := by
    rw [abs_mul, abs_neg, abs_of_pos hN, ← hLL, ← mul_assoc, hmL, one_mul]
  have ht : 1 / (-mu * N) * (lam * N) = |lam| * L := by
    rcases lt_or_gt_of_ne hmu with hneg | hpos
    · have hlam : 0 < lam := by
        by_contra hcon
        push_neg at hcon
        nlinarith [mul_nonneg_of_nonpos_of_nonpos hcon hneg.le]
      rw [abs_of_neg hneg] at hmL
      rw [abs_of_pos hlam]
      field_simp
      linear_combination (-(lam * N)) * hmL
    · have hlam : lam < 0 := by
        by_contra hcon
        push_neg at hcon
        nlinarith [mul_nonneg hcon hpos.le]
      rw [abs_of_pos hpos] at hmL
      rw [abs_of_neg hlam]
      field_simp
      linear_combination (-(lam * N)) * hmL
  refine (intersectTriangle_eq_some_iff sqrt _ _ triangle (-mu * N) (1 / 3) (1 / 3)
    (|lam| * L) h1.symm ?_ ?_ ?_ _ _).2 ⟨?_, by norm_num, by norm_num, by norm_num, hfar,
      rfl, rfl⟩
  · rw [h2]
    field_simp
  · rw [h3]
    field_simp
  · rw [h4, ht]
  · rw [habs]
    exact hsize

/-- C13 (as amended): for every triangle whose face normal
`cross(vertex2 - vertex1, vertex3 - vertex1)` is at least `EPSILON` long and every ray whose
origin lies on the line through the centroid along the face normal, farther than `EPSILON`
from the plane of the triangle, and whose unit direction points along that normal toward
the plane, `intersectTriangle` returns true with `t` the distance of the origin from the
plane, so `t > 0`, and with a normal parallel to
`cross(vertex2 - vertex1, vertex3 - vertex1)`. -/
theorem intersectTriangle_centroid_ray (sqrt : F → F) (hs : IsSqrt sqrt) (triangle : Triangle F)
    (rayOrigin rayDirection : Vec3 F) (lam mu : F)
    (horigin : rayOrigin
      = (1 / 3 : F) • (triangle.vertex1 + triangle.vertex2 + triangle.vertex3)
        + lam • Vec3.cross (triangle.vertex2 - triangle.vertex1)
          (triangle.vertex3 - triangle.vertex1))
    (hdirection : rayDirection = mu • Vec3.cross (triangle.vertex2 - triangle.vertex1)
      (triangle.vertex3 - triangle.vertex1))
    (hunit : Vec3.length sqrt rayDirection = 1)
    (htoward : lam * mu < 0)
    (hsize : EPSILON ≤ Vec3.length sqrt (Vec3.cross (triangle.vertex2 - triangle.vertex1)
      (triangle.vertex3 - triangle.vertex1)))
    (hfar : EPSILON < |lam| * Vec3.length sqrt
      (Vec3.cross (triangle.vertex2 - triangle.vertex1)
        (triangle.vertex3 - triangle.vertex1))) :
    ∃ (t : F) (normal : Vec3 F),
      intersectTriangle sqrt rayOrigin rayDirection triangle = some (t, normal) ∧
      0 < t ∧
      t = |lam| * Vec3.length sqrt (Vec3.cross (triangle.vertex2 - triangle.vertex1)
        (triangle.vertex3 - triangle.vertex1)) ∧
      ∃ c : F, c ≠ 0 ∧ normal = c • Vec3.cross (triangle.vertex2 - triangle.vertex1)
        (triangle.vertex3 - triangle.vertex1) := by
  have hdd : Vec3.dot rayDirection rayDirection = 1 := by
    have h := hs.mul_self (Vec3.dot_self_nonneg rayDirection)
    unfold Vec3.length at hunit
    rw [hunit] at h
    linarith
  rw [hdirection] at hdd
  have hL := (unit_multiple hs _ mu hdd).2.1
  refine ⟨|lam| * Vec3.length sqrt (Vec3.cross (triangle.vertex2 - triangle.vertex1)
      (triangle.vertex3 - triangle.vertex1)),
    Vec3.normalize sqrt (Vec3.cross (triangle.vertex2 - triangle.vertex1)
      (triangle.vertex3 - triangle.vertex1)), ?_, EPSILON_pos.trans hfar, rfl,
    1 / Vec3.length sqrt (Vec3.cross (triangle.vertex2 - triangle.vertex1)
      (triangle.vertex3 - triangle.vertex1)), one_div_ne_zero hL.ne', rfl⟩
  rw [horigin, hdirection]
  exact intersectTriangle_centroid hs triangle lam mu hdd htoward hsize hfar

end TriangleClaims

end RayTracer

namespace RayTracer

/-- Witness for C13: the ray from `(1/3, 1/3, 2)` along `(0, 0, -1)` at the triangle
`(0,0,0)`, `(1,0,0)`, `(0,1,0)`. -/
theorem intersectTriangle_centroid_ray_witness :
    ∃ (t : ℝ) (normal : Vec3 ℝ),
      intersectTriangle Real.sqrt (⟨1 / 3, 1 / 3, 2⟩ : Vec3 ℝ) ⟨0, 0, -1⟩
        ⟨⟨0, 0, 0⟩, ⟨1, 0, 0⟩, ⟨0, 1, 0⟩, ⟨1, 1, 1⟩⟩ = some (t, normal) ∧ 0 < t := by
  have hlen : Vec3.length Real.sqrt
      (Vec3.cross ((⟨1, 0, 0⟩ : Vec3 ℝ) - ⟨0, 0, 0⟩) (⟨0, 1, 0⟩ - ⟨0, 0, 0⟩)) = 1 := by
    simp [Vec3.length, Vec3.dot, Vec3.cross]
  obtain ⟨t, normal, h1, h2, _⟩ := intersectTriangle_centroid_ray Real.sqrt isSqrt_real
    ⟨⟨0, 0, 0⟩, ⟨1, 0, 0⟩, ⟨0, 1, 0⟩, ⟨1, 1, 1⟩⟩ ⟨1 / 3, 1 / 3, 2⟩ ⟨0, 0, -1⟩ 2 (-1)
    (by ext <;> simp [Vec3.cross]) (by ext <;> simp [Vec3.cross])
    (by simp [Vec3.length, Vec3.dot]) (by norm_num)
    (by rw [hlen]; norm_num [EPSILON]) (by rw [hlen]; norm_num [EPSILON])
  exact ⟨t, normal, h1, h2⟩

/-- Counterexample to C13 as stated.  (a) The triangle `(0,0,0)`, `(1/10000,0,0)`,
`(0,1/10000,0)` has non-collinear vertices and the face normal `(0, 0, 1/100000000)`; the
ray from `(1/30000, 1/30000, 1)`, on the normal through the centroid, along the unit vector
`(0, 0, -1)` towards the plane, is reported as a miss.  (b) The ray from
`(1/3, 1/3, 1/10000000)` along `(0, 0, -1)` at the triangle `(0,0,0)`, `(1,0,0)`,
`(0,1,0)` is reported as a miss. -/
theorem intersectTriangle_centroid_ray_counterexample :
    (Vec3.cross ((⟨1 / 10000, 0, 0⟩ : Vec3 ℝ) - ⟨0, 0, 0⟩) (⟨0, 1 / 10000, 0⟩ - ⟨0, 0, 0⟩)
        = ⟨0, 0, 1 / 100000000⟩ ∧
      (⟨1 / 30000, 1 / 30000, 1⟩ : Vec3 ℝ)
        = (1 / 3 : ℝ) • ((⟨0, 0, 0⟩ : Vec3 ℝ) + ⟨1 / 10000, 0, 0⟩ + ⟨0, 1 / 10000, 0⟩)
          + (100000000 : ℝ) • (⟨0, 0, 1 / 100000000⟩ : Vec3 ℝ) ∧
      (⟨0, 0, -1⟩ : Vec3 ℝ) = (-100000000 : ℝ) • (⟨0, 0, 1 / 100000000⟩ : Vec3 ℝ) ∧
      Vec3.length Real.sqrt (⟨0, 0, -1⟩ : Vec3 ℝ) = 1 ∧
      intersectTriangle Real.sqrt (⟨1 / 30000, 1 / 30000, 1⟩ : Vec3 ℝ) ⟨0, 0, -1⟩
        ⟨⟨0, 0, 0⟩, ⟨1 / 10000, 0, 0⟩, ⟨0, 1 / 10000, 0⟩, ⟨1, 1, 1⟩⟩ = none) ∧
    (Vec3.cross ((⟨1, 0, 0⟩ : Vec3 ℝ) - ⟨0, 0, 0⟩) (⟨0, 1, 0⟩ - ⟨0, 0, 0⟩) = ⟨0, 0, 1⟩ ∧
      (⟨1 / 3, 1 / 3, 1 / 10000000⟩ : Vec3 ℝ)
        = (1 / 3 : ℝ) • ((⟨0, 0, 0⟩ : Vec3 ℝ) + ⟨1, 0, 0⟩ + ⟨0, 1, 0⟩)
          + (1 / 10000000 : ℝ) • (⟨0, 0, 1⟩ : Vec3 ℝ) ∧
      (⟨0, 0, -1⟩ : Vec3 ℝ) = (-1 : ℝ) • (⟨0, 0, 1⟩ : Vec3 ℝ) ∧
      intersectTriangle Real.sqrt (⟨1 / 3, 1 / 3, 1 / 10000000⟩ : Vec3 ℝ) ⟨0, 0, -1⟩
        ⟨⟨0, 0, 0⟩, ⟨1, 0, 0⟩, ⟨0, 1, 0⟩, ⟨1, 1, 1⟩⟩ = none) := by
  refine ⟨⟨?_, ?_, ?_, ?_, ?_⟩, ?_, ?_, ?_, ?_⟩
  · ext <;> simp [Vec3.cross]
    norm_num
  · ext <;> simp <;> norm_num
  · ext <;> simp
  · simp [Vec3.length, Vec3.dot]
  · have ha : Vec3.dot ((⟨1 / 10000, 0, 0⟩ : Vec3 ℝ) - ⟨0, 0, 0⟩)
        (Vec3.cross (⟨0, 0, -1⟩ : Vec3 ℝ) (⟨0, 1 / 10000, 0⟩ - ⟨0, 0, 0⟩))
        = 1 / 100000000 := by
      simp [Vec3.dot, Vec3.cross]
      norm_num
    unfold intersectTriangle
    simp only [ha]
    rw [if_pos (by unfold EPSILON; norm_num)]
  · ext <;> simp [Vec3.cross]
  · ext <;> simp
  · ext <;> simp
  · cases h : intersectTriangle Real.sqrt (⟨1 / 3, 1 / 3, 1 / 10000000⟩ : Vec3 ℝ) ⟨0, 0, -1⟩
        ⟨⟨0, 0, 0⟩, ⟨1, 0, 0⟩, ⟨0, 1, 0⟩, ⟨1, 1, 1⟩⟩ with
    | none => rfl
    | some tn =>
      obtain ⟨t, normal⟩ := tn
      have h5 := ((intersectTriangle_eq_some_iff Real.sqrt _ _ _ _ _ _ _ rfl rfl rfl rfl t
        normal).1 h).2.2.2.2.1
      simp [Vec3.dot, Vec3.cross, EPSILON] at h5
      norm_num at h5

end RayTracer

namespace RayMarcher

section Shadow

variable {F : Type} [LinearOrderedField F]

theorem delta_pos : (0 : F) < delta := by
  unfold delta
  norm_num

/-- The inner loop of the shadow test finds a shape exactly when some shape at another
position of the scene is closer than `delta` to the sample point. -/
theorem occluded_iff (sqrt : F → F) (scene : List (Shape F)) (idx : ℕ) (q : Vec3 F) :
    occluded sqrt scene idx q = true ↔
      ∃ (j : ℕ) (other : Shape F), j ≠ idx ∧ scene[j]? = some other ∧
        shapeDistance sqrt q other < delta := by
  unfold occluded
  rw [List.any_eq_true]
  constructor
  · rintro ⟨⟨j, other⟩, hmem, h⟩
    rw [List.mk_mem_enum_iff_getElem?] at hmem
    simp only [Bool.and_eq_true, decide_eq_true_eq] at h
    exact ⟨j, other, h.1, hmem, h.2⟩
  · rintro ⟨j, other, hne, hget, hd⟩
    refine ⟨(j, other), ?_, ?_⟩
    · rw [List.mk_mem_enum_iff_getElem?]
      exact hget
    · simp only [Bool.and_eq_true, decide_eq_true_eq]
      exact ⟨hne, hd⟩

/-- Once the flag is set the shadow loop keeps it. -/
theorem shadowLoop_true (sqrt : F → F) (scene : List (Shape F)) (idx : ℕ)
    (p dirL : Vec3 F) (dist : F) (fuel : ℕ) (t : F) :
    shadowLoop sqrt scene idx p dirL dist fuel t true = true := by
  cases fuel with
  | zero => rfl
  | succ n => simp [shadowLoop]

/-- With enough passes, the shadow loop started at `t` sets the flag exactly when one of
the samples `t`, `t + delta`, `t + 2 * delta`, ... before `shadowRayDistance` is
occluded. -/
theorem shadowLoop_eq_true_iff (sqrt : F → F) (scene : List (Shape F)) (idx : ℕ)
    (p dirL : Vec3 F) (dist : F) (fuel : ℕ) (t : F) (h : dist ≤ t + (fuel : F) * delta) :
    shadowLoop sqrt scene idx p dirL dist fuel t false = true ↔
      ∃ j : ℕ, t + (j : F) * delta < dist ∧
        occluded sqrt scene idx (p + (t + (j : F) * delta) • dirL) = true := by
  have hd : (0 : F) < delta := delta_pos
  induction fuel generalizing t with
  | zero =>
    simp only [Nat.cast_zero, zero_mul, add_zero] at h
    simp only [shadowLoop, Bool.false_eq_true, false_iff, not_exists, not_and]
    intro j hj
    have : (0 : F) ≤ (j : F) * delta := mul_nonneg (Nat.cast_nonneg j) hd.le
    linarith
  | succ n ih =>
    unfold shadowLoop
    by_cases ht : t < dist
    · rw [if_pos ht]
      simp only [Bool.false_eq_true, if_false]
      by_cases hocc : occluded sqrt scene idx (p + t • dirL) = true
      · rw [hocc, shadowLoop_true]
        simp only [true_iff]
        exact ⟨0, by simpa using ht, by simpa using hocc⟩
      · have hocc' : occluded sqrt scene idx (p + t • dirL) = false := by
          simpa using hocc
        rw [hocc']
        refine (ih (t + delta) (by push_cast at h; linarith)).trans ?_
        constructor
        · rintro ⟨j, hj1, hj2⟩
          refine ⟨j + 1, ?_, ?_⟩
          · push_cast
            linarith
          · have he : t + ((j + 1 : ℕ) : F) * delta = t + delta + (j : F) * delta := by
              push_cast
              ring
            rw [he]
            exact hj2
        · rintro ⟨j, hj1, hj2⟩
          cases j with
          | zero =>
            simp only [Nat.cast_zero, zero_mul, add_zero] at hj2
            exact absurd hj2 hocc
          | succ m =>
            have he : t + ((m + 1 : ℕ) : F) * delta = t + delta + (m : F) * delta := by
              push_cast
              ring
            rw [he] at hj1 hj2
            exact ⟨m, hj1, hj2⟩
    · rw [if_neg ht]
      simp only [Bool.false_eq_true, false_iff, not_exists, not_and]
      intro j hj
      have : (0 : F) ≤ (j : F) * delta := mul_nonneg (Nat.cast_nonneg j) hd.le
      linarith

/-- The flag `inShadow` is set exactly when, for some sample parameter `k * delta` with
`k >= 1` before the light, the sample point on the way to the light is closer than `delta`
to a shape at another position of the scene. -/
theorem inShadow_iff [FloorRing F] (sqrt : F → F) (scene : List (Shape F)) (idx : ℕ)
    (p : Vec3 F) :
    inShadow sqrt scene idx p = true ↔
      ∃ k : ℕ, 1 ≤ k ∧ (k : F) * delta < Vec3.length sqrt (lightPosition - p) ∧
        ∃ (j : ℕ) (other : Shape F), j ≠ idx ∧ scene[j]? = some other ∧
          shapeDistance sqrt
            (p + ((k : F) * delta) • Vec3.normalize sqrt (lightPosition - p)) other
            < delta := by
  have hd : (0 : F) < delta := delta_pos
  have hfuel : Vec3.length sqrt (lightPosition - p)
      ≤ delta + ((⌈Vec3.length sqrt (lightPosition - p) / delta⌉₊ : ℕ) : F) * delta := by
    have h1 := Nat.le_ceil (Vec3.length sqrt (lightPosition - p) / delta)
    rw [div_le_iff₀ hd] at h1
    linarith
  unfold inShadow
  simp only []
  rw [shadowLoop_eq_true_iff sqrt scene idx p _ _ _ delta hfuel]
  constructor
  · rintro ⟨j, hj1, hj2⟩
    have he : delta + (j : F) * delta = ((j + 1 : ℕ) : F) * delta := by
      push_cast
      ring
    rw [he] at hj1 hj2
    exact ⟨j + 1, Nat.le_add_left 1 j, hj1, (occluded_iff sqrt scene idx _).1 hj2⟩
  · rintro ⟨k, hk, hk1, hk2⟩
    obtain ⟨j, rfl⟩ : ∃ j, k = j + 1 := ⟨k - 1, by omega⟩
    have he : delta + (j : F) * delta = ((j + 1 : ℕ) : F) * delta := by
      push_cast
      ring
    refine ⟨j, ?_, ?_⟩
    · rw [he]; exact hk1
    · rw [he]; exact (occluded_iff sqrt scene idx _).2 hk2

end Shadow

section ShadowClaim

variable {F : Type} [LinearOrderedField F] [FloorRing F]

/-- In exact arithmetic, for every hit (point `p` on the shape `s` at position `idx` of the
scene), let `C = clamp(ambient + diffuseIntensity * shapeColor * lightColor
+ specularIntensity * specularColor, 0, 1)`.  If for some sample parameter `t = k * delta`
(`k >= 1`, `t < |light - p|`) the point `p + t * lightDirection` is closer than `delta` to
some shape at another position of the scene, the colour assigned is exactly `0.2 * C`;
otherwise it is exactly `C`.  In a scene of one shape it is `C`.  The pixel gets this colour
for the last shape in scene order that the pass of the hit finds closer than `delta`.  In
`float` arithmetic the samples and the distances are rounded, see `inShadow32`. -/
theorem lighting_shadow_attenuation (sqrt : F → F) (cameraPosition : Vec3 F)
    (scene : List (Shape F)) (idx : ℕ) (s : Shape F) (p : Vec3 F) :
    unshadowedColor sqrt cameraPosition s p
      = clampVec (ambientColor
          + (max 0 (Vec3.dot (normalVector sqrt p s)
              (Vec3.normalize sqrt (lightPosition - p)))) • s.color * lightColor
          + ((max 0 (Vec3.dot (Vec3.normalize sqrt (cameraPosition - p))
              (Vec3.reflect (-(Vec3.normalize sqrt (lightPosition - p)))
                (normalVector sqrt p s)))) ^ 10) • specularColor) 0 1 ∧
    ((∃ k : ℕ, 1 ≤ k ∧ (k : F) * delta < Vec3.length sqrt (lightPosition - p) ∧
        ∃ (j : ℕ) (other : Shape F), j ≠ idx ∧ scene[j]? = some other ∧
          shapeDistance sqrt
            (p + ((k : F) * delta) • Vec3.normalize sqrt (lightPosition - p)) other < delta) →
      lighting sqrt cameraPosition scene idx s p
        = (1 / 5 : F) • unshadowedColor sqrt cameraPosition s p) ∧
    ((¬ ∃ k : ℕ, 1 ≤ k ∧ (k : F) * delta < Vec3.length sqrt (lightPosition - p) ∧
        ∃ (j : ℕ) (other : Shape F), j ≠ idx ∧ scene[j]? = some other ∧
          shapeDistance sqrt
            (p + ((k : F) * delta) • Vec3.normalize sqrt (lightPosition - p)) other < delta) →
      lighting sqrt cameraPosition scene idx s p = unshadowedColor sqrt cameraPosition s p) ∧
    lighting sqrt cameraPosition [s] 0 s p = unshadowedColor sqrt cameraPosition s p ∧
    (∀ (rayDirection : Vec3 F) (k : ℕ), Runs sqrt cameraPosition rayDirection scene k →
      scene[idx]? = some s →
      p = marchPoint sqrt cameraPosition rayDirection scene k →
      shapeDistance sqrt p s < delta →
      (∀ j shape2, idx < j → scene[j]? = some shape2 → ¬ shapeDistance sqrt p shape2 < delta) →
      (march sqrt cameraPosition rayDirection scene).color
        = lighting sqrt cameraPosition scene idx s p) := by
  refine ⟨rfl, ?_, ?_, lighting_singleton sqrt cameraPosition s p, ?_⟩
  · intro h
    unfold lighting
    simp only []
    rw [if_pos ((inShadow_iff sqrt scene idx p).2 h)]
  · intro h
    unfold lighting
    simp only []
    rw [if_neg (fun hin => h ((inShadow_iff sqrt scene idx p).1 hin))]
  · intro rayDirection k hrun hi hp hhit hlast
    subst hp
    exact (march_lastHit sqrt cameraPosition rayDirection scene k hrun idx s hi hhit hlast).2.1

end ShadowClaim

end RayMarcher

namespace RayMarcher

/-- The point `(-5, -5, 0)` straight below the light: the light is 5 away in the direction
`(0, 0, 1)`. -/
theorem below_light {F : Type} [LinearOrderedField F] {sqrt : F → F} (hs : IsSqrt sqrt) :
    Vec3.length sqrt ((lightPosition : Vec3 F) - ⟨-5, -5, 0⟩) = 5 ∧
    Vec3.normalize sqrt ((lightPosition : Vec3 F) - ⟨-5, -5, 0⟩) = ⟨0, 0, 1⟩ := by
  have h25 : sqrt (25 : F) = 5 := hs.eq_of_mul_self (by norm_num) (by norm_num)
  constructor
  · simp only [Vec3.length, Vec3.dot, lightPosition, Vec3.sub_x, Vec3.sub_y, Vec3.sub_z]
    norm_num [h25]
  · simp only [Vec3.normalize, Vec3.dot, lightPosition, Vec3.sub_x, Vec3.sub_y, Vec3.sub_z]
    norm_num [h25]
    ext <;> simp

/-- In exact arithmetic the unit sphere around `(-5, -5, -1)` is hit at its top `(-5, -5, 0)`;
the unit sphere around `(-5, -5, 5/2)` lies between that point and the light at
`(-5, -5, 5)`, and the sample `k = 2500` is its centre. -/
theorem lighting_shadow_attenuation_witness :
    lighting Real.sqrt (⟨0, 0, 5⟩ : Vec3 ℝ)
        [⟨.sphere ⟨⟨-5, -5, -1⟩, 1, ⟨1, 0, 0⟩⟩, ⟨1, 0, 0⟩, 1, []⟩,
         ⟨.sphere ⟨⟨-5, -5, 5 / 2⟩, 1, ⟨1, 0, 0⟩⟩, ⟨1, 0, 0⟩, 1, []⟩] 0
        ⟨.sphere ⟨⟨-5, -5, -1⟩, 1, ⟨1, 0, 0⟩⟩, ⟨1, 0, 0⟩, 1, []⟩ ⟨-5, -5, 0⟩
      = (1 / 5 : ℝ) • unshadowedColor Real.sqrt (⟨0, 0, 5⟩ : Vec3 ℝ)
        ⟨.sphere ⟨⟨-5, -5, -1⟩, 1, ⟨1, 0, 0⟩⟩, ⟨1, 0, 0⟩, 1, []⟩ ⟨-5, -5, 0⟩ := by
  obtain ⟨hlen, hdir⟩ := below_light isSqrt_real
  refine (lighting_shadow_attenuation Real.sqrt (⟨0, 0, 5⟩ : Vec3 ℝ)
    [⟨.sphere ⟨⟨-5, -5, -1⟩, 1, ⟨1, 0, 0⟩⟩, ⟨1, 0, 0⟩, 1, []⟩,
     ⟨.sphere ⟨⟨-5, -5, 5 / 2⟩, 1, ⟨1, 0, 0⟩⟩, ⟨1, 0, 0⟩, 1, []⟩] 0
    ⟨.sphere ⟨⟨-5, -5, -1⟩, 1, ⟨1, 0, 0⟩⟩, ⟨1, 0, 0⟩, 1, []⟩ ⟨-5, -5, 0⟩).2.1
    ⟨2500, by norm_num, ?_, 1,
      ⟨.sphere ⟨⟨-5, -5, 5 / 2⟩, 1, ⟨1, 0, 0⟩⟩, ⟨1, 0, 0⟩, 1, []⟩, by norm_num, rfl, ?_⟩
  · rw [hlen]
    norm_num [delta]
  · rw [hdir]
    have hp : (⟨-5, -5, 0⟩ : Vec3 ℝ) + (((2500 : ℕ) : ℝ) * delta) • (⟨0, 0, 1⟩ : Vec3 ℝ)
        = ⟨-5, -5, 5 / 2⟩ := by
      ext <;> simp [delta]
      norm_num
    rw [hp]
    simp only [shapeDistance]
    rw [signedDistanceSphere_axis isSqrt_real]
    norm_num [delta]

end RayMarcher

namespace RayTracer

section Paths

variable {F : Type}

theorem path_nil_iff (scene : List (Shape F)) (i j : ℤ) : Path scene i [] j ↔ j = i := by
  constructor
  · intro h
    cases h
    rfl
  · rintro rfl
    exact Path.nil _

theorem path_cons_iff (scene : List (Shape F)) (i j : ℤ) (k : ℕ) (steps : List ℕ) :
    Path scene i (k :: steps) j ↔
      ∃ (object : Shape F) (c : ℤ), 0 ≤ i ∧ scene[i.toNat]? = some object ∧
        object.children[k]? = some c ∧ Path scene c steps j := by
  constructor
  · intro h
    cases h with
    | cons _ object _ c _ _ h0 hget hk hp => exact ⟨object, c, h0, hget, hk, hp⟩
  · rintro ⟨object, c, h0, hget, hk, hp⟩
    exact Path.cons i object k c steps j h0 hget hk hp

/-- Paths compose. -/
theorem path_append (scene : List (Shape F)) (i x j : ℤ) (p q : List ℕ)
    (hp : Path scene i p x) (hq : Path scene x q j) : Path scene i (p ++ q) j := by
  induction hp with
  | nil _ => exact hq
  | cons i object k c steps _ h0 hget hk _ ih =>
    exact Path.cons i object k c (steps ++ q) j h0 hget hk (ih hq)

/-- A path splits at every position. -/
theorem path_split (scene : List (Shape F)) (p q : List ℕ) (i j : ℤ)
    (h : Path scene i (p ++ q) j) : ∃ x, Path scene i p x ∧ Path scene x q j := by
  induction p generalizing i with
  | nil => exact ⟨i, Path.nil i, h⟩
  | cons k p ih =>
    rw [List.cons_append, path_cons_iff] at h
    obtain ⟨object, c, h0, hget, hk, hp⟩ := h
    obtain ⟨x, hx1, hx2⟩ := ih c hp
    exact ⟨x, Path.cons i object k c p x h0 hget hk hx1, hx2⟩

/-- The steps determine where a path ends. -/
theorem path_end_unique (scene : List (Shape F)) (p : List ℕ) (i j j' : ℤ)
    (h : Path scene i p j) (h' : Path scene i p j') : j = j' := by
  induction p generalizing i with
  | nil =>
    rw [path_nil_iff] at h h'
    rw [h, h']
  | cons k p ih =>
    rw [path_cons_iff] at h h'
    obtain ⟨object, c, _, hget, hk, hp⟩ := h
    obtain ⟨object', c', _, hget', hk', hp'⟩ := h'
    rw [hget] at hget'
    cases hget'
    rw [hk] at hk'
    cases hk'
    exact ih c hp hp'

/-- Paths only read the child lists. -/
theorem path_congr (a b : List (Shape F))
    (hch : ∀ (j : ℕ) (s : Shape F), a[j]? = some s → ∃ s', b[j]? = some s' ∧
      s'.children = s.children)
    (i j : ℤ) (p : List ℕ) (h : Path a i p j) : Path b i p j := by
  induction h with
  | nil _ => exact Path.nil _
  | cons i object k c steps j h0 hget hk _ ih =>
    obtain ⟨s', hs', hc'⟩ := hch i.toNat object hget
    exact Path.cons i s' k c steps j h0 hs' (by rw [hc']; exact hk) ih

/-- The subtree under a reached index is a tree. -/
theorem isTree_of_path (scene : List (Shape F)) (i x : ℤ) (p : List ℕ)
    (htree : IsTree scene i) (hp : Path scene i p x) : IsTree scene x := by
  refine ⟨?_, ?_⟩
  · intro q j hq
    exact htree.1 (p ++ q) j (path_append scene i x j p q hp hq)
  · intro q q' j hq hq'
    have := htree.2 (p ++ q) (p ++ q') j (path_append scene i x j p q hp hq)
      (path_append scene i x j p q' hp hq')
    exact List.append_cancel_left this

/-- In a tree no path is as long as the scene. -/
theorem path_length_lt (scene : List (Shape F)) (i j : ℤ) (p : List ℕ)
    (htree : IsTree scene i) (hp : Path scene i p j) : p.length < scene.length := by
  by_contra hcon
  push_neg at hcon
  have hpre : ∀ m, m ≤ p.length → ∃ x, Path scene i (p.take m) x := by
    intro m _
    have h := hp
    rw [← List.take_append_drop m p] at h
    obtain ⟨x, hx, _⟩ := path_split scene (p.take m) (p.drop m) i j h
    exact ⟨x, hx⟩
  classical
  let f : ℕ → ℕ := fun m =>
    if h : ∃ x, Path scene i (p.take m) x then (Classical.choose h).toNat else 0
  have hmaps : ∀ m ∈ Finset.range (scene.length + 1), f m ∈ Finset.range scene.length := by
    intro m hm
    rw [Finset.mem_range] at hm ⊢
    have hex := hpre m (by omega)
    simp only [f, dif_pos hex]
    exact (htree.1 _ _ (Classical.choose_spec hex)).2
  obtain ⟨m1, hm1, m2, hm2, hne, heq⟩ :=
    Finset.exists_ne_map_eq_of_card_lt_of_maps_to (by simp) hmaps
  rw [Finset.mem_range] at hm1 hm2
  have hex1 := hpre m1 (by omega)
  have hex2 := hpre m2 (by omega)
  simp only [f, dif_pos hex1, dif_pos hex2] at heq
  have hp1 := Classical.choose_spec hex1
  have hp2 := Classical.choose_spec hex2
  have hx : Classical.choose hex1 = Classical.choose hex2 := by
    have h1 := (htree.1 _ _ hp1).1
    have h2 := (htree.1 _ _ hp2).1
    omega
  rw [hx] at hp1
  have htake := htree.2 _ _ _ hp1 hp2
  have hlen := congrArg List.length htake
  rw [List.length_take, List.length_take] at hlen
  omega

end Paths

end RayTracer

namespace RayTracer

section MovedLemmas

variable {F : Type} [LinearOrderedField F]

theorem moved_congr (v : Vec3 F) (S S' : Set ℕ) (a b : List (Shape F))
    (h : ∀ j, j ∈ S ↔ j ∈ S') (hm : Moved v S a b) : Moved v S' a b := by
  have : S = S' := Set.ext h
  rw [← this]
  exact hm

/-- Writing the translated transform into the shape at index `i` moves that shape only. -/
theorem moved_set (v : Vec3 F) (scene : List (Shape F)) (i : ℕ) (object : Shape F)
    (hget : scene[i]? = some object) :
    Moved v {i} scene
      (scene.set i { object with transform := translate 1 v * object.transform }) := by
  refine ⟨List.length_set _ _ _, ?_⟩
  intro j s hj
  constructor
  · intro hmem
    have hji : j = i := hmem
    subst hji
    rw [hget] at hj
    cases hj
    rw [List.getElem?_set_self' , hget]
    rfl
  · intro hmem
    have hji : i ≠ j := fun h => hmem h.symm
    rw [List.getElem?_set_ne hji]
    exact hj

/-- Moving two disjoint sets of shapes one after the other moves their union. -/
theorem moved_trans (v : Vec3 F) (S S' : Set ℕ) (a b c : List (Shape F))
    (hab : Moved v S a b) (hbc : Moved v S' b c) (hdisj : ∀ j, j ∈ S → j ∈ S' → False) :
    Moved v (S ∪ S') a c := by
  refine ⟨hbc.1.trans hab.1, ?_⟩
  intro j s hj
  classical
  by_cases h1 : j ∈ S
  · have hb := (hab.2 j s hj).1 h1
    have h2 : j ∉ S' := fun h => hdisj j h1 h
    have hc := (hbc.2 j _ hb).2 h2
    exact ⟨fun _ => hc, fun hn => absurd (Or.inl h1) hn⟩
  · have hb := (hab.2 j s hj).2 h1
    constructor
    · intro hmem
      rcases hmem with h | h
      · exact absurd h h1
      · exact (hbc.2 j s hb).1 h
    · intro hn
      exact (hbc.2 j s hb).2 (fun h => hn (Or.inr h))

/-- Moving shapes keeps the child lists, so it keeps the paths. -/
theorem path_iff_of_moved (v : Vec3 F) (S : Set ℕ) (a b : List (Shape F))
    (hm : Moved v S a b) (i j : ℤ) (p : List ℕ) : Path b i p j ↔ Path a i p j := by
  classical
  constructor
  · apply path_congr
    intro k s' hk
    obtain ⟨hlt, hs'⟩ := List.getElem?_eq_some.1 hk
    have hlt' : k < a.length := hm.1 ▸ hlt
    have ha : a[k]? = some a[k] := List.getElem?_eq_getElem hlt'
    refine ⟨a[k], ha, ?_⟩
    by_cases hS : k ∈ S
    · have := (hm.2 k _ ha).1 hS
      rw [hk] at this
      cases this
      rfl
    · have := (hm.2 k _ ha).2 hS
      rw [hk] at this
      cases this
      rfl
  · apply path_congr
    intro k s hk
    by_cases hS : k ∈ S
    · exact ⟨_, (hm.2 k s hk).1 hS, rfl⟩
    · exact ⟨_, (hm.2 k s hk).2 hS, rfl⟩

theorem isTree_of_moved (v : Vec3 F) (S : Set ℕ) (a b : List (Shape F))
    (hm : Moved v S a b) (i : ℤ) (h : IsTree a i) : IsTree b i := by
  refine ⟨?_, ?_⟩
  · intro p j hp
    rw [hm.1]
    exact h.1 p j ((path_iff_of_moved v S a b hm i j p).1 hp)
  · intro p p' j hp hp'
    exact h.2 p p' j ((path_iff_of_moved v S a b hm i j p).1 hp)
      ((path_iff_of_moved v S a b hm i j p').1 hp')

end MovedLemmas

end RayTracer

namespace RayTracer

/-- The indices reached from `i` are `i` itself and the indices reached from its children. -/
theorem reaches_iff {F : Type} (scene : List (Shape F)) (i : ℤ) (object : Shape F) (h0 : 0 ≤ i)
    (hget : scene[i.toNat]? = some object) (j : ℤ) :
    Reaches scene i j ↔
      j = i ∨ ∃ (k : ℕ) (c : ℤ), object.children[k]? = some c ∧ Reaches scene c j := by
  constructor
  · rintro ⟨p, hp⟩
    cases p with
    | nil => exact Or.inl ((path_nil_iff scene i j).1 hp)
    | cons k q =>
      obtain ⟨object', c, _, hget', hk, hq⟩ := (path_cons_iff scene i j k q).1 hp
      rw [hget] at hget'
      cases hget'
      exact Or.inr ⟨k, c, hk, q, hq⟩
  · rintro (rfl | ⟨k, c, hk, q, hq⟩)
    · exact ⟨[], Path.nil _⟩
    · exact ⟨k :: q, Path.cons i object k c q j h0 hget hk hq⟩

section Traversal

variable {F : Type} [LinearOrderedField F]

/-- The loop over the children of `applyTranslation`, started after the children `pre` have
been handled: if each recursive call moves the subtree of its child, the loop moves what
remains of the subtree of `i`. -/
theorem foldlM_children (v : Vec3 F) (fuel : ℕ) (scene : List (Shape F)) (i : ℤ)
    (object : Shape F) (h0 : 0 ≤ i) (hget : scene[i.toNat]? = some object)
    (htree : IsTree scene i)
    (hrec : ∀ (sc : List (Shape F)) (k : ℕ) (c : ℤ), object.children[k]? = some c →
      Moved v {j : ℕ | (j : ℤ) = i ∨ ∃ (k' : ℕ) (c' : ℤ), k' < k ∧
        object.children[k']? = some c' ∧ Reaches scene c' (j : ℤ)} scene sc →
      ∃ sc', applyTranslation fuel sc c v = some sc' ∧
        Moved v {j : ℕ | Reaches scene c (j : ℤ)} sc sc')
    (suf : List ℤ) :
    ∀ (pre : List ℤ) (sc : List (Shape F)), object.children = pre ++ suf →
      Moved v {j : ℕ | (j : ℤ) = i ∨ ∃ (k' : ℕ) (c' : ℤ), k' < pre.length ∧
        object.children[k']? = some c' ∧ Reaches scene c' (j : ℤ)} scene sc →
      ∃ sc', suf.foldlM (fun s childIndex => applyTranslation fuel s childIndex v) sc
          = some sc' ∧
        Moved v {j : ℕ | Reaches scene i (j : ℤ)} scene sc' := by
  induction suf with
  | nil =>
    intro pre sc hpre hm
    refine ⟨sc, rfl, moved_congr v _ _ scene sc ?_ hm⟩
    intro j
    simp only [Set.mem_setOf_eq]
    rw [reaches_iff scene i object h0 hget]
    rw [List.append_nil] at hpre
    constructor
    · rintro (h | ⟨k', c', _, hk', hr⟩)
      · exact Or.inl h
      · exact Or.inr ⟨k', c', hk', hr⟩
    · rintro (h | ⟨k', c', hk', hr⟩)
      · exact Or.inl h
      · refine Or.inr ⟨k', c', ?_, hk', hr⟩
        rw [← hpre]
        exact (List.getElem?_eq_some.1 hk').1
  | cons c suf ih =>
    intro pre sc hpre hm
    have hk : object.children[pre.length]? = some c := by
      rw [hpre, List.getElem?_append_right (le_refl _), Nat.sub_self]
      exact List.getElem?_cons_zero
    obtain ⟨sc1, hsc1, hm1⟩ := hrec sc pre.length c hk hm
    have hdisj : ∀ j : ℕ, j ∈ {j : ℕ | (j : ℤ) = i ∨ ∃ (k' : ℕ) (c' : ℤ), k' < pre.length ∧
        object.children[k']? = some c' ∧ Reaches scene c' (j : ℤ)} →
        j ∈ {j : ℕ | Reaches scene c (j : ℤ)} → False := by
      intro j h1 h2
      simp only [Set.mem_setOf_eq] at h1 h2
      obtain ⟨q, hq⟩ := h2
      have hpath : Path scene i (pre.length :: q) j :=
        Path.cons i object pre.length c q j h0 hget hk hq
      rcases h1 with h1 | ⟨k', c', hlt, hk', q', hq'⟩
      · rw [h1] at hpath
        have := htree.2 _ _ _ hpath (Path.nil i)
        cases this
      · have hpath' : Path scene i (k' :: q') j :=
          Path.cons i object k' c' q' j h0 hget hk' hq'
        have := htree.2 _ _ _ hpath hpath'
        simp only [List.cons.injEq] at this
        omega
    have hm2 := moved_trans v _ _ scene sc sc1 hm hm1 hdisj
    have hm3 : Moved v {j : ℕ | (j : ℤ) = i ∨ ∃ (k' : ℕ) (c' : ℤ),
        k' < (pre ++ [c]).length ∧ object.children[k']? = some c' ∧
        Reaches scene c' (j : ℤ)} scene sc1 := by
      refine moved_congr v _ _ scene sc1 ?_ hm2
      intro j
      simp only [Set.mem_union, Set.mem_setOf_eq, List.length_append, List.length_singleton]
      constructor
      · rintro ((h | ⟨k', c', hlt, hk', hr⟩) | hr)
        · exact Or.inl h
        · exact Or.inr ⟨k', c', by omega, hk', hr⟩
        · exact Or.inr ⟨pre.length, c, by omega, hk, hr⟩
      · rintro (h | ⟨k', c', hlt, hk', hr⟩)
        · exact Or.inl (Or.inl h)
        · rcases Nat.lt_succ_iff_lt_or_eq.1 hlt with hlt' | heq
          · exact Or.inl (Or.inr ⟨k', c', hlt', hk', hr⟩)
          · subst heq
            rw [hk] at hk'
            cases hk'
            exact Or.inr hr
    obtain ⟨sc', hsc', hm'⟩ := ih (pre ++ [c]) sc1 (by rw [hpre]; simp) hm3
    refine ⟨sc', ?_, hm'⟩
    rw [List.foldlM_cons, hsc1]
    exact hsc'

/-- With a bound on the length of the paths from `i`, `applyTranslation` on a tree returns
and moves exactly the shapes reached from `i`. -/
theorem applyTranslation_moved (v : Vec3 F) (h : ℕ) :
    ∀ (scene : List (Shape F)) (i : ℤ), IsTree scene i →
      (∀ p j, Path scene i p j → p.length < h) →
      ∀ fuel, h ≤ fuel →
        ∃ scene', applyTranslation fuel scene i v = some scene' ∧
          Moved v {j : ℕ | Reaches scene i (j : ℤ)} scene scene' := by
  induction h with
  | zero =>
    intro scene i _ hdepth
    exact absurd (hdepth [] i (Path.nil i)) (Nat.lt_irrefl 0)
  | succ h ih =>
    intro scene i htree hdepth fuel hfuel
    obtain ⟨f, rfl⟩ : ∃ f, fuel = f + 1 := ⟨fuel - 1, by omega⟩
    obtain ⟨h0, hlt⟩ := htree.1 [] i (Path.nil i)
    have hget : scene[i.toNat]? = some scene[i.toNat] := List.getElem?_eq_getElem hlt
    have hm0 : Moved v {j : ℕ | (j : ℤ) = i ∨ ∃ (k' : ℕ) (c' : ℤ), k' < ([] : List ℤ).length ∧
        (scene[i.toNat]).children[k']? = some c' ∧ Reaches scene c' (j : ℤ)} scene
        (scene.set i.toNat { scene[i.toNat] with
          transform := translate 1 v * (scene[i.toNat]).transform }) := by
      refine moved_congr v _ _ scene _ ?_ (moved_set v scene i.toNat _ hget)
      intro j
      simp only [Set.mem_singleton_iff, Set.mem_setOf_eq, List.length_nil, Nat.not_lt_zero,
        false_and, exists_false, or_false]
      omega
    have hrec : ∀ (sc : List (Shape F)) (k : ℕ) (c : ℤ),
        (scene[i.toNat]).children[k]? = some c →
        Moved v {j : ℕ | (j : ℤ) = i ∨ ∃ (k' : ℕ) (c' : ℤ), k' < k ∧
          (scene[i.toNat]).children[k']? = some c' ∧ Reaches scene c' (j : ℤ)} scene sc →
        ∃ sc', applyTranslation f sc c v = some sc' ∧
          Moved v {j : ℕ | Reaches scene c (j : ℤ)} sc sc' := by
      intro sc k c hk hm
      have hpc : Path scene i [k] c := Path.cons i _ k c [] c h0 hget hk (Path.nil c)
      have htc : IsTree sc c := isTree_of_moved v _ scene sc hm c
        (isTree_of_path scene i c [k] htree hpc)
      have hdc : ∀ p j, Path sc c p j → p.length < h := by
        intro p j hp
        have hp' := (path_iff_of_moved v _ scene sc hm c j p).1 hp
        have := hdepth (k :: p) j (Path.cons i _ k c p j h0 hget hk hp')
        simpa using this
      obtain ⟨sc', hsc', hm'⟩ := ih sc c htc hdc f (by omega)
      refine ⟨sc', hsc', moved_congr v _ _ sc sc' ?_ hm'⟩
      intro j
      simp only [Set.mem_setOf_eq]
      constructor
      · rintro ⟨p, hp⟩
        exact ⟨p, (path_iff_of_moved v _ scene sc hm c j p).1 hp⟩
      · rintro ⟨p, hp⟩
        exact ⟨p, (path_iff_of_moved v _ scene sc hm c j p).2 hp⟩
    obtain ⟨scene', hres, hm'⟩ := foldlM_children v f scene i _ h0 hget htree hrec
      (scene[i.toNat]).children [] _ (by simp) hm0
    refine ⟨scene', ?_, hm'⟩
    unfold applyTranslation
    rw [if_neg (not_lt.2 h0), hget]
    exact hres

end Traversal

end RayTracer

namespace RayTracer

section TranslationClaim

variable {F : Type} [LinearOrderedField F]

/-- C19: for every scene in which the child lists under index `i` form a tree (no shape
reachable twice from `i`), `applyTranslation(scene, i, v)` returns (the recursion is not
deeper than the scene is long) and replaces the transform `M` of shape `i` and of every
descendant of `i` by `translate(v) * M`, and leaves the transform of every other shape, and
every non-transform field of every shape, unchanged. -/
theorem applyTranslation_tree (scene : List (Shape F)) (i : ℤ) (v : Vec3 F)
    (htree : IsTree scene i) (fuel : ℕ) (hfuel : scene.length ≤ fuel) :
    ∃ scene', applyTranslation fuel scene i v = some scene' ∧
      scene'.length = scene.length ∧
      ∀ (j : ℕ) (s : Shape F), scene[j]? = some s →
        (Reaches scene i (j : ℤ) →
          scene'[j]? = some { s with transform := translate 1 v * s.transform }) ∧
        (¬ Reaches scene i (j : ℤ) → scene'[j]? = some s) := by
  obtain ⟨scene', h1, h2, h3⟩ := applyTranslation_moved v scene.length scene i htree
    (fun p j hp => path_length_lt scene i j p htree hp) fuel hfuel
  exact ⟨scene', h1, h2, h3⟩

end TranslationClaim

/-- The matrix `glm::translate(mat4(1), v)`. -/
theorem translate_one {F : Type} [LinearOrderedField F] (v : Vec3 F) :
    translate 1 v = !![1, 0, 0, v.x; 0, 1, 0, v.y; 0, 0, 1, v.z; 0, 0, 0, 1] := by
  ext r c
  fin_cases r <;> fin_cases c <;>
    simp [translate, Matrix.one_apply, Matrix.vecHead, Matrix.vecTail]

/-- In the scene of three spheres in which the first has the second as its only child, the
paths from index 0 are the empty one and the one to index 1. -/
theorem three_spheres_paths (steps : List ℕ) (j : ℤ)
    (hp : Path
      ([⟨.sphere ⟨⟨0, 0, 0⟩, 1, ⟨1, 0, 0⟩⟩, ⟨1, 0, 0⟩, 1, [1]⟩,
        ⟨.sphere ⟨⟨2, 0, 0⟩, 1, ⟨0, 1, 0⟩⟩, ⟨0, 1, 0⟩, 1, []⟩,
        ⟨.sphere ⟨⟨4, 0, 0⟩, 1, ⟨0, 0, 1⟩⟩, ⟨0, 0, 1⟩, 1, []⟩] : List (Shape ℚ))
      0 steps j) :
    (steps = [] ∧ j = 0) ∨ (steps = [0] ∧ j = 1) := by
  cases steps with
  | nil => exact Or.inl ⟨rfl, (path_nil_iff _ _ _).1 hp⟩
  | cons k q =>
    obtain ⟨object, c, _, hget, hk, hq⟩ := (path_cons_iff _ _ _ _ _).1 hp
    simp only [Int.toNat_zero, List.getElem?_cons_zero, Option.some.injEq] at hget
    subst hget
    cases k with
    | succ k => simp at hk
    | zero =>
      simp only [List.getElem?_cons_zero, Option.some.injEq] at hk
      subst hk
      cases q with
      | nil => exact Or.inr ⟨rfl, (path_nil_iff _ _ _).1 hq⟩
      | cons k' q' =>
        obtain ⟨object', c', _, hget', hk', _⟩ := (path_cons_iff _ _ _ _ _).1 hq
        simp at hget'
        subst hget'
        simp at hk'

/-- Witness for C19: the translation by `(1/2, 0, 0)` of shape 0 in a scene of three
spheres in which shape 1 is the only child of shape 0: shape 1 is moved, shape 2 is not. -/
theorem applyTranslation_tree_witness :
    ∃ scene' : List (Shape ℚ), applyTranslation 3
        [⟨.sphere ⟨⟨0, 0, 0⟩, 1, ⟨1, 0, 0⟩⟩, ⟨1, 0, 0⟩, 1, [1]⟩,
          ⟨.sphere ⟨⟨2, 0, 0⟩, 1, ⟨0, 1, 0⟩⟩, ⟨0, 1, 0⟩, 1, []⟩,
          ⟨.sphere ⟨⟨4, 0, 0⟩, 1, ⟨0, 0, 1⟩⟩, ⟨0, 0, 1⟩, 1, []⟩] 0 ⟨1 / 2, 0, 0⟩ = some scene' ∧
      scene'.length = 3 ∧
      scene'[1]? = some ⟨.sphere ⟨⟨2, 0, 0⟩, 1, ⟨0, 1, 0⟩⟩, ⟨0, 1, 0⟩,
        translate 1 ⟨1 / 2, 0, 0⟩ * 1, []⟩ ∧
      scene'[2]? = some ⟨.sphere ⟨⟨4, 0, 0⟩, 1, ⟨0, 0, 1⟩⟩, ⟨0, 0, 1⟩, 1, []⟩ := by
  have htree : IsTree
      ([⟨.sphere ⟨⟨0, 0, 0⟩, 1, ⟨1, 0, 0⟩⟩, ⟨1, 0, 0⟩, 1, [1]⟩,
        ⟨.sphere ⟨⟨2, 0, 0⟩, 1, ⟨0, 1, 0⟩⟩, ⟨0, 1, 0⟩, 1, []⟩,
        ⟨.sphere ⟨⟨4, 0, 0⟩, 1, ⟨0, 0, 1⟩⟩, ⟨0, 0, 1⟩, 1, []⟩] : List (Shape ℚ)) 0 := by
    constructor
    · intro steps j hp
      rcases three_spheres_paths steps j hp with ⟨_, rfl⟩ | ⟨_, rfl⟩ <;> simp
    · intro steps steps' j hp hp'
      rcases three_spheres_paths steps j hp with ⟨rfl, rfl⟩ | ⟨rfl, rfl⟩ <;>
        rcases three_spheres_paths steps' _ hp' with ⟨rfl, h⟩ | ⟨rfl, h⟩ <;>
        first | rfl | (exfalso; revert h; norm_num)
  obtain ⟨scene', h1, h2, h3⟩ := applyTranslation_tree _ 0 (⟨1 / 2, 0, 0⟩ : Vec3 ℚ) htree 3
    (by simp)
  refine ⟨scene', h1, h2, ?_, ?_⟩
  · exact (h3 1 _ rfl).1 ⟨[0], Path.cons 0 _ 0 1 [] 1 le_rfl rfl rfl (Path.nil 1)⟩
  · refine (h3 2 _ rfl).2 ?_
    rintro ⟨steps, hp⟩
    rcases three_spheres_paths steps _ hp with ⟨_, h⟩ | ⟨_, h⟩ <;> revert h <;> norm_num

end RayTracer

namespace RayTracer

section SphereSound

variable {F : Type} [LinearOrderedField F]

/-- C26: for every sphere and every ray with unit direction, whenever `intersectSphere`
returns true the reported `t` satisfies `t >= 0` and the point `origin + t * direction` lies
on the surface of the sphere, `|origin + t * direction - center| = radius`. -/
theorem intersectSphere_sound (sqrt : F → F) (hs : IsSqrt sqrt) (rayOrigin rayDirection : Vec3 F)
    (sphere : Sphere F) (hunit : Vec3.length sqrt rayDirection = 1) (t : F) (normal : Vec3 F)
    (h : intersectSphere sqrt rayOrigin rayDirection sphere = some (t, normal)) :
    0 ≤ t ∧
      Vec3.length sqrt (rayOrigin + t • rayDirection - sphere.center) = sphere.radius := by
  have hd := dot_eq_one_of_length hs rayDirection hunit
  have hcd := closest_dot rayOrigin rayDirection sphere.center hd
  have hpd := point_dot rayOrigin rayDirection sphere.center t hd
  have hnn := Vec3.dot_self_nonneg
    (rayOrigin + Vec3.dot (sphere.center - rayOrigin) rayDirection • rayDirection
      - sphere.center)
  have hdc0 := hs.nonneg hnn
  have hdc2 := hs.mul_self hnn
  unfold intersectSphere Vec3.length at h
  simp only [] at h
  split_ifs at h with h1 h2
  simp only [Option.some.injEq, Prod.mk.injEq] at h
  obtain ⟨ht, _⟩ := h
  have hr : 0 ≤ sphere.radius := hdc0.trans h1
  have hrad : 0 ≤ sphere.radius * sphere.radius
      - sqrt (Vec3.dot
          (rayOrigin + Vec3.dot (sphere.center - rayOrigin) rayDirection • rayDirection
            - sphere.center)
          (rayOrigin + Vec3.dot (sphere.center - rayOrigin) rayDirection • rayDirection
            - sphere.center))
        * sqrt (Vec3.dot
          (rayOrigin + Vec3.dot (sphere.center - rayOrigin) rayDirection • rayDirection
            - sphere.center)
          (rayOrigin + Vec3.dot (sphere.center - rayOrigin) rayDirection • rayDirection
            - sphere.center)) := by
    nlinarith
  have hroot := hs.mul_self hrad
  refine ⟨ht ▸ h2, ?_⟩
  unfold Vec3.length
  apply hs.eq_of_mul_self hr
  rw [hpd, ← hcd, ← ht]
  linear_combination -hroot + hdc2

end SphereSound

/-- The ray from `(0, 0, 5)` along `(0, 0, -1)` at the unit sphere around the origin is
reported at `t = 4`. -/
theorem intersectSphere_axis {F : Type} [LinearOrderedField F] {sqrt : F → F}
    (hs : IsSqrt sqrt) (col : Vec3 F) :
    ∃ normal, intersectSphere sqrt (⟨0, 0, 5⟩ : Vec3 F) ⟨0, 0, -1⟩ ⟨⟨0, 0, 0⟩, 1, col⟩
      = some (4, normal) := by
  have hcp : (⟨0, 0, 5⟩ : Vec3 F) + (5 : F) • (⟨0, 0, -1⟩ : Vec3 F) - ⟨0, 0, 0⟩
      = ⟨0, 0, 0⟩ := by
    ext <;> simp
  have hproj : Vec3.dot ((⟨0, 0, 0⟩ : Vec3 F) - ⟨0, 0, 5⟩) ⟨0, 0, -1⟩ = 5 := by
    simp [Vec3.dot]
  have hzero : Vec3.dot (⟨0, 0, 0⟩ : Vec3 F) ⟨0, 0, 0⟩ = 0 := by simp [Vec3.dot]
  refine ⟨Vec3.normalize sqrt ⟨0, 0, 0⟩, ?_⟩
  unfold intersectSphere Vec3.length
  simp only [hproj, hcp, hzero, hs.sqrt_zero]
  rw [if_pos zero_le_one]
  have h1 : (1 : F) * 1 - 0 * 0 = 1 := by ring
  rw [h1, hs.sqrt_one, if_pos (by norm_num)]
  norm_num

/-- Witness for C26: the ray from `(0, 0, 5)` along `(0, 0, -1)` at the unit sphere around
the origin, which `intersectSphere` reports at `t = 4`. -/
theorem intersectSphere_sound_witness :
    0 ≤ (4 : ℝ) ∧
      Vec3.length Real.sqrt ((⟨0, 0, 5⟩ : Vec3 ℝ) + (4 : ℝ) • (⟨0, 0, -1⟩ : Vec3 ℝ)
        - (⟨0, 0, 0⟩ : Vec3 ℝ)) = 1 :=
  let ⟨normal, h⟩ := intersectSphere_axis isSqrt_real (⟨1, 0, 0⟩ : Vec3 ℝ)
  intersectSphere_sound Real.sqrt isSqrt_real (⟨0, 0, 5⟩ : Vec3 ℝ) ⟨0, 0, -1⟩
    ⟨⟨0, 0, 0⟩, 1, ⟨1, 0, 0⟩⟩ (by simp [Vec3.length, Vec3.dot]) 4 normal h

end RayTracer

namespace RayMarcher

section Progress

variable {F : Type} [LinearOrderedField F] [FloorRing F]

end Progress

end RayMarcher

namespace RayMarcher

section ColorRange

variable {F : Type} [LinearOrderedField F]

/-- A clamped channel that is at least `1/10` before clamping. -/
theorem clamp_ambient_range (a : F) (ha : 1 / 10 ≤ a) :
    1 / 10 ≤ clamp a 0 1 ∧ clamp a 0 1 ≤ 1 := by
  unfold clamp
  constructor
  · exact le_min (le_max_of_le_left ha) (by norm_num)
  · exact min_le_right _ _

/-- The colour formula gives channels between `0.1` and `1` for a shape colour without
negative channels. -/
theorem unshadowedColor_within (sqrt : F → F) (cam : Vec3 F) (shape : Shape F) (p : Vec3 F)
    (hcol : Vec3.Within 0 1 shape.color) :
    Vec3.Within (1 / 10) 1 (unshadowedColor sqrt cam shape p) := by
  obtain ⟨⟨hx, _⟩, ⟨hy, _⟩, ⟨hz, _⟩⟩ := hcol
  unfold unshadowedColor
  simp only []
  generalize Vec3.dot (normalVector sqrt p shape)
    (Vec3.normalize sqrt (lightPosition - p)) = dd
  generalize Vec3.dot (Vec3.normalize sqrt (cam - p))
    (Vec3.reflect (-Vec3.normalize sqrt (lightPosition - p)) (normalVector sqrt p shape)) = ss
  have hd : (0 : F) ≤ max 0 dd := le_max_left _ _
  have hsp : (0 : F) ≤ max 0 ss ^ 10 := pow_nonneg (le_max_left _ _) 10
  unfold Vec3.Within clampVec
  simp only [Vec3.add_x, Vec3.add_y, Vec3.add_z, Vec3.mul_x, Vec3.mul_y, Vec3.mul_z,
    Vec3.smul_x, Vec3.smul_y, Vec3.smul_z, ambientColor, lightColor, specularColor]
  refine ⟨clamp_ambient_range _ ?_, clamp_ambient_range _ ?_, clamp_ambient_range _ ?_⟩
  · nlinarith [mul_nonneg hd hx]
  · nlinarith [mul_nonneg hd hy]
  · nlinarith [mul_nonneg hd hz]

/-- Attenuation by `0.2` maps the range `[0.1, 1]` to `[0.02, 0.2]`. -/
theorem attenuated_within (c : Vec3 F) (h : Vec3.Within (1 / 10) 1 c) :
    Vec3.Within (1 / 50) (1 / 5) ((1 / 5 : F) • c) := by
  obtain ⟨⟨hx1, hx2⟩, ⟨hy1, hy2⟩, ⟨hz1, hz2⟩⟩ := h
  unfold Vec3.Within
  simp only [Vec3.smul_x, Vec3.smul_y, Vec3.smul_z]
  refine ⟨⟨?_, ?_⟩, ⟨?_, ?_⟩, ⟨?_, ?_⟩⟩ <;> linarith

theorem within_mono {a b a' b' : F} (c : Vec3 F) (h : Vec3.Within a b c) (ha : a' ≤ a)
    (hb : b ≤ b') : Vec3.Within a' b' c := by
  obtain ⟨⟨hx1, hx2⟩, ⟨hy1, hy2⟩, ⟨hz1, hz2⟩⟩ := h
  exact ⟨⟨ha.trans hx1, hx2.trans hb⟩, ⟨ha.trans hy1, hy2.trans hb⟩,
    ⟨ha.trans hz1, hz2.trans hb⟩⟩

/-- The byte written for a channel between `0.02` and `1`. -/
theorem toByte_range [FloorRing F] (c : F) (h1 : 1 / 50 ≤ c) (h2 : c ≤ 1) :
    5 ≤ toByte c ∧ toByte c ≤ 255 := by
  unfold toByte
  have hlo : ((5 : ℕ) : F) ≤ c * 255 := by
    push_cast
    linarith
  have hhi : c * 255 ≤ ((255 : ℕ) : F) := by
    push_cast
    linarith
  have h5 : 5 ≤ ⌊c * 255⌋₊ := Nat.le_floor hlo
  have h255 : ⌊c * 255⌋₊ ≤ 255 := Nat.floor_le_of_le hhi
  rw [Nat.mod_eq_of_lt (by omega)]
  exact ⟨h5, h255⟩

end ColorRange

section PixelColor

variable {F : Type} [LinearOrderedField F] [FloorRing F]

/-- The colour the lighting block assigns: within `[0.1, 1]` without shadow, within
`[0.02, 0.2]` in shadow. -/
theorem lighting_within (sqrt : F → F) (cam : Vec3 F) (scene : List (Shape F)) (idx : ℕ)
    (shape : Shape F) (p : Vec3 F) (hcol : Vec3.Within 0 1 shape.color) :
    (inShadow sqrt scene idx p = false →
      Vec3.Within (1 / 10) 1 (lighting sqrt cam scene idx shape p)) ∧
    (inShadow sqrt scene idx p = true →
      Vec3.Within (1 / 50) (1 / 5) (lighting sqrt cam scene idx shape p)) := by
  have h := unshadowedColor_within sqrt cam shape p hcol
  unfold lighting
  simp only []
  constructor
  · intro hs
    rw [hs]
    exact h
  · intro hs
    rw [hs]
    exact attenuated_within _ h

/-- Once `colorPicked` is set, the colour is the shading of a shape of the scene. -/
theorem foldl_shapeStep_shaded (sqrt : F → F) (cam dir : Vec3 F) (scene : List (Shape F))
    (l : List (ℕ × Shape F)) (hl : ∀ e ∈ l, scene[e.1]? = some e.2) (st : MarchState F)
    (hst : st.colorPicked = true →
      ∃ (i : ℕ) (shape : Shape F) (p : Vec3 F), scene[i]? = some shape ∧
        st.color = lighting sqrt cam scene i shape p) :
    (l.foldl (shapeStep sqrt cam dir scene) st).colorPicked = true →
      ∃ (i : ℕ) (shape : Shape F) (p : Vec3 F), scene[i]? = some shape ∧
        (l.foldl (shapeStep sqrt cam dir scene) st).color
          = lighting sqrt cam scene i shape p := by
  induction l generalizing st with
  | nil => exact hst
  | cons e l ih =>
    rw [List.foldl_cons]
    apply ih (fun e2 he2 => hl e2 (List.mem_cons_of_mem _ he2))
    unfold shapeStep
    simp only []
    split_ifs
    · intro _
      exact ⟨e.1, e.2, _, hl e (List.mem_cons_self _ _), rfl⟩
    · exact hst
    · exact hst

theorem marchState_shaded (sqrt : F → F) (cam dir : Vec3 F) (scene : List (Shape F)) (k : ℕ) :
    (marchState sqrt cam dir scene k).colorPicked = true →
      ∃ (i : ℕ) (shape : Shape F) (p : Vec3 F), scene[i]? = some shape ∧
        (marchState sqrt cam dir scene k).color = lighting sqrt cam scene i shape p := by
  induction k with
  | zero =>
    intro h
    rw [marchState_zero] at h
    cases h
  | succ k ih =>
    rw [marchState_succ]
    unfold marchBody
    simp only []
    exact foldl_shapeStep_shaded sqrt cam dir scene scene.enum
      (fun e he => (List.mk_mem_enum_iff_getElem?).1 he) _ ih

/-- C22: for every hit on a shape whose colour channels lie in `[0, 1]`, every channel of
the colour assigned lies in `[0.1, 1]` when the point is not in shadow and in `[0.02, 0.2]`
when it is; so the pixel of a ray that hits is never background black, each of its channels
lies in `[0.02, 1]`, and the value written to the image (channel * 255 truncated) lies in
`5..255`. -/
theorem shaded_color_range (sqrt : F → F) (cameraPosition : Vec3 F) (scene : List (Shape F))
    (hcol : ∀ shape ∈ scene, Vec3.Within 0 1 shape.color) :
    (∀ (idx : ℕ) (shape : Shape F) (p : Vec3 F), shape ∈ scene →
      (inShadow sqrt scene idx p = false →
        Vec3.Within (1 / 10) 1 (lighting sqrt cameraPosition scene idx shape p)) ∧
      (inShadow sqrt scene idx p = true →
        Vec3.Within (1 / 50) (1 / 5) (lighting sqrt cameraPosition scene idx shape p))) ∧
    (∀ rayDirection : Vec3 F,
      (march sqrt cameraPosition rayDirection scene).colorPicked = true →
      Vec3.Within (1 / 50) 1 (march sqrt cameraPosition rayDirection scene).color ∧
      (march sqrt cameraPosition rayDirection scene).color ≠ ⟨0, 0, 0⟩ ∧
      (5 ≤ toByte (march sqrt cameraPosition rayDirection scene).color.x ∧
        toByte (march sqrt cameraPosition rayDirection scene).color.x ≤ 255) ∧
      (5 ≤ toByte (march sqrt cameraPosition rayDirection scene).color.y ∧
        toByte (march sqrt cameraPosition rayDirection scene).color.y ≤ 255) ∧
      (5 ≤ toByte (march sqrt cameraPosition rayDirection scene).color.z ∧
        toByte (march sqrt cameraPosition rayDirection scene).color.z ≤ 255)) := by
  constructor
  · intro idx shape p hmem
    exact lighting_within sqrt cameraPosition scene idx shape p (hcol shape hmem)
  · intro rayDirection hpicked
    obtain ⟨K, _, _, _, heq⟩ := march_stops sqrt cameraPosition rayDirection scene
    rw [heq] at hpicked ⊢
    obtain ⟨i, shape, p, hi, hc⟩ :=
      marchState_shaded sqrt cameraPosition rayDirection scene K hpicked
    rw [hc]
    have hl := lighting_within sqrt cameraPosition scene i shape p
      (hcol shape (List.getElem?_mem hi))
    have hw : Vec3.Within (1 / 50) 1 (lighting sqrt cameraPosition scene i shape p) := by
      cases hsh : inShadow sqrt scene i p with
      | false => exact within_mono _ (hl.1 hsh) (by norm_num) le_rfl
      | true => exact within_mono _ (hl.2 hsh) le_rfl (by norm_num)
    refine ⟨hw, ?_, toByte_range _ hw.1.1 hw.1.2, toByte_range _ hw.2.1.1 hw.2.1.2,
      toByte_range _ hw.2.2.1 hw.2.2.2⟩
    intro h0
    have hx := hw.1.1
    rw [h0] at hx
    norm_num at hx

end PixelColor

/-- Witness for C22: the centre ray at the red unit sphere around the origin, seen from
`(0, 0, 5)`. -/
theorem shaded_color_range_witness :
    5 ≤ toByte (march Real.sqrt (⟨0, 0, 5⟩ : Vec3 ℝ) ⟨0, 0, -1⟩
        [⟨.sphere ⟨⟨0, 0, 0⟩, 1, ⟨1, 0, 0⟩⟩, ⟨1, 0, 0⟩, 1, []⟩]).color.y ∧
      toByte (march Real.sqrt (⟨0, 0, 5⟩ : Vec3 ℝ) ⟨0, 0, -1⟩
        [⟨.sphere ⟨⟨0, 0, 0⟩, 1, ⟨1, 0, 0⟩⟩, ⟨1, 0, 0⟩, 1, []⟩]).color.y ≤ 255 := by
  have hpicked : (march Real.sqrt (⟨0, 0, 5⟩ : Vec3 ℝ) ⟨0, 0, -1⟩
      [⟨.sphere ⟨⟨0, 0, 0⟩, 1, ⟨1, 0, 0⟩⟩, ⟨1, 0, 0⟩, 1, []⟩]).colorPicked = true := by
    obtain ⟨h1, h2⟩ := centre_states isSqrt_real (⟨1, 0, 0⟩ : Vec3 ℝ)
    have hm : march Real.sqrt (⟨0, 0, 5⟩ : Vec3 ℝ) ⟨0, 0, -1⟩
        [⟨.sphere ⟨⟨0, 0, 0⟩, 1, ⟨1, 0, 0⟩⟩, ⟨1, 0, 0⟩, 1, []⟩]
        = marchState Real.sqrt (⟨0, 0, 5⟩ : Vec3 ℝ) ⟨0, 0, -1⟩
          [⟨.sphere ⟨⟨0, 0, 0⟩, 1, ⟨1, 0, 0⟩⟩, ⟨1, 0, 0⟩, 1, []⟩] 2 := by
      apply march_eq_marchState
      · intro j hj
        interval_cases j
        · rw [marchState_zero]; simp [marchCond, initialState, maxIterations, maxDistance]
        · rw [h1]; simp [marchCond, maxIterations, maxDistance]; norm_num
      · rw [h2]; simp [marchCond]
    rw [hm, h2]
  exact ((shaded_color_range Real.sqrt (⟨0, 0, 5⟩ : Vec3 ℝ)
    [⟨.sphere ⟨⟨0, 0, 0⟩, 1, ⟨1, 0, 0⟩⟩, ⟨1, 0, 0⟩, 1, []⟩]
    (by
      intro shape hmem
      rw [List.mem_singleton.1 hmem]
      unfold Vec3.Within
      norm_num)).2 ⟨0, 0, -1⟩ hpicked).2.2.2.1

end RayMarcher

namespace RayMarcher

section CylinderCap

variable {F : Type} [LinearOrderedField F]

/-- The vector `d` of the lighting block for the cylinder of radius 1 and height 2 around
the origin, at a point `(1/2, y, 0)`. -/
theorem cylinderExcess_half {sqrt : F → F} (hs : IsSqrt sqrt) (y : F) (col : Vec3 F) :
    cylinderExcess sqrt (⟨1 / 2, y, 0⟩ : Vec3 F) ⟨⟨0, 0, 0⟩, 1, 2, col⟩ = ⟨-(1 / 2), |y| - 1⟩ := by
  have h4 : sqrt ((1 : F) / 4) = 1 / 2 := hs.eq_of_mul_self (by norm_num) (by norm_num)
  unfold cylinderExcess Vec2.length
  simp only [sub_zero, mul_zero, add_zero]
  have h : (1 : F) / 2 * (1 / 2) = 1 / 4 := by norm_num
  rw [h, h4, abs_of_pos (by norm_num : (0 : F) < 1 / 2)]
  congr 1 <;> norm_num

/-- On the cap of that cylinder, half way between the axis and the rim, the lighting block
uses the horizontal radial vector. -/
theorem normalVector_cap {sqrt : F → F} (hs : IsSqrt sqrt) (col : Vec3 F) :
    normalVector sqrt (⟨1 / 2, 1, 0⟩ : Vec3 F) ⟨.cylinder ⟨⟨0, 0, 0⟩, 1, 2, col⟩, col, 1, []⟩
      = ⟨1, 0, 0⟩ := by
  have h4 : sqrt ((1 : F) / 4) = 1 / 2 := hs.eq_of_mul_self (by norm_num) (by norm_num)
  have he : ¬ (1 : F) / 2 < EPSILON := by unfold EPSILON; norm_num
  have hlen : Vec2.length sqrt (⟨-(1 / 2), |(1 : F)| - 1⟩ : Vec2 F) = 1 / 2 := by
    unfold Vec2.length
    simp only [abs_one, sub_self, mul_zero, add_zero]
    have h : -((1 : F) / 2) * -(1 / 2) = 1 / 4 := by norm_num
    rw [h, h4]
  simp only [normalVector]
  rw [cylinderExcess_half hs, hlen, if_neg he]
  simp only [Vec3.normalize, Vec3.dot, sub_zero, mul_zero, add_zero]
  have h : (1 : F) / 2 * (1 / 2) = 1 / 4 := by norm_num
  rw [h, h4]
  ext <;> simp

/-- The signed distance to that cylinder from a point `(1/2, y, 0)` at or above the cap. -/
theorem shapeDistance_above_cap {sqrt : F → F} (hs : IsSqrt sqrt) (y : F) (hy : 1 ≤ y)
    (col : Vec3 F) :
    shapeDistance sqrt (⟨1 / 2, y, 0⟩ : Vec3 F) ⟨.cylinder ⟨⟨0, 0, 0⟩, 1, 2, col⟩, col, 1, []⟩
      = y - 1 := by
  have hy0 : 0 ≤ y - 1 := by linarith
  simp only [shapeDistance, signedDistanceCylinder]
  rw [cylinderExcess_half hs, abs_of_nonneg (by linarith : (0 : F) ≤ y)]
  simp only [Vec2.length]
  rw [max_eq_right (by norm_num : -((1 : F) / 2) ≤ 0), max_eq_left hy0,
    max_eq_right (by linarith : -((1 : F) / 2) ≤ y - 1), min_eq_right hy0, mul_zero, zero_add,
    hs.sqrt_mul_self hy0, add_zero]

end CylinderCap

section CylinderRay

variable {F : Type} [LinearOrderedField F] [FloorRing F]

/-- The ray from `(1/2, 5, 0)` straight down at that cylinder: the first pass advances by 4
and the second pass starts on the cap, at `(1/2, 1, 0)`. -/
theorem cap_states {sqrt : F → F} (hs : IsSqrt sqrt) (col : Vec3 F) :
    marchState sqrt (⟨1 / 2, 5, 0⟩ : Vec3 F) ⟨0, -1, 0⟩
        [⟨.cylinder ⟨⟨0, 0, 0⟩, 1, 2, col⟩, col, 1, []⟩] 1 = ⟨4, 4, ⟨0, 0, 0⟩, false, 1⟩ ∧
    marchPoint sqrt (⟨1 / 2, 5, 0⟩ : Vec3 F) ⟨0, -1, 0⟩
        [⟨.cylinder ⟨⟨0, 0, 0⟩, 1, 2, col⟩, col, 1, []⟩] 1 = ⟨1 / 2, 1, 0⟩ := by
  have hp0 : (⟨1 / 2, 5, 0⟩ : Vec3 F) + (0 : F) • (⟨0, -1, 0⟩ : Vec3 F) = ⟨1 / 2, 5, 0⟩ := by
    ext <;> simp
  have hd0 := shapeDistance_above_cap hs (5 : F) (by norm_num) col
  have h1 : marchState sqrt (⟨1 / 2, 5, 0⟩ : Vec3 F) ⟨0, -1, 0⟩
      [⟨.cylinder ⟨⟨0, 0, 0⟩, 1, 2, col⟩, col, 1, []⟩] 1 = ⟨4, 4, ⟨0, 0, 0⟩, false, 1⟩ := by
    rw [marchState_succ, marchState_zero, marchBody_singleton_near]
    · simp only [initialState, hp0, hd0]
      norm_num
    · simp only [initialState, hp0, hd0]
      norm_num [delta]
    · simp only [initialState, hp0, hd0]
      norm_num
  refine ⟨h1, ?_⟩
  unfold marchPoint
  rw [h1]
  ext <;> simp
  norm_num

end CylinderRay

/-- C21 at a failing input: the cylinder of radius 1 and height 2 around the origin, seen
from `(1/2, 5, 0)` straight down.  The marching loop executes its second pass at the point
`(1/2, 1, 0)` of the upper cap, which is closer than `delta` to the cylinder, and for this
hit point the lighting block uses the normal `(1, 0, 0)`, not `(0, sign(1 - 0), 0)`. -/
theorem cylinder_cap_normal_horizontal :
    Runs Real.sqrt (⟨1 / 2, 5, 0⟩ : Vec3 ℝ) ⟨0, -1, 0⟩
      [⟨.cylinder ⟨⟨0, 0, 0⟩, 1, 2, ⟨1, 0, 0⟩⟩, ⟨1, 0, 0⟩, 1, []⟩] 1 ∧
    marchPoint Real.sqrt (⟨1 / 2, 5, 0⟩ : Vec3 ℝ) ⟨0, -1, 0⟩
      [⟨.cylinder ⟨⟨0, 0, 0⟩, 1, 2, ⟨1, 0, 0⟩⟩, ⟨1, 0, 0⟩, 1, []⟩] 1 = ⟨1 / 2, 1, 0⟩ ∧
    shapeDistance Real.sqrt (⟨1 / 2, 1, 0⟩ : Vec3 ℝ)
      ⟨.cylinder ⟨⟨0, 0, 0⟩, 1, 2, ⟨1, 0, 0⟩⟩, ⟨1, 0, 0⟩, 1, []⟩ < delta ∧
    normalVector Real.sqrt (⟨1 / 2, 1, 0⟩ : Vec3 ℝ)
      ⟨.cylinder ⟨⟨0, 0, 0⟩, 1, 2, ⟨1, 0, 0⟩⟩, ⟨1, 0, 0⟩, 1, []⟩ = ⟨1, 0, 0⟩ ∧
    normalVector Real.sqrt (⟨1 / 2, 1, 0⟩ : Vec3 ℝ)
      ⟨.cylinder ⟨⟨0, 0, 0⟩, 1, 2, ⟨1, 0, 0⟩⟩, ⟨1, 0, 0⟩, 1, []⟩
      ≠ ⟨0, sign ((1 : ℝ) - 0), 0⟩ := by
  obtain ⟨h1, hp⟩ := cap_states isSqrt_real (⟨1, 0, 0⟩ : Vec3 ℝ)
  have hn := normalVector_cap isSqrt_real (⟨1, 0, 0⟩ : Vec3 ℝ)
  refine ⟨?_, hp, ?_, hn, ?_⟩
  · intro j hj
    interval_cases j
    · rw [marchState_zero]; simp [marchCond, initialState, maxIterations, maxDistance]
    · rw [h1]; simp [marchCond, maxIterations, maxDistance]; norm_num
  · rw [shapeDistance_above_cap isSqrt_real 1 le_rfl]
    norm_num [delta]
  · rw [hn]
    intro h
    have := congrArg Vec3.x h
    norm_num at this

end RayMarcher

section CameraTarget

variable {F : Type} [LinearOrderedField F]

/-- The view matrix of the camera at `(0, 0, 5)` looking at `(0, 0, 10)` with up
`(0, 1, 0)`. -/
theorem lookAt_away {sqrt : F → F} (hs : IsSqrt sqrt) :
    lookAt sqrt (⟨0, 0, 5⟩ : Vec3 F) ⟨0, 0, 10⟩ ⟨0, 1, 0⟩
      = !![-1, 0, 0, 0; 0, 1, 0, 0; 0, 0, -1, 5; 0, 0, 0, 1] := by
  have h25 : sqrt (25 : F) = 5 := hs.eq_of_mul_self (by norm_num) (by norm_num)
  have h1 : sqrt (1 : F) = 1 := hs.sqrt_one
  simp only [lookAt, Vec3.normalize, Vec3.dot, Vec3.cross, Vec3.sub_x, Vec3.sub_y, Vec3.sub_z,
    Vec3.smul_x, Vec3.smul_y, Vec3.smul_z]
  norm_num [h25, h1]

/-- That view matrix is its own inverse. -/
theorem inverse_away :
    inverse (!![-1, 0, 0, 0; 0, 1, 0, 0; 0, 0, -1, 5; 0, 0, 0, 1] : Mat4 F)
      = !![-1, 0, 0, 0; 0, 1, 0, 0; 0, 0, -1, 5; 0, 0, 0, 1] := by
  apply inverse_eq_of_mul_eq_one
  ext i j
  fin_cases i <;> fin_cases j <;>
    simp [Matrix.mul_apply, Fin.sum_univ_four, Matrix.one_apply, Matrix.vecHead, Matrix.vecTail]

/-- The centre ray of the camera at `(0, 0, 5)` with target `(0, 0, 10)` points along
`(0, 0, -1)`, away from the target. -/
theorem rayDirectionNdc_away {sqrt : F → F} (hs : IsSqrt sqrt) :
    rayDirectionNdc sqrt (lookAt sqrt (⟨0, 0, 5⟩ : Vec3 F) ⟨0, 0, 10⟩ ⟨0, 1, 0⟩) 0 0
      = ⟨0, 0, -1⟩ := by
  have h36 : sqrt (36 : F) = 6 := hs.eq_of_mul_self (by norm_num) (by norm_num)
  have he : vec3 (Matrix.mulVec (!![-1, 0, 0, 0; 0, 1, 0, 0; 0, 0, -1, 5; 0, 0, 0, 1] : Mat4 F)
      ![0, 0, -1, 1]) = ⟨0, 0, 6⟩ := by
    simp [vec3, Matrix.mulVec, Matrix.dotProduct, Fin.sum_univ_four]
    norm_num
  rw [lookAt_away hs, rayDirectionNdc, inverse_away]
  simp only [he, Vec3.normalize, Vec3.dot]
  norm_num [h36]
  ext <;> simp

end CameraTarget

/-- C24 at a failing input: for the camera at `(0, 0, 5)` with target `(0, 0, 10)` and up
`(0, 1, 0)` (position and target differ, up is not parallel to `target - position`) the ray
of the pixel `(2, 2)` of a 4x4 image, which has the normalised device coordinates `(0, 0)`,
is `(0, 0, -1)`, while `normalize(target - position)` is `(0, 0, 1)`. -/
theorem centre_ray_away_from_target :
    rayDirection Real.sqrt (lookAt Real.sqrt (⟨0, 0, 5⟩ : Vec3 ℝ) ⟨0, 0, 10⟩ ⟨0, 1, 0⟩) 4 4 2 2
      = rayDirectionNdc Real.sqrt
          (lookAt Real.sqrt (⟨0, 0, 5⟩ : Vec3 ℝ) ⟨0, 0, 10⟩ ⟨0, 1, 0⟩) 0 0 ∧
    rayDirectionNdc Real.sqrt (lookAt Real.sqrt (⟨0, 0, 5⟩ : Vec3 ℝ) ⟨0, 0, 10⟩ ⟨0, 1, 0⟩) 0 0
      = ⟨0, 0, -1⟩ ∧
    Vec3.normalize Real.sqrt ((⟨0, 0, 10⟩ : Vec3 ℝ) - ⟨0, 0, 5⟩) = ⟨0, 0, 1⟩ ∧
    Vec3.cross ((⟨0, 0, 10⟩ : Vec3 ℝ) - ⟨0, 0, 5⟩) ⟨0, 1, 0⟩ ≠ ⟨0, 0, 0⟩ := by
  have h25 : Real.sqrt (25 : ℝ) = 5 :=
    isSqrt_real.eq_of_mul_self (by norm_num) (by norm_num)
  refine ⟨?_, rayDirectionNdc_away isSqrt_real, ?_, ?_⟩
  · unfold rayDirection
    norm_num
  · simp only [Vec3.normalize, Vec3.dot, Vec3.sub_x, Vec3.sub_y, Vec3.sub_z]
    norm_num [h25]
    ext <;> simp
    norm_num
  · intro h
    have := congrArg Vec3.x h
    simp [Vec3.cross] at this
    norm_num at this

section CameraFrame

variable {F : Type} [LinearOrderedField F]

/-- The inverse of a view matrix with orthonormal rows `s`, `cross(s, f)`, `-f` and the eye
`e`: the transposed rotation with the eye as last column. -/
theorem inverse_view (s f e : Vec3 F) (hss : Vec3.dot s s = 1) (hff : Vec3.dot f f = 1)
    (hsf : Vec3.dot s f = 0) :
    inverse (!![s.x, s.y, s.z, -Vec3.dot s e;
        (Vec3.cross s f).x, (Vec3.cross s f).y, (Vec3.cross s f).z, -Vec3.dot (Vec3.cross s f) e;
        -f.x, -f.y, -f.z, Vec3.dot f e;
        0, 0, 0, 1] : Mat4 F)
      = !![s.x, (Vec3.cross s f).x, -f.x, e.x;
        s.y, (Vec3.cross s f).y, -f.y, e.y;
        s.z, (Vec3.cross s f).z, -f.z, e.z;
        0, 0, 0, 1] := by
  unfold Vec3.dot at hss hff hsf
  apply inverse_eq_of_mul_eq_one
  ext i j
  fin_cases i <;> fin_cases j <;>
    simp [Matrix.mul_apply, Fin.sum_univ_four, Matrix.one_apply, Matrix.vecHead,
      Matrix.vecTail, Vec3.dot, Vec3.cross] <;>
    first
    | ring1
    | linear_combination hss
    | linear_combination hff
    | linear_combination -hsf
    | linear_combination hsf
    | linear_combination
        (f.x * f.x + f.y * f.y + f.z * f.z) * hss + hff
          - (s.x * f.x + s.y * f.y + s.z * f.z) * hsf

end CameraFrame

section CameraCentre

variable {F : Type} [LinearOrderedField F]

/-- A normalised vector has unit length. -/
theorem normalize_dot_self {sqrt : F → F} (hs : IsSqrt sqrt) (v : Vec3 F)
    (hv : 0 < Vec3.dot v v) :
    Vec3.dot (Vec3.normalize sqrt v) (Vec3.normalize sqrt v) = 1 := by
  have hr := hs.pos hv
  have hrr := hs.mul_self hv.le
  have h : Vec3.dot (Vec3.normalize sqrt v) (Vec3.normalize sqrt v)
      = (1 / sqrt (Vec3.dot v v)) * (1 / sqrt (Vec3.dot v v)) * Vec3.dot v v := by
    simp only [Vec3.normalize, Vec3.dot, Vec3.smul_x, Vec3.smul_y, Vec3.smul_z]
    ring
  rw [h]
  field_simp
  linear_combination -hrr

theorem dot_cross_left (a b : Vec3 F) : Vec3.dot (Vec3.cross a b) a = 0 := by
  simp only [Vec3.dot, Vec3.cross]
  ring

/-- The rows of `glm::lookAt` are orthonormal when the target differs from the eye and the
up vector is not parallel to the viewing direction. -/
theorem lookAt_frame {sqrt : F → F} (hs : IsSqrt sqrt) (eye center up : Vec3 F)
    (hne : center - eye ≠ 0) (hup : Vec3.cross (center - eye) up ≠ 0) :
    Vec3.dot (Vec3.normalize sqrt (center - eye)) (Vec3.normalize sqrt (center - eye)) = 1 ∧
    Vec3.dot (Vec3.normalize sqrt (Vec3.cross (Vec3.normalize sqrt (center - eye)) up))
      (Vec3.normalize sqrt (Vec3.cross (Vec3.normalize sqrt (center - eye)) up)) = 1 ∧
    Vec3.dot (Vec3.normalize sqrt (Vec3.cross (Vec3.normalize sqrt (center - eye)) up))
      (Vec3.normalize sqrt (center - eye)) = 0 := by
  have hpos := RayMarcher.dot_self_pos_of_ne_zero (center - eye) hne
  have hr := hs.pos hpos
  have hcross : Vec3.cross (Vec3.normalize sqrt (center - eye)) up
      = (1 / sqrt (Vec3.dot (center - eye) (center - eye)))
        • Vec3.cross (center - eye) up := by
    ext <;> simp [Vec3.normalize, Vec3.cross] <;> ring
  have hcne : Vec3.cross (Vec3.normalize sqrt (center - eye)) up ≠ 0 := by
    intro h0
    apply hup
    rw [hcross] at h0
    have hk : (1 / sqrt (Vec3.dot (center - eye) (center - eye))) ≠ 0 :=
      one_div_ne_zero hr.ne'
    have hx := congrArg Vec3.x h0
    have hy := congrArg Vec3.y h0
    have hz := congrArg Vec3.z h0
    simp only [Vec3.smul_x, Vec3.smul_y, Vec3.smul_z, Vec3.zero_x, Vec3.zero_y, Vec3.zero_z]
      at hx hy hz
    ext
    · exact (mul_eq_zero.1 hx).resolve_left hk
    · exact (mul_eq_zero.1 hy).resolve_left hk
    · exact (mul_eq_zero.1 hz).resolve_left hk
  refine ⟨normalize_dot_self hs _ hpos,
    normalize_dot_self hs _ (RayMarcher.dot_self_pos_of_ne_zero _ hcne), ?_⟩
  have h := dot_cross_left (Vec3.normalize sqrt (center - eye)) up
  have hexp : Vec3.dot
      (Vec3.normalize sqrt (Vec3.cross (Vec3.normalize sqrt (center - eye)) up))
      (Vec3.normalize sqrt (center - eye))
      = (1 / sqrt (Vec3.dot (Vec3.cross (Vec3.normalize sqrt (center - eye)) up)
          (Vec3.cross (Vec3.normalize sqrt (center - eye)) up)))
        * Vec3.dot (Vec3.cross (Vec3.normalize sqrt (center - eye)) up)
          (Vec3.normalize sqrt (center - eye)) := by
    generalize Vec3.cross (Vec3.normalize sqrt (center - eye)) up = w
    generalize Vec3.normalize sqrt (center - eye) = g
    simp only [Vec3.normalize, Vec3.dot, Vec3.smul_x, Vec3.smul_y, Vec3.smul_z]
    ring
  rw [hexp, h, mul_zero]

/-- What the camera code computes for the normalised device coordinates `(0, 0)`: with
`f = normalize(target - position)`, the ray direction is `-normalize(position + f)`. -/
theorem rayDirectionNdc_centre {sqrt : F → F} (hs : IsSqrt sqrt) (eye center up : Vec3 F)
    (hne : center - eye ≠ 0) (hup : Vec3.cross (center - eye) up ≠ 0) :
    rayDirectionNdc sqrt (lookAt sqrt eye center up) 0 0
      = -(Vec3.normalize sqrt (eye + Vec3.normalize sqrt (center - eye))) := by
  obtain ⟨hff, hss, hsf⟩ := lookAt_frame hs eye center up hne hup
  unfold rayDirectionNdc lookAt
  simp only []
  rw [inverse_view _ _ eye hss hff hsf]
  congr 2
  ext <;>
    simp [vec3, Matrix.mulVec, Matrix.dotProduct, Fin.sum_univ_four, Matrix.vecHead,
      Matrix.vecTail] <;>
    ring

end CameraCentre

namespace RayTracer

section Propagation

variable {F : Type}

theorem sameChildren_refl (a : List (Shape F)) : SameChildren a a :=
  ⟨rfl, fun _ s h => ⟨s, h, rfl⟩⟩

theorem sameChildren_trans (a b c : List (Shape F)) (hab : SameChildren a b)
    (hbc : SameChildren b c) : SameChildren a c := by
  refine ⟨hbc.1.trans hab.1, ?_⟩
  intro j s hj
  obtain ⟨s', hs', hc'⟩ := hab.2 j s hj
  obtain ⟨s'', hs'', hc''⟩ := hbc.2 j s' hs'
  exact ⟨s'', hs'', hc''.trans hc'⟩

/-- Writing a shape with the same child list keeps the child lists. -/
theorem sameChildren_set (a : List (Shape F)) (i : ℕ) (object object' : Shape F)
    (hget : a[i]? = some object) (hch : object'.children = object.children) :
    SameChildren a (a.set i object') := by
  refine ⟨List.length_set _ _ _, ?_⟩
  intro j s hj
  by_cases hji : i = j
  · subst hji
    rw [hget] at hj
    cases hj
    exact ⟨object', by rw [List.getElem?_set_self', hget]; rfl, hch⟩
  · exact ⟨s, by rw [List.getElem?_set_ne hji]; exact hj, rfl⟩

theorem forward_of_sameChildren (a b : List (Shape F)) (h : SameChildren a b)
    (hf : Forward a) : Forward b := by
  intro j s' c hj hc
  obtain ⟨hlt, _⟩ := List.getElem?_eq_some.1 hj
  have hlt' : j < a.length := h.1 ▸ hlt
  obtain ⟨s'', hs'', hch⟩ := h.2 j a[j] (List.getElem?_eq_getElem hlt')
  rw [hj] at hs''
  cases hs''
  rw [hch] at hc
  have := hf j a[j] c (List.getElem?_eq_getElem hlt') hc
  rw [h.1]
  exact this

/-- The loop over the children of a propagation, when every recursive call returns and
keeps the child lists. -/
theorem foldlM_sameChildren (g : List (Shape F) → ℤ → Option (List (Shape F)))
    (scene : List (Shape F)) (cs : List ℤ)
    (hrec : ∀ (sc : List (Shape F)) (c : ℤ), c ∈ cs → SameChildren scene sc →
      ∃ sc', g sc c = some sc' ∧ SameChildren sc sc') :
    ∀ sc : List (Shape F), SameChildren scene sc →
      ∃ sc', cs.foldlM g sc = some sc' ∧ SameChildren scene sc' := by
  induction cs with
  | nil =>
    intro sc hsc
    exact ⟨sc, rfl, hsc⟩
  | cons c cs ih =>
    intro sc hsc
    obtain ⟨sc1, h1, hs1⟩ := hrec sc c (List.mem_cons_self _ _) hsc
    obtain ⟨sc', h', hs'⟩ := ih (fun sc2 c2 hc2 h2 => hrec sc2 c2 (List.mem_cons_of_mem _ hc2) h2)
      sc1 (sameChildren_trans scene sc sc1 hsc hs1)
    refine ⟨sc', ?_, hs'⟩
    rw [List.foldlM_cons, h1]
    exact h'

/-- A propagation of the shape of `applyTranslation` and `applyRotation` (write a new
transform into the shape, then recurse into its children) returns when every child index is
an index of the scene greater than the index of its parent: the recursion from index `i` is
not deeper than `scene.length - i`. -/
theorem propagation_returns (g : ℕ → List (Shape F) → ℤ → Option (List (Shape F)))
    (update : Mat4 F → Mat4 F)
    (hsucc : ∀ (fuel : ℕ) (scene : List (Shape F)) (i : ℤ) (object : Shape F), 0 ≤ i →
      scene[i.toNat]? = some object →
      g (fuel + 1) scene i = object.children.foldlM (fun sc c => g fuel sc c)
        (scene.set i.toNat { object with transform := update object.transform }))
    (fuel : ℕ) :
    ∀ (scene : List (Shape F)) (i : ℤ), Forward scene → 0 ≤ i → i.toNat < scene.length →
      scene.length - i.toNat ≤ fuel →
      ∃ scene', g fuel scene i = some scene' ∧ SameChildren scene scene' := by
  induction fuel with
  | zero =>
    intro scene i _ _ hlt hfuel
    omega
  | succ fuel ih =>
    intro scene i hf h0 hlt hfuel
    have hget : scene[i.toNat]? = some scene[i.toNat] := List.getElem?_eq_getElem hlt
    rw [hsucc fuel scene i _ h0 hget]
    have hs1 := sameChildren_set scene i.toNat scene[i.toNat]
      { scene[i.toNat] with transform := update (scene[i.toNat]).transform } hget rfl
    apply foldlM_sameChildren (fun sc c => g fuel sc c) scene _ _ _ hs1
    intro sc c hc hsc
    obtain ⟨h1, h2⟩ := hf i.toNat _ c hget hc
    have hfsc := forward_of_sameChildren scene sc hsc hf
    have hc0 : 0 ≤ c := by omega
    have hclt : c.toNat < sc.length := by
      rw [hsc.1]
      omega
    exact ih sc c hfsc hc0 hclt (by rw [hsc.1]; omega)

theorem applyRotation_succ (rotate : Mat4 F → F → Vec3 F → Mat4 F) (angle : F)
    (axis : Vec3 F) (fuel : ℕ) (scene : List (Shape F)) (i : ℤ)
    (object : Shape F) (h0 : 0 ≤ i) (hget : scene[i.toNat]? = some object) :
    applyRotation rotate (fuel + 1) scene i angle axis
      = object.children.foldlM (fun sc c => applyRotation rotate fuel sc c angle axis)
        (scene.set i.toNat { object with transform := rotate object.transform angle axis }) := by
  rw [applyRotation, if_neg (not_lt.2 h0), hget]

end Propagation

section PropagationClaims

variable {F : Type} [LinearOrderedField F]

theorem applyTranslation_succ (v : Vec3 F) (fuel : ℕ) (scene : List (Shape F)) (i : ℤ)
    (object : Shape F) (h0 : 0 ≤ i) (hget : scene[i.toNat]? = some object) :
    applyTranslation (fuel + 1) scene i v
      = object.children.foldlM (fun sc c => applyTranslation fuel sc c v)
        (scene.set i.toNat { object with transform := translate 1 v * object.transform }) := by
  rw [applyTranslation, if_neg (not_lt.2 h0), hget]

/-- Both propagations return from index 0 of a non-empty scene whose child indices point
forward. -/
theorem propagations_return (rotate : Mat4 F → F → Vec3 F → Mat4 F) (scene : List (Shape F))
    (hf : Forward scene) (hne : scene ≠ []) (v : Vec3 F) (angle : F) (axis : Vec3 F)
    (fuel : ℕ) (hfuel : scene.length ≤ fuel) :
    (∃ scene', applyTranslation fuel scene 0 v = some scene') ∧
    (∃ scene', applyRotation rotate fuel scene 0 angle axis = some scene') := by
  have hlen : 0 < scene.length := List.length_pos.2 hne
  constructor
  · obtain ⟨scene', h, _⟩ := propagation_returns (fun fuel sc i => applyTranslation fuel sc i v)
      (fun m => translate 1 v * m) (applyTranslation_succ v) fuel scene 0 hf le_rfl
      (by simpa using hlen) (by simpa using hfuel)
    exact ⟨scene', h⟩
  · obtain ⟨scene', h, _⟩ := propagation_returns
      (fun fuel sc i => applyRotation rotate fuel sc i angle axis)
      (fun m => rotate m angle axis) (applyRotation_succ rotate angle axis) fuel scene 0 hf
      le_rfl (by simpa using hlen) (by simpa using hfuel)
    exact ⟨scene', h⟩

end PropagationClaims

end RayTracer

namespace RayTracer

section SetupLemmas

variable {F : Type}

/-- Along a path in a scene whose child indices point forward the index grows. -/
theorem path_forward_lt (scene : List (Shape F)) (hf : Forward scene) (i j : ℤ)
    (steps : List ℕ) (hp : Path scene i steps j) : steps ≠ [] → i < j := by
  induction hp with
  | nil _ => intro h; exact absurd rfl h
  | cons i object k c steps j h0 hget hk hp' ih =>
    intro _
    have hc : c ∈ object.children := List.getElem?_mem hk
    obtain ⟨h1, _⟩ := hf i.toNat object c hget hc
    have hic : i < c := by omega
    cases steps with
    | nil =>
      rw [(path_nil_iff scene c j).1 hp']
      exact hic
    | cons k' steps' => exact hic.trans (ih (List.cons_ne_nil _ _))

/-- Appending a shape without children keeps the child indices pointing forward. -/
theorem forward_append (scene : List (Shape F)) (hf : Forward scene) (shape : Shape F)
    (hch : shape.children = []) : Forward (scene ++ [shape]) := by
  intro j s c hj hc
  rw [List.length_append, List.length_singleton]
  rcases Nat.lt_or_ge j scene.length with hlt | hge
  · rw [List.getElem?_append_left hlt] at hj
    obtain ⟨h1, h2⟩ := hf j s c hj hc
    exact ⟨h1, by push_cast; omega⟩
  · rw [List.getElem?_append_right hge] at hj
    have hs : s = shape := by
      rcases Nat.eq_zero_or_pos (j - scene.length) with h0 | hpos
      · rw [h0] at hj
        simpa using hj.symm
      · rw [List.getElem?_eq_none (by rw [List.length_singleton]; omega)] at hj
        cases hj
    rw [hs, hch] at hc
    cases hc

/-- Recording the most recent shape as a child of an earlier shape keeps the child indices
pointing forward. -/
theorem forward_push (scene : List (Shape F)) (hf : Forward scene) (p : ℕ)
    (parentShape : Shape F) (hget : scene[p]? = some parentShape)
    (hp : (p : ℤ) < (scene.length : ℤ) - 1) :
    Forward (scene.set p
      { parentShape with children := parentShape.children ++ [(scene.length : ℤ) - 1] }) := by
  intro j s c hj hc
  rw [List.length_set]
  by_cases hpj : p = j
  · subst hpj
    rw [List.getElem?_set_self (List.getElem?_eq_some.1 hget).1] at hj
    simp only [Option.some.injEq] at hj
    subst hj
    simp only [List.mem_append, List.mem_singleton] at hc
    rcases hc with hc | hc
    · exact hf p parentShape c hget hc
    · subst hc
      exact ⟨hp, by omega⟩
  · rw [List.getElem?_set_ne hpj] at hj
    exact hf j s c hj hc

end SetupLemmas

section SetupInvariant

variable {F : Type} [LinearOrderedField F]

/-- One well-formed line is read without undefined behaviour and keeps the recorded name
indices inside the scene and the child indices pointing forward. -/
theorem readLine_invariant (st : SetupState F) (command : Command F)
    (hN : NamesValid st) (hF : Forward st.scene)
    (hwf : WellFormed st [command]) :
    ∃ st', readLine st command = some st' ∧ NamesValid st' ∧ Forward st'.scene := by
  have hgrow : ∀ shape : Shape F, shape.children = [] →
      NamesValid ({ st with scene := st.scene ++ [shape] } : SetupState F) ∧
        Forward (st.scene ++ [shape]) := by
    intro shape hch
    refine ⟨?_, forward_append st.scene hF shape hch⟩
    intro key i hi
    obtain ⟨h1, h2⟩ := hN key i hi
    refine ⟨h1, ?_⟩
    simp only [List.length_append, List.length_singleton]
    push_cast
    omega
  cases command with
  | image w h => exact ⟨st, rfl, hN, hF⟩
  | cameraPosition p => exact ⟨st, rfl, hN, hF⟩
  | cameraTarget p => exact ⟨st, rfl, hN, hF⟩
  | cameraUp p => exact ⟨st, rfl, hN, hF⟩
  | other => exact ⟨st, rfl, hN, hF⟩
  | sphere s => exact ⟨_, rfl, hgrow _ rfl⟩
  | triangle t => exact ⟨_, rfl, hgrow _ rfl⟩
  | plane p => exact ⟨_, rfl, hgrow _ rfl⟩
  | name objectName =>
    have hne : st.scene ≠ [] := hwf.1
    have hlen : 0 < st.scene.length := List.length_pos.2 hne
    refine ⟨_, rfl, ?_, hF⟩
    intro key i hi
    show 0 ≤ i ∧ i < (st.scene.length : ℤ)
    simp only at hi
    split_ifs at hi with hk
    · cases hi
      exact ⟨by omega, by omega⟩
    · exact hN key i hi
  | transform m =>
    have hne : st.scene ≠ [] := hwf.1
    have hlen : 0 < st.scene.length := List.length_pos.2 hne
    have hget : st.scene[st.scene.length - 1]? = some st.scene[st.scene.length - 1] :=
      List.getElem?_eq_getElem (by omega)
    have hsame := sameChildren_set st.scene (st.scene.length - 1) _
      { st.scene[st.scene.length - 1] with transform := m } hget rfl
    refine ⟨{ st with
      scene := st.scene.set (st.scene.length - 1)
        { st.scene[st.scene.length - 1] with transform := m } }, ?_, ?_,
      forward_of_sameChildren _ _ hsame hF⟩
    · simp only [readLine, hget]
    · intro key i hi
      show 0 ≤ i ∧ i < ((st.scene.set _ _).length : ℤ)
      rw [List.length_set]
      exact hN key i hi
  | parent parentName =>
    have hself : st.objectIndices parentName ≠ some ((st.scene.length : ℤ) - 1) := hwf.1
    cases hfind : st.objectIndices parentName with
    | none => exact ⟨st, by simp only [readLine, hfind], hN, hF⟩
    | some parentIndex =>
      obtain ⟨h0, hlt⟩ := hN parentName parentIndex hfind
      have hne : parentIndex ≠ (st.scene.length : ℤ) - 1 := by
        intro h
        rw [hfind, h] at hself
        exact hself rfl
      have hplt : parentIndex.toNat < st.scene.length := by omega
      have hget : st.scene[parentIndex.toNat]? = some st.scene[parentIndex.toNat] :=
        List.getElem?_eq_getElem hplt
      have hcond : ¬ ((st.scene.length : ℤ) - 1 < 0 ∨ parentIndex < 0) := by
        push_neg
        exact ⟨by omega, h0⟩
      refine ⟨{ st with
        scene := st.scene.set parentIndex.toNat
          { st.scene[parentIndex.toNat] with
            children := (st.scene[parentIndex.toNat]).children
              ++ [(st.scene.length : ℤ) - 1] } }, ?_, ?_, ?_⟩
      · simp only [readLine, hfind, if_neg hcond, hget]
      · intro key i hi
        show 0 ≤ i ∧ i < ((st.scene.set _ _).length : ℤ)
        rw [List.length_set]
        exact hN key i hi
      · exact forward_push st.scene hF parentIndex.toNat _ hget (by omega)

/-- Well-formed lines are read without undefined behaviour and keep the recorded name
indices inside the scene and the child indices pointing forward. -/
theorem foldlM_readLine_invariant (commands : List (Command F)) :
    ∀ st : SetupState F, NamesValid st → Forward st.scene → WellFormed st commands →
      ∃ st', commands.foldlM readLine st = some st' ∧ NamesValid st' ∧ Forward st'.scene := by
  induction commands with
  | nil =>
    intro st hN hF _
    exact ⟨st, rfl, hN, hF⟩
  | cons command rest ih =>
    intro st hN hF hwf
    obtain ⟨st1, h1, hN1, hF1⟩ := readLine_invariant st command hN hF
      ⟨hwf.1, fun _ _ => trivial⟩
    obtain ⟨st', h', hN', hF'⟩ := ih st1 hN1 hF1 (hwf.2 st1 h1)
    refine ⟨st', ?_, hN', hF'⟩
    rw [List.foldlM_cons, h1]
    exact h'

/-- A shape that is its own only child: `applyTranslation` exceeds every bound on the
depth of the recursion. -/
theorem applyTranslation_self_child (v : Vec3 F) (fuel : ℕ) :
    ∀ shape : Shape F, shape.children = [0] → applyTranslation fuel [shape] 0 v = none := by
  induction fuel with
  | zero =>
    intro shape _
    rfl
  | succ fuel ih =>
    intro shape hch
    rw [applyTranslation_succ v fuel [shape] 0 shape le_rfl rfl, hch]
    simp only [Int.toNat_zero, List.set_cons_zero, List.foldlM_cons, List.foldlM_nil]
    rw [ih _ rfl]
    rfl

end SetupInvariant

end RayTracer

namespace RayTracer

section SetupClaim

variable {F : Type} [LinearOrderedField F]

/-- C25 (as amended): for every sequence of scene-file lines with no `name` and no
`transform` line before the first shape and no `parent` line that names the most recent
shape itself, `readSetupFile` runs without undefined behaviour, every index it records for a
name is an index of the scene, every child index is an index of the scene greater than the
index of its parent, so no shape is its own descendant; and if the file holds a shape,
`applyTranslation(scene, 0, v)` and `applyRotation(scene, 0, angle, axis)` return, with a
recursion not deeper than the scene is long. -/
theorem readSetupFile_propagation_terminates (rotate : Mat4 F → F → Vec3 F → Mat4 F)
    (commands : List (Command F))
    (hwf : WellFormed (⟨[], fun _ => none⟩ : SetupState F) commands) :
    ∃ st : SetupState F, readSetupFile commands = some st ∧
      (∀ (key : String) (i : ℤ), st.objectIndices key = some i →
        0 ≤ i ∧ i < (st.scene.length : ℤ)) ∧
      (∀ (j : ℕ) (s : Shape F) (c : ℤ), st.scene[j]? = some s → c ∈ s.children →
        (j : ℤ) < c ∧ c < (st.scene.length : ℤ)) ∧
      (∀ (i : ℤ) (steps : List ℕ), steps ≠ [] → ¬ Path st.scene i steps i) ∧
      (st.scene ≠ [] → ∀ (v : Vec3 F) (angle : F) (axis : Vec3 F) (fuel : ℕ),
        st.scene.length ≤ fuel →
        (∃ scene', applyTranslation fuel st.scene 0 v = some scene') ∧
        (∃ scene', applyRotation rotate fuel st.scene 0 angle axis = some scene')) := by
  obtain ⟨st, h, hN, hF⟩ := foldlM_readLine_invariant commands ⟨[], fun _ => none⟩
    (fun key i hi => by cases hi) (fun j s c hj _ => by cases hj) hwf
  refine ⟨st, h, hN, hF, ?_, ?_⟩
  · intro i steps hne hp
    exact lt_irrefl i (path_forward_lt st.scene hF i i steps hp hne)
  · intro hne v angle axis fuel hfuel
    exact propagations_return rotate st.scene hF hne v angle axis fuel hfuel

end SetupClaim

/-- Witness for C25: a sphere named `body` and a second sphere attached to it; the scene
has the second sphere as the only child of the first, and `applyTranslation` returns. -/
theorem readSetupFile_propagation_terminates_witness :
    ∃ st : SetupState ℚ,
      readSetupFile [.sphere ⟨⟨0, 0, 0⟩, 1, ⟨1, 0, 0⟩⟩, .name "body",
        .sphere ⟨⟨2, 0, 0⟩, 1, ⟨0, 1, 0⟩⟩, .parent "body"] = some st ∧
      st.scene = [⟨.sphere ⟨⟨0, 0, 0⟩, 1, ⟨1, 0, 0⟩⟩, ⟨1, 0, 0⟩, 1, [1]⟩,
        ⟨.sphere ⟨⟨2, 0, 0⟩, 1, ⟨0, 1, 0⟩⟩, ⟨0, 1, 0⟩, 1, []⟩] ∧
      ∃ scene', applyTranslation 2 st.scene 0 ⟨1 / 2, 0, 0⟩ = some scene' := by
  obtain ⟨st, h, _, _, _, hret⟩ := readSetupFile_propagation_terminates
    (fun (m : Mat4 ℚ) (_ : ℚ) (_ : Vec3 ℚ) => m)
    [.sphere ⟨⟨0, 0, 0⟩, 1, ⟨1, 0, 0⟩⟩, .name "body",
      .sphere ⟨⟨2, 0, 0⟩, 1, ⟨0, 1, 0⟩⟩, .parent "body"]
    (by simp [WellFormed, readLine])
  have hval : (readSetupFile [.sphere ⟨⟨0, 0, 0⟩, 1, ⟨1, 0, 0⟩⟩, .name "body",
      .sphere ⟨⟨2, 0, 0⟩, 1, ⟨0, 1, 0⟩⟩, .parent "body"]
        : Option (SetupState ℚ)).map SetupState.scene
      = some [⟨.sphere ⟨⟨0, 0, 0⟩, 1, ⟨1, 0, 0⟩⟩, ⟨1, 0, 0⟩, 1, [1]⟩,
        ⟨.sphere ⟨⟨2, 0, 0⟩, 1, ⟨0, 1, 0⟩⟩, ⟨0, 1, 0⟩, 1, []⟩] := by
    simp [readSetupFile, readLine]
  rw [h] at hval
  simp only [Option.map_some', Option.some.injEq] at hval
  refine ⟨st, h, hval, ?_⟩
  have hne : st.scene ≠ [] := by
    rw [hval]
    exact List.cons_ne_nil _ _
  exact (hret hne ⟨1 / 2, 0, 0⟩ 0 ⟨0, 1, 0⟩ 2 (by rw [hval]; rfl)).1

/-- Counterexample to C25 as stated.  (a) The lines `sphere ...`, `name a`, `parent a` make
the only shape its own child: every index is valid, the child lists hold a cycle, and
`applyTranslation(scene, 0, v)` exceeds every bound on the depth of its recursion.  (b) The
line `name a` at the start of a file records the index `-1`.  (c) A file without shapes
gives the empty scene, in which the index 0 of `applyTranslation(scene, 0, v)` is outside
the scene. -/
theorem readSetupFile_cycle_counterexample :
    ((readSetupFile [.sphere ⟨⟨0, 0, 0⟩, 1, ⟨1, 0, 0⟩⟩, .name "a", .parent "a"]
        : Option (SetupState ℚ)).map SetupState.scene
      = some [⟨.sphere ⟨⟨0, 0, 0⟩, 1, ⟨1, 0, 0⟩⟩, ⟨1, 0, 0⟩, 1, [0]⟩] ∧
      Path ([⟨.sphere ⟨⟨0, 0, 0⟩, 1, ⟨1, 0, 0⟩⟩, ⟨1, 0, 0⟩, 1, [0]⟩] : List (Shape ℚ)) 0 [0] 0 ∧
      ∀ (fuel : ℕ) (v : Vec3 ℚ), applyTranslation fuel
        [⟨.sphere ⟨⟨0, 0, 0⟩, 1, ⟨1, 0, 0⟩⟩, ⟨1, 0, 0⟩, 1, [0]⟩] 0 v = none) ∧
    ((readSetupFile [.name "a"] : Option (SetupState ℚ)).map
        (fun st => st.objectIndices "a") = some (some (-1))) ∧
    ((readSetupFile [.image 4 4] : Option (SetupState ℚ)).map SetupState.scene = some [] ∧
      ∀ (fuel : ℕ) (v : Vec3 ℚ), applyTranslation fuel ([] : List (Shape ℚ)) 0 v = none) := by
  refine ⟨⟨?_, ?_, ?_⟩, ?_, ?_, ?_⟩
  · simp [readSetupFile, readLine]
  · exact Path.cons 0 _ 0 0 [] 0 le_rfl rfl rfl (Path.nil 0)
  · intro fuel v
    exact applyTranslation_self_child v fuel _ rfl
  · simp [readSetupFile, readLine]
  · simp [readSetupFile, readLine]
  · intro fuel v
    cases fuel with
    | zero => rfl
    | succ n => simp [applyTranslation]

end RayTracer

/-! ## The arithmetic of `float`: rounding -/

section Binary32Basics

theorem round32_zero : round32 0 = 0 := by
  simp [round32, roundTo]

theorem sub32_self (a : ℚ) : sub32 a a = 0 := by
  simp [sub32, round32_zero]

theorem mul32_zero_left (a : ℚ) : mul32 0 a = 0 := by
  simp [mul32, round32_zero]

theorem mul32_zero_right (a : ℚ) : mul32 a 0 = 0 := by
  simp [mul32, round32_zero]

theorem add32_zero_zero : add32 0 0 = 0 := by
  simp [add32, round32_zero]

theorem sub32_zero_zero : sub32 0 0 = 0 := by
  simp [sub32, round32_zero]

theorem EPSILON64_pos : 0 < EPSILON64 := by decide!

/-- The difference of a vector and itself is the zero vector, without rounding error. -/
theorem Vec3.sub32_cancel (v : Vec3 ℚ) : Vec3.sub32 v v = ⟨0, 0, 0⟩ := by
  simp [Vec3.sub32, Portfolio.sub32_self]

/-- The dot product with the zero vector on the left is exactly `0`. -/
theorem Vec3.dot32_zero_left (v : Vec3 ℚ) : Vec3.dot32 ⟨0, 0, 0⟩ v = 0 := by
  simp [Vec3.dot32, mul32_zero_left, add32_zero_zero]

/-- The dot product with the zero vector on the right is exactly `0`. -/
theorem Vec3.dot32_zero_right (v : Vec3 ℚ) : Vec3.dot32 v ⟨0, 0, 0⟩ = 0 := by
  simp [Vec3.dot32, mul32_zero_right, add32_zero_zero]

/-- The cross product with the zero vector on the right is exactly the zero vector. -/
theorem Vec3.cross32_zero_right (v : Vec3 ℚ) : Vec3.cross32 v ⟨0, 0, 0⟩ = ⟨0, 0, 0⟩ := by
  simp [Vec3.cross32, mul32_zero_left, mul32_zero_right, sub32_zero_zero]

end Binary32Basics

namespace RayTracer

/-- When the determinant `a` that `intersectTriangle` computes lies strictly between
`-EPSILON` and `EPSILON`, the function returns `false`. -/
theorem intersectTriangle32_of_small (o d : Vec3 ℚ) (triangle : Triangle ℚ)
    (h : -EPSILON64 < Vec3.dot32 (Vec3.sub32 triangle.vertex2 triangle.vertex1)
          (Vec3.cross32 d (Vec3.sub32 triangle.vertex3 triangle.vertex1)) ∧
        Vec3.dot32 (Vec3.sub32 triangle.vertex2 triangle.vertex1)
          (Vec3.cross32 d (Vec3.sub32 triangle.vertex3 triangle.vertex1)) < EPSILON64) :
    intersectTriangle32 o d triangle = none := by
  unfold intersectTriangle32
  simp only []
  rw [if_pos ⟨h.1, h.2⟩]

/-- When `vertex2` or `vertex3` coincides with `vertex1` the determinant that
`intersectTriangle` computes is exactly `0`. -/
theorem determinant32_of_zero_edge (d : Vec3 ℚ) (triangle : Triangle ℚ)
    (h : triangle.vertex2 = triangle.vertex1 ∨ triangle.vertex3 = triangle.vertex1) :
    Vec3.dot32 (Vec3.sub32 triangle.vertex2 triangle.vertex1)
      (Vec3.cross32 d (Vec3.sub32 triangle.vertex3 triangle.vertex1)) = 0 := by
  rcases h with h | h
  · rw [h, Vec3.sub32_cancel, Vec3.dot32_zero_left]
  · rw [h, Vec3.sub32_cancel, Vec3.cross32_zero_right, Vec3.dot32_zero_right]

end RayTracer

section Binary32Bounds

/-- The halving loop computes `⌊log₂ n⌋` when it may run `n` times. -/
theorem log2Fuel_spec : ∀ (fuel n : ℕ), n ≤ fuel → n ≠ 0 →
    2 ^ log2Fuel fuel n ≤ n ∧ n < 2 ^ (log2Fuel fuel n + 1)
  | 0, n, h, h0 => absurd (Nat.le_zero.1 h) h0
  | fuel + 1, n, h, h0 => by
    unfold log2Fuel
    by_cases h2 : 2 ≤ n
    · rw [if_pos h2]
      obtain ⟨h3, h4⟩ := log2Fuel_spec fuel (n / 2) (by omega) (by omega)
      have e1 : 2 ^ (log2Fuel fuel (n / 2) + 1) = 2 ^ log2Fuel fuel (n / 2) * 2 :=
        pow_succ _ _
      have e2 : 2 ^ (log2Fuel fuel (n / 2) + 1 + 1) = 2 ^ log2Fuel fuel (n / 2) * 2 * 2 := by
        rw [pow_succ, pow_succ]
      rw [e1] at h4
      rw [e1, e2]
      generalize 2 ^ log2Fuel fuel (n / 2) = P at h3 h4 ⊢
      omega
    · rw [if_neg h2]
      simp only [pow_zero, zero_add, pow_one]
      omega

theorem floorLog2_spec (n : ℕ) (h0 : n ≠ 0) :
    2 ^ floorLog2 n ≤ n ∧ n < 2 ^ (floorLog2 n + 1) :=
  log2Fuel_spec n n le_rfl h0

/-- At `2 ^ 15` adding `delta` in `float` arithmetic changes nothing: the numbers of `float`
are `2 ^ (-8)` apart there. -/
theorem add32_delta32_stall : add32 32768 RayMarcher.delta32 = 32768 := by decide!

end Binary32Bounds

section Binary32Exponent

/-- The exponent of `x ≠ 0` is more than `log₂ |x| - 1`, so it is `⌊log₂ |x|⌋`. -/
theorem lt_exponent_succ (x : ℚ) (hx : x ≠ 0) : |x| < (2 : ℚ) ^ (exponent x + 1) := by
  unfold exponent
  simp only []
  split_ifs with h
  · have hnum : x.num.natAbs ≠ 0 := by
      simpa [Int.natAbs_eq_zero] using hx
    obtain ⟨-, ha⟩ := floorLog2_spec x.num.natAbs hnum
    obtain ⟨hb, -⟩ := floorLog2_spec x.den x.den_ne_zero
    have habs : |x| = (x.num.natAbs : ℚ) / (x.den : ℚ) := by
      conv_lhs => rw [← Rat.num_div_den x]
      rw [abs_div, Nat.abs_cast, ← Int.cast_abs, Int.abs_eq_natAbs, Int.cast_natCast]
    rw [habs]
    have hden : (0 : ℚ) < x.den := by exact_mod_cast x.den_pos
    have ha' : (x.num.natAbs : ℚ) < 2 ^ (floorLog2 x.num.natAbs + 1) := by exact_mod_cast ha
    have hb' : (2 : ℚ) ^ floorLog2 x.den ≤ (x.den : ℚ) := by exact_mod_cast hb
    have he : (2 : ℚ) ^ ((floorLog2 x.num.natAbs : ℤ) - (floorLog2 x.den : ℤ) + 1)
        = 2 ^ (floorLog2 x.num.natAbs + 1) / 2 ^ floorLog2 x.den := by
      rw [sub_add_eq_add_sub, zpow_sub₀ (by norm_num : (2 : ℚ) ≠ 0)]
      norm_cast
    rw [he]
    exact div_lt_div₀ ha' hb' (by positivity) (by positivity)
  · rw [sub_add_cancel]
    exact not_le.1 h

end Binary32Exponent

section Binary32Sqrt

theorem sqrtBits_spec (n : ℕ) : ∀ (b r : ℕ), r ^ 2 ≤ n → n < (r + 2 ^ b) ^ 2 →
    sqrtBits n b r ^ 2 ≤ n ∧ n < (sqrtBits n b r + 1) ^ 2
  | 0, r, h1, h2 => by
    simpa [sqrtBits] using And.intro h1 h2
  | b + 1, r, h1, h2 => by
    unfold sqrtBits
    split_ifs with h
    · refine sqrtBits_spec n b (r + 2 ^ b) h ?_
      rw [add_assoc, ← two_mul, ← pow_succ']
      exact h2
    · exact sqrtBits_spec n b r h1 (not_le.1 h)

/-- The function `floorSqrt` is the integer square root. -/
theorem floorSqrt_spec (n : ℕ) : floorSqrt n ^ 2 ≤ n ∧ n < (floorSqrt n + 1) ^ 2 := by
  unfold floorSqrt
  refine sqrtBits_spec n _ 0 (by simp) ?_
  rw [zero_add, ← pow_mul]
  rcases Nat.eq_zero_or_pos n with h0 | h0
  · subst h0
    positivity
  · obtain ⟨-, h⟩ := floorLog2_spec n (by omega)
    refine lt_of_lt_of_le h (Nat.pow_le_pow_right (by norm_num) ?_)
    omega

end Binary32Sqrt

/-! ## The shadow test in `float` arithmetic -/

namespace RayMarcher

section Shadow32

/-- In a scene of one shape the inner loop of the shadow test finds nothing. -/
theorem occluded32_singleton (s : Shape ℚ) (q : Vec3 ℚ) : occluded32 [s] 0 q = false := by
  simp [occluded32, List.enum]

end Shadow32

end RayMarcher

/-! ## Degenerate triangles and shadows in `float` arithmetic -/

namespace RayTracer

/-- C15 (as amended): in `float` arithmetic `intersectTriangle` returns false for every ray
when `vertex2` or `vertex3` coincides with `vertex1`, because the determinant `a` it computes
is then exactly `0`; and for every triangle and ray for which the computed `a` lies strictly
between `-EPSILON` and `EPSILON`. -/
theorem intersectTriangle32_degenerate (rayOrigin rayDirection : Vec3 ℚ)
    (triangle : Triangle ℚ) :
    (triangle.vertex2 = triangle.vertex1 ∨ triangle.vertex3 = triangle.vertex1 →
      intersectTriangle32 rayOrigin rayDirection triangle = none) ∧
    (-EPSILON64 < Vec3.dot32 (Vec3.sub32 triangle.vertex2 triangle.vertex1)
          (Vec3.cross32 rayDirection (Vec3.sub32 triangle.vertex3 triangle.vertex1)) ∧
        Vec3.dot32 (Vec3.sub32 triangle.vertex2 triangle.vertex1)
          (Vec3.cross32 rayDirection (Vec3.sub32 triangle.vertex3 triangle.vertex1))
          < EPSILON64 →
      intersectTriangle32 rayOrigin rayDirection triangle = none) := by
  refine ⟨fun h => ?_, intersectTriangle32_of_small rayOrigin rayDirection triangle⟩
  refine intersectTriangle32_of_small rayOrigin rayDirection triangle ?_
  rw [determinant32_of_zero_edge rayDirection triangle h]
  exact ⟨neg_lt_zero.2 EPSILON64_pos, EPSILON64_pos⟩

/-- Witness for C15: a triangle whose second vertex is its first, and a ray through the
segment that remains. -/
theorem intersectTriangle32_degenerate_witness :
    intersectTriangle32 ⟨1 / 2, 0, 5⟩ ⟨0, 0, -1⟩
      ⟨⟨0, 0, 0⟩, ⟨0, 0, 0⟩, ⟨1, 0, 0⟩, ⟨1, 1, 1⟩⟩ = none :=
  (intersectTriangle32_degenerate ⟨1 / 2, 0, 5⟩ ⟨0, 0, -1⟩
    ⟨⟨0, 0, 0⟩, ⟨0, 0, 0⟩, ⟨1, 0, 0⟩, ⟨1, 1, 1⟩⟩).1 (Or.inl rfl)

/-- Counterexample to C15 as stated, in `float` arithmetic.  The vertices `(0, 0, 0)`,
`(2, 5.3, -2.3)`, `(4, 10.6, -4.6)` are collinear as `float` (the second edge is twice the
first), the computed determinant is `17 / 2 ^ 23`, about `2.03e-6`, and the ray from
`(0.9, 2.4, 0.9)` along `(-0.3, -0.8, -0.3)` is reported to hit at `t ≈ 0.235`.  With
`vertex2 = vertex3 = (7.4, 7.2, 6.8)` the ray from `(5.5, 3.3, 0.7)` along
`(-0.6, 0.1, 0.9)` is reported to hit at `t = 1`. -/
theorem intersectTriangle32_collinear_counterexample :
    (Vec3.cross
        ((⟨4, round32 (106 / 10), round32 (-46 / 10)⟩ : Vec3 ℚ) - ⟨0, 0, 0⟩)
        ((⟨2, round32 (53 / 10), round32 (-23 / 10)⟩ : Vec3 ℚ) - ⟨0, 0, 0⟩) = ⟨0, 0, 0⟩ ∧
      (⟨4, round32 (106 / 10), round32 (-46 / 10)⟩ : Vec3 ℚ) - ⟨0, 0, 0⟩
        = (2 : ℚ) • ((⟨2, round32 (53 / 10), round32 (-23 / 10)⟩ : Vec3 ℚ) - ⟨0, 0, 0⟩) ∧
      Vec3.dot32
        (Vec3.sub32 ⟨2, round32 (53 / 10), round32 (-23 / 10)⟩ ⟨0, 0, 0⟩)
        (Vec3.cross32 ⟨round32 (-3 / 10), round32 (-8 / 10), round32 (-3 / 10)⟩
          (Vec3.sub32 ⟨4, round32 (106 / 10), round32 (-46 / 10)⟩ ⟨0, 0, 0⟩))
        = 17 / 8388608 ∧
      intersectTriangle32 ⟨round32 (9 / 10), round32 (24 / 10), round32 (9 / 10)⟩
        ⟨round32 (-3 / 10), round32 (-8 / 10), round32 (-3 / 10)⟩
        ⟨⟨0, 0, 0⟩, ⟨2, round32 (53 / 10), round32 (-23 / 10)⟩,
          ⟨4, round32 (106 / 10), round32 (-46 / 10)⟩, ⟨1, 0, 0⟩⟩
        = some (15790321 / 67108864)) ∧
    intersectTriangle32 ⟨round32 (55 / 10), round32 (33 / 10), round32 (7 / 10)⟩
      ⟨round32 (-6 / 10), round32 (1 / 10), round32 (9 / 10)⟩
      ⟨⟨0, 0, 0⟩, ⟨round32 (74 / 10), round32 (72 / 10), round32 (68 / 10)⟩,
        ⟨round32 (74 / 10), round32 (72 / 10), round32 (68 / 10)⟩, ⟨1, 0, 0⟩⟩
      = some 1 := by
  refine ⟨⟨?_, ?_, by decide!, by decide!⟩, by decide!⟩
  · ext <;> simp [Vec3.cross] <;> decide!
  · ext <;> simp <;> decide!

end RayTracer

namespace RayMarcher

end RayMarcher

end Portfolio
